import Mathlib

/-!
Memory management simulator: heap allocator, virtual memory manager and cache hierarchy.

A shallow embedding of `src/main.cpp`.

* C++ `int` values are modelled by `Int`.  Signed overflow is undefined behaviour in C++, so
  every execution of the program with defined behaviour is an execution of this model; the
  only quantities that grow without bound are `nextAllocId`, `timeCounter` and the counters.
* A `std::vector` is a `List`.  In the heap allocator every index is in range by
  construction; `chosenIndex`, which the source keeps in an `int` with the sentinel `-1`, is
  an `Option Nat` (`none` for `-1`).  In the virtual memory manager a vector access with an
  `int` index returns an `Option`, and an operation returns `none` exactly when the source
  would index a vector out of range.
* The `std::queue` is a `List` with its front at the head; the `std::unordered_map` is an
  association list in iteration order.
* The process-wide globals (`currentStrategy`, `nextAllocId`, the allocation counters,
  `currentPolicy`, `timeCounter`) and the function-local static of `updateTLB` are fields of
  explicit state records.

The file has the definitions first (heap allocator, virtual memory manager, cache hierarchy,
specification vocabulary) and then the lemmas and theorems.
-/

namespace MemSim

/-! ## Heap allocator: data model -/

/-- The source's `struct MemoryBlock`. -/
structure MemoryBlock where
  start : Int
  size : Int
  free : Bool
  id : Int
deriving DecidableEq, Repr

instance : Inhabited MemoryBlock := ⟨⟨0, 0, false, 0⟩⟩

/-- The source's `enum class AllocationStrategy`. -/
inductive AllocationStrategy where
  | FIRST_FIT
  | BEST_FIT
  | WORST_FIT
deriving DecidableEq, Repr

/-- The block vector of `main` together with the globals the allocator reads and writes. -/
structure HeapState where
  memory : List MemoryBlock
  currentStrategy : AllocationStrategy
  nextAllocId : Int
  totalAllocRequests : Int
  successfulAllocs : Int
  failedAllocs : Int
deriving DecidableEq, Repr

/-- The heap state at process start: empty vector, first fit, `nextAllocId = 1`, counters 0. -/
def HeapState.initial : HeapState :=
  { memory := [], currentStrategy := .FIRST_FIT, nextAllocId := 1,
    totalAllocRequests := 0, successfulAllocs := 0, failedAllocs := 0 }

/-! ## Heap allocator: operations -/

/-- The source's `initMemory`: clear the vector, push `{0, size, true, -1}`, reset `nextAllocId`. -/
def initMemory (st : HeapState) (size : Int) : HeapState :=
  { st with memory := [{ start := 0, size := size, free := true, id := -1 }], nextAllocId := 1 }

/-- The selection loop of `allocateMemory` (lines 83-101), run on the suffix of `memory` that
starts at index `i`, with the current value of `chosenIndex`. -/
def chooseIndexFrom (strategy : AllocationStrategy) (memory : List MemoryBlock)
    (requestSize : Int) : List MemoryBlock → Nat → Option Nat → Option Nat
  | [], _, chosenIndex => chosenIndex
  | b :: rest, i, chosenIndex =>
    if b.free = false ∨ b.size < requestSize then
      chooseIndexFrom strategy memory requestSize rest (i + 1) chosenIndex
    else
      match strategy with
      | .FIRST_FIT => some i
      | .BEST_FIT =>
        match chosenIndex with
        | none => chooseIndexFrom strategy memory requestSize rest (i + 1) (some i)
        | some c =>
          if b.size < (memory.getD c default).size then
            chooseIndexFrom strategy memory requestSize rest (i + 1) (some i)
          else
            chooseIndexFrom strategy memory requestSize rest (i + 1) (some c)
      | .WORST_FIT =>
        match chosenIndex with
        | none => chooseIndexFrom strategy memory requestSize rest (i + 1) (some i)
        | some c =>
          if b.size > (memory.getD c default).size then
            chooseIndexFrom strategy memory requestSize rest (i + 1) (some i)
          else
            chooseIndexFrom strategy memory requestSize rest (i + 1) (some c)

/-- The whole selection loop: `chosenIndex` after the `for` over all of `memory`. -/
def chooseIndex (strategy : AllocationStrategy) (memory : List MemoryBlock)
    (requestSize : Int) : Option Nat :=
  chooseIndexFrom strategy memory requestSize memory 0 none

/-- Lines 109-122 of `allocateMemory`: build the used block, advance and shrink the chosen
block, erase it when its size became 0, insert the used block at `chosenIndex`. -/
def carve (memory : List MemoryBlock) (chosenIndex : Nat) (requestSize : Int)
    (allocId : Int) : List MemoryBlock :=
  let chosen := memory.getD chosenIndex default
  let allocated : MemoryBlock :=
    { start := chosen.start, size := requestSize, free := false, id := allocId }
  let shrunk := memory.set chosenIndex
    { chosen with start := chosen.start + requestSize, size := chosen.size - requestSize }
  let erased :=
    if (shrunk.getD chosenIndex default).size = 0 then shrunk.eraseIdx chosenIndex else shrunk
  erased.insertIdx chosenIndex allocated

/-- The source's `allocateMemory`; the Boolean is its return value. -/
def allocateMemory (st : HeapState) (requestSize : Int) : Bool × HeapState :=
  if requestSize ≤ 0 then (false, st)
  else if st.memory.isEmpty then (false, st)
  else
    match chooseIndex st.currentStrategy st.memory requestSize with
    | none =>
      (false, { st with totalAllocRequests := st.totalAllocRequests + 1,
                        failedAllocs := st.failedAllocs + 1 })
    | some chosenIndex =>
      (true, { st with totalAllocRequests := st.totalAllocRequests + 1,
                       successfulAllocs := st.successfulAllocs + 1,
                       nextAllocId := st.nextAllocId + 1,
                       memory := carve st.memory chosenIndex requestSize st.nextAllocId })

/-- The search of `freeMemory`: the first index at or after `i` of a used block with this id. -/
def findUsedById (id : Int) : List MemoryBlock → Nat → Option Nat
  | [], _ => none
  | b :: rest, i =>
    if b.free = false ∧ b.id = id then some i else findUsedById id rest (i + 1)

/-- First coalescing step of `freeMemory` (lines 143-147): when the block before index `i` is
free, add the size of block `i` to it, erase block `i` and step `i` back. -/
def coalescePrev (memory : List MemoryBlock) (i : Nat) : List MemoryBlock × Nat :=
  if i > 0 ∧ (memory.getD (i - 1) default).free = true then
    let prev := memory.getD (i - 1) default
    ((memory.set (i - 1)
        { prev with size := prev.size + (memory.getD i default).size }).eraseIdx i, i - 1)
  else (memory, i)

/-- Second coalescing step of `freeMemory` (lines 150-153): when block `i + 1` exists and is
free, add its size to block `i` and erase it. -/
def coalesceNext (memory : List MemoryBlock) (i : Nat) : List MemoryBlock :=
  if i + 1 < memory.length ∧ (memory.getD (i + 1) default).free = true then
    let cur := memory.getD i default
    (memory.set i
      { cur with size := cur.size + (memory.getD (i + 1) default).size }).eraseIdx (i + 1)
  else memory

/-- The body of `freeMemory` at the matching index `i` (lines 139-153): mark the block free,
clear its id, merge it into a free predecessor, then merge a free successor into it. -/
def releaseAt (memory : List MemoryBlock) (i : Nat) : List MemoryBlock :=
  let marked := memory.set i { memory.getD i default with free := true, id := -1 }
  let merged := coalescePrev marked i
  coalesceNext merged.1 merged.2

/-- The source's `freeMemory`; the Boolean is its return value. -/
def freeMemory (memory : List MemoryBlock) (id : Int) : Bool × List MemoryBlock :=
  match findUsedById id memory 0 with
  | none => (false, memory)
  | some i => (true, releaseAt memory i)

/-- The search of `freeByAddress`: the first used block whose start is `address`. -/
def findUsedByStart (address : Int) : List MemoryBlock → Option MemoryBlock
  | [] => none
  | b :: rest =>
    if b.free = false ∧ b.start = address then some b else findUsedByStart address rest

/-- The source's `freeByAddress`: delegate to `freeMemory` with the id of the block found. -/
def freeByAddress (memory : List MemoryBlock) (address : Int) : Bool × List MemoryBlock :=
  match findUsedByStart address memory with
  | none => (false, memory)
  | some b => freeMemory memory b.id

/-- The heap commands of the console loop (after `init memory`). -/
inductive HeapCmd where
  | alloc (size : Int)
  | free (id : Int)
  | freeAddr (address : Int)
  | strategy (s : AllocationStrategy)
deriving DecidableEq, Repr

/-- One dispatched heap command, as in the loop of `main`. -/
def heapStep (st : HeapState) : HeapCmd → HeapState
  | .alloc size => (allocateMemory st size).2
  | .free id => { st with memory := (freeMemory st.memory id).2 }
  | .freeAddr address => { st with memory := (freeByAddress st.memory address).2 }
  | .strategy s => { st with currentStrategy := s }

/-- A sequence of heap commands, run in order. -/
def heapRun (st : HeapState) (cmds : List HeapCmd) : HeapState :=
  cmds.foldl heapStep st

/-! ## Virtual memory manager: data model

`std::vector` accesses with an `int` index are modelled by `vecGet` and `vecSet`, which return
`none` when the index is outside the vector; an operation of the model returns `none` exactly
when the source would index a vector out of range.  The two caches that the `translate`
command feeds with the physical address do not influence the state below and are not part of
it. -/

/-- The source's `struct PageTableEntry`. -/
structure PageTableEntry where
  valid : Bool
  frameNumber : Int
deriving DecidableEq, Repr

/-- The source's `struct TLBEntry`. -/
structure TLBEntry where
  pageNumber : Int
  frameNumber : Int
  valid : Bool
deriving DecidableEq, Repr

/-- The source's `enum class ReplacementPolicy`. -/
inductive ReplacementPolicy where
  | FIFO
  | LRU
deriving DecidableEq, Repr

/-- Bytes per page. -/
def PAGE_SIZE : Int := 64

/-- Number of virtual pages. -/
def NUM_PAGES : Nat := 32

/-- Number of physical frames. -/
def NUM_FRAMES : Nat := 16

/-- Number of translation cache entries (`TLB_SIZE` in `main`). -/
def TLB_SIZE : Nat := 4

/-- The constant `INT_MAX` of `<climits>` for a 32-bit `int`. -/
def INT_MAX : Int := 2147483647

/-- The virtual memory state of `main` together with the globals `currentPolicy` and
`timeCounter` and the function-local static `next` of `updateTLB`.  `fifoQueue` has its front
at the head; `lastUsed` lists the entries of the `unordered_map` in iteration order (which the
C++ standard leaves unspecified). -/
structure VMState where
  pageTable : List PageTableEntry
  tlb : List TLBEntry
  tlbNext : Nat
  frameUsed : List Bool
  fifoQueue : List Int
  lastUsed : List (Int × Int)
  timeCounter : Int
  currentPolicy : ReplacementPolicy
  tlbHits : Int
  tlbMisses : Int
deriving DecidableEq, Repr

/-- The state `main` builds before its command loop. -/
def VMState.initial : VMState :=
  { pageTable := List.replicate NUM_PAGES { valid := false, frameNumber := -1 },
    tlb := List.replicate TLB_SIZE { pageNumber := -1, frameNumber := -1, valid := false },
    tlbNext := 0,
    frameUsed := List.replicate NUM_FRAMES false,
    fifoQueue := [],
    lastUsed := [],
    timeCounter := 0,
    currentPolicy := .FIFO,
    tlbHits := 0,
    tlbMisses := 0 }

/-- The outcomes of `translateAddress`: the physical address, or one of its two failures
(told apart in the source by the message printed before `return false`). -/
inductive TranslateResult where
  | ok (physicalAddress : Int)
  | addressOutOfRange
  | pageFault
deriving DecidableEq, Repr

/-! ## Virtual memory manager: operations -/

/-- Read `v[i]` for an `int` index; `none` when out of range. -/
def vecGet {α : Type} (v : List α) (i : Int) : Option α :=
  if i < 0 then none else v[i.toNat]?

/-- Write `v[i] = x` for an `int` index; `none` when out of range. -/
def vecSet {α : Type} (v : List α) (i : Int) (x : α) : Option (List α) :=
  if 0 ≤ i ∧ i.toNat < v.length then some (v.set i.toNat x) else none

/-- The statement `lastUsed[page] = time` on the `unordered_map`. -/
def mapAssign (m : List (Int × Int)) (page time : Int) : List (Int × Int) :=
  if m.any (fun e => e.1 = page) then m.map (fun e => if e.1 = page then (page, time) else e)
  else m ++ [(page, time)]

/-- The call `lastUsed.erase(page)`. -/
def mapErase (m : List (Int × Int)) (page : Int) : List (Int × Int) :=
  m.filter (fun e => e.1 ≠ page)

/-- The source's `tlbLookup`: the frame of the first valid entry for the page. -/
def tlbLookup (pageNumber : Int) : List TLBEntry → Option Int
  | [] => none
  | entry :: rest =>
    if entry.valid = true ∧ entry.pageNumber = pageNumber then some entry.frameNumber
    else tlbLookup pageNumber rest

/-- The source's `updateTLB`: overwrite the entry at `next`, advance `next` modulo the size. -/
def updateTLB (st : VMState) (pageNumber frameNumber : Int) : Option VMState :=
  match vecSet st.tlb (st.tlbNext : Int)
      { pageNumber := pageNumber, frameNumber := frameNumber, valid := true } with
  | none => none
  | some tlb => some { st with tlb := tlb, tlbNext := (st.tlbNext + 1) % st.tlb.length }

/-- The source's `translateAddress`. -/
def translateAddress (st : VMState) (virtualAddress : Int) :
    Option (TranslateResult × VMState) :=
  let pageNumber := virtualAddress.tdiv PAGE_SIZE
  let offset := virtualAddress.tmod PAGE_SIZE
  if pageNumber < 0 ∨ pageNumber ≥ NUM_PAGES then some (.addressOutOfRange, st)
  else
    match tlbLookup pageNumber st.tlb with
    | some frame =>
      some (.ok (frame * PAGE_SIZE + offset), { st with tlbHits := st.tlbHits + 1 })
    | none =>
      match vecGet st.pageTable pageNumber with
      | none => none
      | some entry =>
        if entry.valid = false then
          some (.pageFault, { st with tlbMisses := st.tlbMisses + 1 })
        else
          match updateTLB { st with tlbMisses := st.tlbMisses + 1 }
              pageNumber entry.frameNumber with
          | none => none
          | some st2 =>
            some (.ok (entry.frameNumber * PAGE_SIZE + offset),
              { st2 with lastUsed := mapAssign st2.lastUsed pageNumber st2.timeCounter,
                         timeCounter := st2.timeCounter + 1 })

/-- The FIFO loop of `evictPage` (lines 261-265): pop until a popped page is valid; returns
`victimPage` and the remaining queue. -/
def fifoScan (pageTable : List PageTableEntry) : List Int → Int → Option (Int × List Int)
  | [], victimPage => some (victimPage, [])
  | front :: rest, _ =>
    match vecGet pageTable front with
    | none => none
    | some entry => if entry.valid = true then some (front, rest)
                    else fifoScan pageTable rest front

/-- The LRU loop of `evictPage` (lines 267-273) over the entries of `lastUsed`. -/
def lruScan (pageTable : List PageTableEntry) : List (Int × Int) → Int → Int → Option Int
  | [], _, victimPage => some victimPage
  | (page, time) :: rest, oldestTime, victimPage =>
    match vecGet pageTable page with
    | none => none
    | some entry =>
      if entry.valid = true ∧ time < oldestTime then lruScan pageTable rest time page
      else lruScan pageTable rest oldestTime victimPage

/-- The fallback loop of `evictPage` (lines 278-283) from index `i` with `remaining` rounds to
go: the first valid page, or `victimPage` unchanged. -/
def fallbackScan (pageTable : List PageTableEntry) (victimPage : Int) :
    Nat → Nat → Option Int
  | _, 0 => some victimPage
  | i, remaining + 1 =>
    match vecGet pageTable (i : Int) with
    | none => none
    | some entry => if entry.valid = true then some (i : Int)
                    else fallbackScan pageTable victimPage (i + 1) remaining

/-- Lines 260-274 of `evictPage`: the loop of the active policy, started with
`victimPage = -1`; returns `victimPage` and the queue the FIFO loop leaves. -/
def policyScan (st : VMState) : Option (Int × List Int) :=
  match st.currentPolicy with
  | .FIFO => fifoScan st.pageTable st.fifoQueue (-1)
  | .LRU =>
    match lruScan st.pageTable st.lastUsed INT_MAX (-1) with
    | none => none
    | some victimPage => some (victimPage, st.fifoQueue)

/-- Lines 276-284 of `evictPage`: run the fallback loop when `victimPage` is `-1` or names an
invalid entry. -/
def fallbackIfNeeded (pageTable : List PageTableEntry) (victimPage : Int) : Option Int :=
  if victimPage = -1 then fallbackScan pageTable victimPage 0 NUM_PAGES
  else
    match vecGet pageTable victimPage with
    | none => none
    | some entry =>
      if entry.valid = false then fallbackScan pageTable victimPage 0 NUM_PAGES
      else some victimPage

/-- Lines 258-284 of `evictPage`: the victim page after the policy loop and the fallback, with
the queue the FIFO loop leaves. -/
def selectVictim (st : VMState) : Option (Int × List Int) :=
  match policyScan st with
  | none => none
  | some (victimPage, queue) =>
    match fallbackIfNeeded st.pageTable victimPage with
    | none => none
    | some v => some (v, queue)

/-- The source's `evictPage`: returns the freed frame. -/
def evictPage (st : VMState) : Option (Int × VMState) :=
  match selectVictim st with
  | none => none
  | some (victimPage, queue) =>
    match vecGet st.pageTable victimPage with
    | none => none
    | some entry =>
      let frame := entry.frameNumber
      match vecSet st.pageTable victimPage { valid := false, frameNumber := -1 } with
      | none => none
      | some pageTable =>
        match vecSet st.frameUsed frame false with
        | none => none
        | some frameUsed =>
          some (frame, { st with pageTable := pageTable, frameUsed := frameUsed,
                                 fifoQueue := queue,
                                 lastUsed := mapErase st.lastUsed victimPage })

/-- The free-frame loop of `mapPage` (lines 233-241) from frame `f` with `remaining` rounds to
go: the first frame that is not in use. -/
def findFreeFrame (frameUsed : List Bool) : Nat → Nat → Option (Option Nat)
  | _, 0 => some none
  | f, remaining + 1 =>
    match vecGet frameUsed (f : Int) with
    | none => none
    | some used => if used = false then some (some f)
                   else findFreeFrame frameUsed (f + 1) remaining

/-- Lines 235-238 and 246-249 of `mapPage`: occupy the frame, map the page to it, push the page
on the queue and stamp it. -/
def installPage (st : VMState) (pageNumber frame : Int) : Option VMState :=
  match vecSet st.frameUsed frame true with
  | none => none
  | some frameUsed =>
    match vecSet st.pageTable pageNumber { valid := true, frameNumber := frame } with
    | none => none
    | some pageTable =>
      some { st with frameUsed := frameUsed, pageTable := pageTable,
                     fifoQueue := st.fifoQueue ++ [pageNumber],
                     lastUsed := mapAssign st.lastUsed pageNumber st.timeCounter,
                     timeCounter := st.timeCounter + 1 }

/-- The source's `mapPage` (it always returns true). -/
def mapPage (st : VMState) (pageNumber : Int) : Option VMState :=
  match findFreeFrame st.frameUsed 0 NUM_FRAMES with
  | none => none
  | some (some f) => installPage st pageNumber (f : Int)
  | some none =>
    match evictPage st with
    | none => none
    | some (frame, st1) => installPage st1 pageNumber frame

/-- The virtual memory commands of the console loop. -/
inductive VMCmd where
  | load (page : Int)
  | translate (virtualAddress : Int)
  | policy (p : ReplacementPolicy)
deriving DecidableEq, Repr

/-- One dispatched command, as in the loop of `main`: `load` rejects a page outside
`[0, NUM_PAGES)` before calling `mapPage`. -/
def vmStep (st : VMState) : VMCmd → Option VMState
  | .load page =>
    if page < 0 ∨ page ≥ NUM_PAGES then some st else mapPage st page
  | .translate virtualAddress =>
    match translateAddress st virtualAddress with
    | none => none
    | some (_, st1) => some st1
  | .policy p => some { st with currentPolicy := p }

/-- A sequence of commands, run in order. -/
def vmRun : VMState → List VMCmd → Option VMState
  | st, [] => some st
  | st, c :: cs =>
    match vmStep st c with
    | none => none
    | some st1 => vmRun st1 cs

/-! ## Cache hierarchy: data model and operations

The two caches are a state of their own: the `translate` command of `main` passes them the
physical address of a successful translation, and nothing flows back.  An operation returns
`none` when the source would index `lines` out of range or divide by a zero `numLines`. -/

/-- The source's `struct CacheLine`. -/
structure CacheLine where
  tag : Int
  valid : Bool
deriving DecidableEq, Repr

/-- The source's `struct Cache`. -/
structure Cache where
  numLines : Int
  lines : List CacheLine
  hits : Int
  misses : Int
deriving DecidableEq, Repr

/-- Bytes per cache block. -/
def CACHE_BLOCK_SIZE : Int := 64

/-- Number of lines of the first level. -/
def L1_LINES : Int := 8

/-- Number of lines of the second level. -/
def L2_LINES : Int := 16

/-- The constructor `Cache(int n)`: `n` invalid lines with tag `-1`, both counters 0. -/
def Cache.empty (n : Int) : Cache :=
  { numLines := n, lines := List.replicate n.toNat { tag := -1, valid := false },
    hits := 0, misses := 0 }

/-- The source's `accessCache`; the Boolean is its return value (true for a hit). -/
def accessCache (cache : Cache) (physicalAddress : Int) : Option (Bool × Cache) :=
  if cache.numLines = 0 then none
  else
    let blockNumber := physicalAddress.tdiv CACHE_BLOCK_SIZE
    let index := blockNumber.tmod cache.numLines
    let tag := blockNumber.tdiv cache.numLines
    match vecGet cache.lines index with
    | none => none
    | some line =>
      if line.valid = true ∧ line.tag = tag then
        some (true, { cache with hits := cache.hits + 1 })
      else
        match vecSet cache.lines index { tag := tag, valid := true } with
        | none => none
        | some lines => some (false, { cache with misses := cache.misses + 1, lines := lines })

/-- The source's `accessMemoryHierarchy`: the two caches after the access. -/
def accessMemoryHierarchy (physicalAddress : Int) (L1 L2 : Cache) : Option (Cache × Cache) :=
  match accessCache L1 physicalAddress with
  | none => none
  | some (true, L1a) => some (L1a, L2)
  | some (false, L1a) =>
    match accessCache L2 physicalAddress with
    | none => none
    | some (true, L2a) =>
      match accessCache L1a physicalAddress with
      | none => none
      | some (_, L1b) => some (L1b, L2a)
    | some (false, L2a) =>
      match accessCache L2a physicalAddress with
      | none => none
      | some (_, L2b) =>
        match accessCache L1a physicalAddress with
        | none => none
        | some (_, L1b) => some (L1b, L2b)

/-- The caches `main` builds before its command loop. -/
def emptyCaches : Cache × Cache := (Cache.empty L1_LINES, Cache.empty L2_LINES)

/-- A sequence of accesses, run in order on the pair `(L1, L2)`. -/
def cacheRun : Cache × Cache → List Int → Option (Cache × Cache)
  | caches, [] => some caches
  | caches, a :: rest =>
    match accessMemoryHierarchy a caches.1 caches.2 with
    | none => none
    | some caches1 => cacheRun caches1 rest

/-! ## Heap allocator: specification vocabulary -/

/-- What the second coalescing step leaves of `cur :: post`: `cur` absorbs a free head of
`post`. -/
def mergeNext (cur : MemoryBlock) : List MemoryBlock → List MemoryBlock
  | [] => [cur]
  | q :: post =>
    if q.free = true then { cur with size := cur.size + q.size } :: post else cur :: q :: post

/-- The block that `releaseAt` leaves in place of the released one. -/
def released (b : MemoryBlock) : MemoryBlock := { b with free := true, id := -1 }

/-- A block that can satisfy a request of `n` bytes: free and at least `n` bytes long. -/
def Fits (n : Int) (b : MemoryBlock) : Prop := b.free = true ∧ n ≤ b.size

instance (n : Int) (b : MemoryBlock) : Decidable (Fits n b) := by
  unfold Fits; infer_instance

/-- Index `k` of `memory` holds a block that fits a request of `n` bytes. -/
def FitsAt (memory : List MemoryBlock) (n : Int) (k : Nat) : Prop :=
  k < memory.length ∧ Fits n (memory.getD k default)

/-- The size stored at index `k`. -/
def sizeAt (memory : List MemoryBlock) (k : Nat) : Int := (memory.getD k default).size

/-- Loop invariant of the best-fit scan after the first `i` blocks. -/
def BestInv (memory : List MemoryBlock) (n : Int) (i : Nat) : Option Nat → Prop
  | none => ∀ j, j < i → ¬ FitsAt memory n j
  | some c => FitsAt memory n c ∧ c < i ∧
      (∀ j, j < i → FitsAt memory n j → sizeAt memory c ≤ sizeAt memory j) ∧
      (∀ j, j < c → FitsAt memory n j → sizeAt memory c < sizeAt memory j)

/-- Loop invariant of the worst-fit scan after the first `i` blocks. -/
def WorstInv (memory : List MemoryBlock) (n : Int) (i : Nat) : Option Nat → Prop
  | none => ∀ j, j < i → ¬ FitsAt memory n j
  | some c => FitsAt memory n c ∧ c < i ∧
      (∀ j, j < i → FitsAt memory n j → sizeAt memory j ≤ sizeAt memory c) ∧
      (∀ j, j < c → FitsAt memory n j → sizeAt memory j < sizeAt memory c)

/-- The blocks tile the addresses from `s` to `e`: the first block starts at `s`, every block
has positive size and starts exactly where the previous one ends, and the last one ends at
`e`. -/
def Contig : Int → List MemoryBlock → Int → Prop
  | s, [], e => s = e
  | s, b :: rest, e => b.start = s ∧ 0 < b.size ∧ Contig (s + b.size) rest e

/-- No two adjacent blocks are both free. -/
def NoAdjFree (m : List MemoryBlock) : Prop :=
  List.Chain' (fun a b => ¬ (a.free = true ∧ b.free = true)) m

/-- Every free block carries the cleared id `-1`. -/
def FreeIdsCleared (m : List MemoryBlock) : Prop := ∀ b ∈ m, b.free = true → b.id = -1

/-- The used (non-free) blocks, in list order. -/
def usedBlocks (m : List MemoryBlock) : List MemoryBlock := m.filter (fun b => !b.free)

/-- The ids of the used blocks, in list order. -/
def usedIds (m : List MemoryBlock) : List Int := (usedBlocks m).map (fun b => b.id)

/-- Well-formedness of a block list for a heap of `size` bytes. -/
def MemInv (size : Int) (m : List MemoryBlock) : Prop :=
  Contig 0 m size ∧ NoAdjFree m ∧ FreeIdsCleared m

/-- The ids of the used blocks are pairwise distinct and lie in `[1, next)`, and `next >= 1`. -/
def IdInv (m : List MemoryBlock) (next : Int) : Prop :=
  1 ≤ next ∧ (usedIds m).Nodup ∧ ∀ x ∈ usedIds m, 1 ≤ x ∧ x < next

/-- The ids handed out along a run, oldest first: a successful `allocateMemory` hands out the
value `nextAllocId` has when it is called (line 113, `nextAllocId++`). -/
def assignedIds : HeapState → List HeapCmd → List Int
  | _, [] => []
  | st, .alloc n :: cs =>
    if (allocateMemory st n).1 = true then
      st.nextAllocId :: assignedIds (heapStep st (.alloc n)) cs
    else assignedIds (heapStep st (.alloc n)) cs
  | st, .free id :: cs => assignedIds (heapStep st (.free id)) cs
  | st, .freeAddr a :: cs => assignedIds (heapStep st (.freeAddr a)) cs
  | st, .strategy s :: cs => assignedIds (heapStep st (.strategy s)) cs

/-! ## Virtual memory manager: specification vocabulary -/

/-- Some page table entry is valid. -/
def SomeValid (pageTable : List PageTableEntry) : Prop :=
  ∃ (p : Int) (e : PageTableEntry), vecGet pageTable p = some e ∧ e.valid = true

/-- Shape of the virtual memory state: the vectors keep their sizes, the cursor of the
translation cache is inside it, valid entries name frames in range, and queue entries and
recency keys are page numbers in range. -/
structure VMShape (st : VMState) : Prop where
  ptLen : st.pageTable.length = NUM_PAGES
  fuLen : st.frameUsed.length = NUM_FRAMES
  tlbLen : st.tlb.length = TLB_SIZE
  tlbCursor : st.tlbNext < TLB_SIZE
  validFrame : ∀ (p : Int) (e : PageTableEntry), vecGet st.pageTable p = some e →
    e.valid = true → 0 ≤ e.frameNumber ∧ e.frameNumber < NUM_FRAMES
  queueRange : ∀ q ∈ st.fifoQueue, 0 ≤ q ∧ q < NUM_PAGES
  keysRange : ∀ e ∈ st.lastUsed, 0 ≤ e.1 ∧ e.1 < NUM_PAGES

/-- Invariant of the virtual memory state between commands: its shape, and once a frame is in
use some page is valid. -/
structure VMInv (st : VMState) : Prop where
  shape : VMShape st
  someValid : (∃ f : Int, vecGet st.frameUsed f = some true) → SomeValid st.pageTable

/-- Page `p` is not resident and no valid translation cache entry names it. -/
def NotPresent (p : Int) (st : VMState) : Prop :=
  (∀ e, vecGet st.pageTable p = some e → e.valid = false) ∧ tlbLookup p st.tlb = none

/-- Frame bookkeeping of the virtual memory state: the frame of every valid entry is marked in
use, and no two valid entries share a frame. -/
structure VMFrames (st : VMState) : Prop where
  validUsed : ∀ (p : Int) (e : PageTableEntry), vecGet st.pageTable p = some e →
    e.valid = true → vecGet st.frameUsed e.frameNumber = some true
  injective : ∀ (p q : Int) (e1 e2 : PageTableEntry), vecGet st.pageTable p = some e1 →
    vecGet st.pageTable q = some e2 → e1.valid = true → e2.valid = true →
    e1.frameNumber = e2.frameNumber → p = q

/-- The recency ledger against the page table: distinct entries have distinct pages and
distinct timestamps, its pages are exactly the valid pages, and every timestamp is below the
clock. -/
structure LRUInv (st : VMState) : Prop where
  distinct : st.lastUsed.Pairwise (fun a b => a.1 ≠ b.1 ∧ a.2 ≠ b.2)
  keysValid : ∀ e ∈ st.lastUsed, ∃ pe, vecGet st.pageTable e.1 = some pe ∧ pe.valid = true
  validKeys : ∀ (p : Int) (pe : PageTableEntry), vecGet st.pageTable p = some pe →
    pe.valid = true → ∃ t, (p, t) ∈ st.lastUsed
  below : ∀ e ∈ st.lastUsed, e.2 < st.timeCounter

/-! ## Cache hierarchy: specification vocabulary -/

/-- The cache has `n` lines and `numLines = n`. -/
def CacheShape (n : Int) (c : Cache) : Prop :=
  c.numLines = n ∧ (c.lines.length : Int) = n

/-- The line that block `b` maps to is valid and carries the tag of `b`. -/
def Holds (c : Cache) (b : Int) : Prop :=
  vecGet c.lines (b % c.numLines) = some { tag := b / c.numLines, valid := true }

/-- Every block held in a valid line of `L1` is held in `L2`. -/
def Inclusive (L1 L2 : Cache) : Prop :=
  ∀ (i : Int) (line : CacheLine), vecGet L1.lines i = some line → line.valid = true →
    vecGet L2.lines ((line.tag * 8 + i) % 16) =
      some { tag := (line.tag * 8 + i) / 16, valid := true }

/-- Every valid line carries a non-negative tag. -/
def TagsNonneg (c : Cache) : Prop :=
  ∀ (i : Int) (line : CacheLine), vecGet c.lines i = some line → line.valid = true →
    0 ≤ line.tag

/-- Invariant of the pair of caches: 8 and 16 lines, non-negative tags in the first level,
and inclusion of the first level in the second. -/
structure CachesInv (L1 L2 : Cache) : Prop where
  shape1 : CacheShape 8 L1
  shape2 : CacheShape 16 L2
  tags : TagsNonneg L1
  inclusive : Inclusive L1 L2

/-! ## Heap allocator: list surgery at a split point -/

theorem getD_split (pre : List MemoryBlock) (b : MemoryBlock) (post : List MemoryBlock)
    (d : MemoryBlock) : (pre ++ b :: post).getD pre.length d = b := by
  induction pre with
  | nil => rfl
  | cons x xs ih => simpa using ih

theorem set_split (pre : List MemoryBlock) (b x : MemoryBlock) (post : List MemoryBlock) :
    (pre ++ b :: post).set pre.length x = pre ++ x :: post := by
  induction pre with
  | nil => rfl
  | cons y ys ih => simp

theorem eraseIdx_split (pre : List MemoryBlock) (b : MemoryBlock) (post : List MemoryBlock) :
    (pre ++ b :: post).eraseIdx pre.length = pre ++ post := by
  induction pre with
  | nil => rfl
  | cons y ys ih => simpa using ih

theorem insertIdx_split (pre : List MemoryBlock) (x : MemoryBlock) (post : List MemoryBlock) :
    (pre ++ post).insertIdx pre.length x = pre ++ x :: post := by
  induction pre with
  | nil => cases post <;> rfl
  | cons y ys ih => simpa using ih

/-- The effect of `carve` at the split point `pre ++ b :: post`. -/
theorem carve_split (pre : List MemoryBlock) (b : MemoryBlock) (post : List MemoryBlock)
    (n allocId : Int) :
    carve (pre ++ b :: post) pre.length n allocId =
      pre ++ ({ start := b.start, size := n, free := false, id := allocId } : MemoryBlock) ::
        (if b.size - n = 0 then post
         else { b with start := b.start + n, size := b.size - n } :: post) := by
  unfold carve
  simp only [getD_split, set_split]
  by_cases h : b.size - n = 0
  · simp only [h, if_true, eraseIdx_split, insertIdx_split]
  · simp only [h, if_false]
    exact insertIdx_split pre _ _

/-- Every in-range index splits the list around its element. -/
theorem split_at_index (m : List MemoryBlock) (i : Nat) (h : i < m.length) :
    ∃ pre b post, m = pre ++ b :: post ∧ pre.length = i ∧ m.getD i default = b := by
  refine ⟨m.take i, m.getD i default, m.drop (i + 1), ?_, ?_, rfl⟩
  · have h1 : m.getD i default = m[i] := by
      simp [List.getD_eq_getElem?_getD, List.getElem?_eq_getElem h]
    rw [h1]
    simp
  · simp [List.length_take, Nat.min_eq_left (Nat.le_of_lt h)]

theorem getD_split_succ (pre : List MemoryBlock) (b q : MemoryBlock) (post : List MemoryBlock)
    (d : MemoryBlock) : (pre ++ b :: q :: post).getD (pre.length + 1) d = q := by
  have h := getD_split (pre ++ [b]) q post d
  simpa using h

theorem eraseIdx_split_succ (pre : List MemoryBlock) (b q : MemoryBlock)
    (post : List MemoryBlock) :
    (pre ++ b :: q :: post).eraseIdx (pre.length + 1) = pre ++ b :: post := by
  have h := eraseIdx_split (pre ++ [b]) q post
  simpa using h

/-- The second coalescing step at a split point. -/
theorem coalesceNext_split (pre : List MemoryBlock) (cur : MemoryBlock)
    (post : List MemoryBlock) :
    coalesceNext (pre ++ cur :: post) pre.length = pre ++ mergeNext cur post := by
  unfold coalesceNext
  cases post with
  | nil => simp [mergeNext]
  | cons q post =>
    by_cases hq : q.free = true
    · have hlen : pre.length + 1 < (pre ++ cur :: q :: post).length := by simp
      simp only [getD_split_succ, getD_split, hq, hlen, and_self, if_true, set_split,
        eraseIdx_split_succ, mergeNext]
    · have hq2 : q.free = false := by simpa using hq
      simp only [getD_split_succ, hq2, mergeNext]
      simp

/-- The first coalescing step at a split point with a free predecessor. -/
theorem coalescePrev_split_free (pre : List MemoryBlock) (p cur : MemoryBlock)
    (post : List MemoryBlock) (hp : p.free = true) :
    coalescePrev (pre ++ p :: cur :: post) (pre.length + 1) =
      (pre ++ { p with size := p.size + cur.size } :: post, pre.length) := by
  unfold coalescePrev
  simp only [Nat.add_sub_cancel, getD_split, getD_split_succ, hp, gt_iff_lt, Nat.succ_pos,
    and_self, if_true, set_split, eraseIdx_split_succ, Nat.zero_lt_succ]

/-- The first coalescing step at a split point with a used predecessor. -/
theorem coalescePrev_split_used (pre : List MemoryBlock) (p cur : MemoryBlock)
    (post : List MemoryBlock) (hp : p.free = false) :
    coalescePrev (pre ++ p :: cur :: post) (pre.length + 1) =
      (pre ++ p :: cur :: post, pre.length + 1) := by
  unfold coalescePrev
  simp only [Nat.add_sub_cancel, getD_split, hp]
  simp

/-- The first coalescing step at index 0 does nothing. -/
theorem coalescePrev_zero (m : List MemoryBlock) : coalescePrev m 0 = (m, 0) := by
  simp [coalescePrev]

/-- `releaseAt` at the head of the list. -/
theorem releaseAt_head (b : MemoryBlock) (post : List MemoryBlock) :
    releaseAt (b :: post) 0 = mergeNext (released b) post := by
  have h := coalesceNext_split [] (released b) post
  simpa [releaseAt, coalescePrev_zero, released] using h

/-- `releaseAt` behind a free predecessor. -/
theorem releaseAt_after_free (pre : List MemoryBlock) (p b : MemoryBlock)
    (post : List MemoryBlock) (hp : p.free = true) :
    releaseAt (pre ++ p :: b :: post) (pre.length + 1) =
      pre ++ mergeNext { p with size := p.size + b.size } post := by
  have h1 : (pre ++ p :: b :: post).getD (pre.length + 1) default = b :=
    getD_split_succ pre p b post default
  have h2 : (pre ++ p :: b :: post).set (pre.length + 1) (released b) =
      pre ++ p :: released b :: post := by
    simp
  unfold releaseAt
  simp only [h1]
  rw [show ({ b with free := true, id := -1 } : MemoryBlock) = released b from rfl, h2,
    coalescePrev_split_free pre p (released b) post hp]
  exact coalesceNext_split pre _ post

/-- `releaseAt` behind a used predecessor. -/
theorem releaseAt_after_used (pre : List MemoryBlock) (p b : MemoryBlock)
    (post : List MemoryBlock) (hp : p.free = false) :
    releaseAt (pre ++ p :: b :: post) (pre.length + 1) =
      pre ++ p :: mergeNext (released b) post := by
  have h1 : (pre ++ p :: b :: post).getD (pre.length + 1) default = b :=
    getD_split_succ pre p b post default
  have h2 : (pre ++ p :: b :: post).set (pre.length + 1) (released b) =
      pre ++ p :: released b :: post := by
    simp
  unfold releaseAt
  simp only [h1]
  rw [show ({ b with free := true, id := -1 } : MemoryBlock) = released b from rfl, h2,
    coalescePrev_split_used pre p (released b) post hp]
  have h3 := coalesceNext_split (pre ++ [p]) (released b) post
  simpa using h3

/-! ## Heap allocator: the selection loop -/

theorem getD_at_prefix (pre : List MemoryBlock) (b : MemoryBlock) (rest : List MemoryBlock)
    (memory : List MemoryBlock) (hm : memory = pre ++ b :: rest) :
    memory.getD pre.length default = b ∧ pre.length < memory.length := by
  subst hm
  exact ⟨getD_split pre b rest default, by simp⟩

/-- The loop returns no index exactly when it started with none and no scanned block fits. -/
theorem chooseIndexFrom_eq_none (strategy : AllocationStrategy) (memory : List MemoryBlock)
    (n : Int) (rest : List MemoryBlock) (i : Nat) (chosen : Option Nat) :
    chooseIndexFrom strategy memory n rest i chosen = none ↔
      chosen = none ∧ ∀ b ∈ rest, ¬ Fits n b := by
  induction rest generalizing i chosen with
  | nil => simp [chooseIndexFrom]
  | cons b rest ih =>
    unfold chooseIndexFrom
    by_cases hb : b.free = false ∨ b.size < n
    · have hnf : ¬ Fits n b := by
        rintro ⟨h1, h2⟩
        rcases hb with h | h
        · simp [h1] at h
        · omega
      simp only [hb, if_true, ih, List.mem_cons, forall_eq_or_imp, hnf, not_false_iff, true_and]
    · have hf : Fits n b := by
        constructor
        · cases hfree : b.free
          · exact absurd (Or.inl hfree) hb
          · rfl
        · by_contra h
          exact hb (Or.inr (by omega))
      simp only [hb, if_false, List.mem_cons, forall_eq_or_imp, hf, not_true, false_and,
        and_false, iff_false]
      cases strategy with
      | FIRST_FIT => simp
      | BEST_FIT =>
        cases chosen with
        | none => simp [ih]
        | some c =>
          dsimp only
          split <;> simp [ih]
      | WORST_FIT =>
        cases chosen with
        | none => simp [ih]
        | some c =>
          dsimp only
          split <;> simp [ih]

/-- Whatever index the loop returns holds a block that fits. -/
theorem chooseIndexFrom_fits (strategy : AllocationStrategy) (memory : List MemoryBlock)
    (n : Int) (rest : List MemoryBlock) :
    ∀ (pre : List MemoryBlock) (chosen : Option Nat), memory = pre ++ rest →
      (∀ c, chosen = some c → FitsAt memory n c) →
      ∀ k, chooseIndexFrom strategy memory n rest pre.length chosen = some k →
        FitsAt memory n k := by
  induction rest with
  | nil =>
    intro pre chosen _ hc k hk
    exact hc k (by simpa [chooseIndexFrom] using hk)
  | cons b rest ih =>
    intro pre chosen hm hc k hk
    have hm2 : memory = (pre ++ [b]) ++ rest := by simp [hm]
    have hlen : (pre ++ [b]).length = pre.length + 1 := by simp
    obtain ⟨hget, hlt⟩ := getD_at_prefix pre b rest memory hm
    unfold chooseIndexFrom at hk
    by_cases hb : b.free = false ∨ b.size < n
    · simp only [hb, if_true] at hk
      rw [← hlen] at hk
      exact ih (pre ++ [b]) chosen hm2 hc k hk
    · have hf : Fits n b := by
        constructor
        · cases hfree : b.free
          · exact absurd (Or.inl hfree) hb
          · rfl
        · by_contra h
          exact hb (Or.inr (by omega))
      have hhere : FitsAt memory n pre.length := ⟨hlt, by rw [hget]; exact hf⟩
      have hsome : ∀ c, some pre.length = some c → FitsAt memory n c := by
        intro c h
        cases h
        exact hhere
      simp only [hb, if_false] at hk
      cases strategy with
      | FIRST_FIT =>
        simp only [Option.some.injEq] at hk
        subst hk
        exact hhere
      | BEST_FIT =>
        cases chosen with
        | none =>
          dsimp only at hk
          rw [← hlen] at hk
          exact ih (pre ++ [b]) _ hm2 hsome k hk
        | some c =>
          dsimp only at hk
          split at hk
          · rw [← hlen] at hk
            exact ih (pre ++ [b]) _ hm2 hsome k hk
          · rw [← hlen] at hk
            exact ih (pre ++ [b]) _ hm2 hc k hk
      | WORST_FIT =>
        cases chosen with
        | none =>
          dsimp only at hk
          rw [← hlen] at hk
          exact ih (pre ++ [b]) _ hm2 hsome k hk
        | some c =>
          dsimp only at hk
          split at hk
          · rw [← hlen] at hk
            exact ih (pre ++ [b]) _ hm2 hsome k hk
          · rw [← hlen] at hk
            exact ih (pre ++ [b]) _ hm2 hc k hk

theorem skip_iff_not_fits (n : Int) (b : MemoryBlock) :
    (b.free = false ∨ b.size < n) ↔ ¬ Fits n b := by
  unfold Fits
  cases b.free <;> simp

theorem lt_succ_cases {j i : Nat} (h : j < i + 1) : j < i ∨ j = i := by omega

theorem best_skip {m : List MemoryBlock} {n : Int} {i : Nat} {ch : Option Nat}
    (h : BestInv m n i ch) (hi : ¬ FitsAt m n i) : BestInv m n (i + 1) ch := by
  cases ch with
  | none =>
    intro j hj
    rcases lt_succ_cases hj with h1 | h1
    · exact h j h1
    · rw [h1]; exact hi
  | some c =>
    obtain ⟨h1, h2, h3, h4⟩ := h
    refine ⟨h1, by omega, ?_, h4⟩
    intro j hj hf
    rcases lt_succ_cases hj with h5 | h5
    · exact h3 j h5 hf
    · rw [h5] at hf; exact absurd hf hi

theorem best_first {m : List MemoryBlock} {n : Int} {i : Nat}
    (h : BestInv m n i none) (hi : FitsAt m n i) : BestInv m n (i + 1) (some i) := by
  refine ⟨hi, by omega, ?_, ?_⟩
  · intro j hj hf
    rcases lt_succ_cases hj with h5 | h5
    · exact absurd hf (h j h5)
    · rw [h5]
  · intro j hj hf
    exact absurd hf (h j hj)

theorem best_take {m : List MemoryBlock} {n : Int} {i c : Nat}
    (h : BestInv m n i (some c)) (hi : FitsAt m n i) (hlt : sizeAt m i < sizeAt m c) :
    BestInv m n (i + 1) (some i) := by
  obtain ⟨_, _, h3, _⟩ := h
  refine ⟨hi, by omega, ?_, ?_⟩
  · intro j hj hf
    rcases lt_succ_cases hj with h5 | h5
    · have := h3 j h5 hf
      omega
    · rw [h5]
  · intro j hj hf
    have := h3 j hj hf
    omega

theorem best_keep {m : List MemoryBlock} {n : Int} {i c : Nat}
    (h : BestInv m n i (some c)) (hge : ¬ sizeAt m i < sizeAt m c) :
    BestInv m n (i + 1) (some c) := by
  obtain ⟨h1, h2, h3, h4⟩ := h
  refine ⟨h1, by omega, ?_, h4⟩
  intro j hj hf
  rcases lt_succ_cases hj with h5 | h5
  · exact h3 j h5 hf
  · rw [h5]; omega

/-- The best-fit scan maintains its invariant up to the end of the list. -/
theorem chooseIndexFrom_best (memory : List MemoryBlock) (n : Int) (rest : List MemoryBlock) :
    ∀ (pre : List MemoryBlock) (chosen : Option Nat), memory = pre ++ rest →
      BestInv memory n pre.length chosen →
      BestInv memory n memory.length
        (chooseIndexFrom .BEST_FIT memory n rest pre.length chosen) := by
  induction rest with
  | nil =>
    intro pre chosen hm h
    have : memory.length = pre.length := by simp [hm]
    rw [this]
    simpa [chooseIndexFrom] using h
  | cons b rest ih =>
    intro pre chosen hm h
    have hm2 : memory = (pre ++ [b]) ++ rest := by simp [hm]
    have hlen : (pre ++ [b]).length = pre.length + 1 := by simp
    obtain ⟨hget, hlt⟩ := getD_at_prefix pre b rest memory hm
    have hfa : FitsAt memory n pre.length ↔ Fits n b := by
      unfold FitsAt; rw [hget]; simp [hlt]
    unfold chooseIndexFrom
    by_cases hb : b.free = false ∨ b.size < n
    · simp only [hb, if_true]
      have hnf : ¬ FitsAt memory n pre.length := by
        rw [hfa]; exact (skip_iff_not_fits n b).1 hb
      have := ih (pre ++ [b]) chosen hm2 (by rw [hlen]; exact best_skip h hnf)
      rwa [hlen] at this
    · simp only [hb, if_false]
      have hf : FitsAt memory n pre.length := by
        rw [hfa]; exact not_not.1 (fun h => hb ((skip_iff_not_fits n b).2 h))
      cases chosen with
      | none =>
        dsimp only
        have := ih (pre ++ [b]) (some pre.length) hm2 (by rw [hlen]; exact best_first h hf)
        rwa [hlen] at this
      | some c =>
        dsimp only
        have hsz : b.size = sizeAt memory pre.length := by unfold sizeAt; rw [hget]
        by_cases hc : b.size < (memory.getD c default).size
        · simp only [hc, if_true]
          have := ih (pre ++ [b]) (some pre.length) hm2
            (by rw [hlen]; exact best_take h hf (by rw [← hsz]; exact hc))
          rwa [hlen] at this
        · simp only [hc, if_false]
          have := ih (pre ++ [b]) (some c) hm2
            (by rw [hlen]; exact best_keep h (by rw [← hsz]; exact hc))
          rwa [hlen] at this

theorem worst_skip {m : List MemoryBlock} {n : Int} {i : Nat} {ch : Option Nat}
    (h : WorstInv m n i ch) (hi : ¬ FitsAt m n i) : WorstInv m n (i + 1) ch := by
  cases ch with
  | none =>
    intro j hj
    rcases lt_succ_cases hj with h1 | h1
    · exact h j h1
    · rw [h1]; exact hi
  | some c =>
    obtain ⟨h1, h2, h3, h4⟩ := h
    refine ⟨h1, by omega, ?_, h4⟩
    intro j hj hf
    rcases lt_succ_cases hj with h5 | h5
    · exact h3 j h5 hf
    · rw [h5] at hf; exact absurd hf hi

theorem worst_first {m : List MemoryBlock} {n : Int} {i : Nat}
    (h : WorstInv m n i none) (hi : FitsAt m n i) : WorstInv m n (i + 1) (some i) := by
  refine ⟨hi, by omega, ?_, ?_⟩
  · intro j hj hf
    rcases lt_succ_cases hj with h5 | h5
    · exact absurd hf (h j h5)
    · rw [h5]
  · intro j hj hf
    exact absurd hf (h j hj)

theorem worst_take {m : List MemoryBlock} {n : Int} {i c : Nat}
    (h : WorstInv m n i (some c)) (hi : FitsAt m n i) (hlt : sizeAt m i > sizeAt m c) :
    WorstInv m n (i + 1) (some i) := by
  obtain ⟨_, _, h3, _⟩ := h
  refine ⟨hi, by omega, ?_, ?_⟩
  · intro j hj hf
    rcases lt_succ_cases hj with h5 | h5
    · have := h3 j h5 hf
      omega
    · rw [h5]
  · intro j hj hf
    have := h3 j hj hf
    omega

theorem worst_keep {m : List MemoryBlock} {n : Int} {i c : Nat}
    (h : WorstInv m n i (some c)) (hge : ¬ sizeAt m i > sizeAt m c) :
    WorstInv m n (i + 1) (some c) := by
  obtain ⟨h1, h2, h3, h4⟩ := h
  refine ⟨h1, by omega, ?_, h4⟩
  intro j hj hf
  rcases lt_succ_cases hj with h5 | h5
  · exact h3 j h5 hf
  · rw [h5]; omega

/-- The worst-fit scan maintains its invariant up to the end of the list. -/
theorem chooseIndexFrom_worst (memory : List MemoryBlock) (n : Int) (rest : List MemoryBlock) :
    ∀ (pre : List MemoryBlock) (chosen : Option Nat), memory = pre ++ rest →
      WorstInv memory n pre.length chosen →
      WorstInv memory n memory.length
        (chooseIndexFrom .WORST_FIT memory n rest pre.length chosen) := by
  induction rest with
  | nil =>
    intro pre chosen hm h
    have : memory.length = pre.length := by simp [hm]
    rw [this]
    simpa [chooseIndexFrom] using h
  | cons b rest ih =>
    intro pre chosen hm h
    have hm2 : memory = (pre ++ [b]) ++ rest := by simp [hm]
    have hlen : (pre ++ [b]).length = pre.length + 1 := by simp
    obtain ⟨hget, hlt⟩ := getD_at_prefix pre b rest memory hm
    have hfa : FitsAt memory n pre.length ↔ Fits n b := by
      unfold FitsAt; rw [hget]; simp [hlt]
    unfold chooseIndexFrom
    by_cases hb : b.free = false ∨ b.size < n
    · simp only [hb, if_true]
      have hnf : ¬ FitsAt memory n pre.length := by
        rw [hfa]; exact (skip_iff_not_fits n b).1 hb
      have := ih (pre ++ [b]) chosen hm2 (by rw [hlen]; exact worst_skip h hnf)
      rwa [hlen] at this
    · simp only [hb, if_false]
      have hf : FitsAt memory n pre.length := by
        rw [hfa]; exact not_not.1 (fun h => hb ((skip_iff_not_fits n b).2 h))
      cases chosen with
      | none =>
        dsimp only
        have := ih (pre ++ [b]) (some pre.length) hm2 (by rw [hlen]; exact worst_first h hf)
        rwa [hlen] at this
      | some c =>
        dsimp only
        have hsz : b.size = sizeAt memory pre.length := by unfold sizeAt; rw [hget]
        by_cases hc : b.size > (memory.getD c default).size
        · simp only [hc, if_true]
          have := ih (pre ++ [b]) (some pre.length) hm2
            (by rw [hlen]; exact worst_take h hf (by rw [← hsz]; exact hc))
          rwa [hlen] at this
        · simp only [hc, if_false]
          have := ih (pre ++ [b]) (some c) hm2
            (by rw [hlen]; exact worst_keep h (by rw [← hsz]; exact hc))
          rwa [hlen] at this

/-- The first-fit scan returns the first index that holds a fitting block. -/
theorem chooseIndexFrom_first (memory : List MemoryBlock) (n : Int) (rest : List MemoryBlock) :
    ∀ (pre : List MemoryBlock), memory = pre ++ rest →
      (∀ j, j < pre.length → ¬ FitsAt memory n j) →
      ∀ k, chooseIndexFrom .FIRST_FIT memory n rest pre.length none = some k →
        FitsAt memory n k ∧ ∀ j, j < k → ¬ FitsAt memory n j := by
  induction rest with
  | nil =>
    intro pre _ _ k hk
    simp [chooseIndexFrom] at hk
  | cons b rest ih =>
    intro pre hm h k hk
    have hm2 : memory = (pre ++ [b]) ++ rest := by simp [hm]
    have hlen : (pre ++ [b]).length = pre.length + 1 := by simp
    obtain ⟨hget, hlt⟩ := getD_at_prefix pre b rest memory hm
    have hfa : FitsAt memory n pre.length ↔ Fits n b := by
      unfold FitsAt; rw [hget]; simp [hlt]
    unfold chooseIndexFrom at hk
    by_cases hb : b.free = false ∨ b.size < n
    · simp only [hb, if_true] at hk
      have hnf : ¬ FitsAt memory n pre.length := by
        rw [hfa]; exact (skip_iff_not_fits n b).1 hb
      rw [← hlen] at hk
      refine ih (pre ++ [b]) hm2 ?_ k hk
      intro j hj
      rw [hlen] at hj
      rcases lt_succ_cases hj with h1 | h1
      · exact h j h1
      · rw [h1]; exact hnf
    · simp only [hb, if_false, Option.some.injEq] at hk
      subst hk
      exact ⟨hfa.2 (not_not.1 (fun h => hb ((skip_iff_not_fits n b).2 h))), h⟩

/-! ## Heap allocator: from indices to split points -/

theorem mem_getD {m : List MemoryBlock} {x : MemoryBlock} (h : x ∈ m) :
    ∃ j, j < m.length ∧ m.getD j default = x := by
  obtain ⟨j, hj, hx⟩ := List.mem_iff_getElem.1 h
  refine ⟨j, hj, ?_⟩
  rw [List.getD_eq_getElem?_getD, List.getElem?_eq_getElem hj]
  simpa using hx

theorem mem_pre_getD (pre : List MemoryBlock) (b : MemoryBlock) (post : List MemoryBlock)
    {x : MemoryBlock} (h : x ∈ pre) :
    ∃ j, j < pre.length ∧ (pre ++ b :: post).getD j default = x := by
  obtain ⟨j, hj, hx⟩ := mem_getD h
  refine ⟨j, hj, ?_⟩
  rw [List.getD_append _ _ _ _ hj]
  exact hx

/-- A successful selection at index `k` makes `allocateMemory` carve at the split point `k`. -/
theorem allocateMemory_at (st : HeapState) (n : Int) (k : Nat) (hn : 0 < n)
    (hk : chooseIndex st.currentStrategy st.memory n = some k) :
    ∃ pre b post, st.memory = pre ++ b :: post ∧ pre.length = k ∧
      st.memory.getD k default = b ∧ Fits n b ∧
      allocateMemory st n =
        (true, { st with
          totalAllocRequests := st.totalAllocRequests + 1,
          successfulAllocs := st.successfulAllocs + 1,
          nextAllocId := st.nextAllocId + 1,
          memory := pre ++
            ({ start := b.start, size := n, free := false, id := st.nextAllocId } : MemoryBlock) ::
            (if b.size - n = 0 then post
             else { b with start := b.start + n, size := b.size - n } :: post) }) := by
  have hfit : FitsAt st.memory n k :=
    chooseIndexFrom_fits st.currentStrategy st.memory n st.memory [] none rfl
      (by intro c h; cases h) k hk
  obtain ⟨pre, b, post, hm, hlen, hget⟩ := split_at_index st.memory k hfit.1
  refine ⟨pre, b, post, hm, hlen, hget, by rw [← hget]; exact hfit.2, ?_⟩
  have hne : st.memory.isEmpty = false := by rw [hm]; cases pre <;> rfl
  have hcarve := carve_split pre b post n st.nextAllocId
  rw [hlen, ← hm] at hcarve
  unfold allocateMemory
  rw [if_neg (by omega), hne]
  simp only [Bool.false_eq_true, if_false, hk, hcarve]

/-- No block fits exactly when the selection loop returns no index. -/
theorem chooseIndex_eq_none (strategy : AllocationStrategy) (memory : List MemoryBlock)
    (n : Int) : chooseIndex strategy memory n = none ↔ ∀ b ∈ memory, ¬ Fits n b := by
  unfold chooseIndex
  rw [chooseIndexFrom_eq_none]
  simp

/-! ## Heap allocator: placement strategies and failure of `allocateMemory` -/

/-- C3. Under best fit, when some free block has size `>= n` for a request `n > 0`,
`allocateMemory` succeeds and carves from a free block `b` of size `>= n` whose size is the
smallest among all free blocks of size `>= n`; every fitting block before `b` in the list is
strictly larger (so `b` is the first of that smallest size in list order), and when the list is
sorted by start offset `b` has the lowest start among the fitting blocks of its size. -/
theorem best_fit_carves_smallest_fitting (st : HeapState) (n : Int)
    (hs : st.currentStrategy = .BEST_FIT) (hn : 0 < n)
    (hex : ∃ x ∈ st.memory, x.free = true ∧ n ≤ x.size) :
    ∃ pre b post, st.memory = pre ++ b :: post ∧ b.free = true ∧ n ≤ b.size ∧
      (∀ x ∈ st.memory, x.free = true → n ≤ x.size → b.size ≤ x.size) ∧
      (∀ x ∈ pre, x.free = true → n ≤ x.size → b.size < x.size) ∧
      (st.memory.Pairwise (fun x y => x.start < y.start) →
        ∀ x ∈ st.memory, x.free = true → n ≤ x.size → x.size = b.size → b.start ≤ x.start) ∧
      allocateMemory st n =
        (true, { st with
          totalAllocRequests := st.totalAllocRequests + 1,
          successfulAllocs := st.successfulAllocs + 1,
          nextAllocId := st.nextAllocId + 1,
          memory := pre ++
            ({ start := b.start, size := n, free := false, id := st.nextAllocId } : MemoryBlock) ::
            (if b.size - n = 0 then post
             else { b with start := b.start + n, size := b.size - n } :: post) }) := by
  have hinv := chooseIndexFrom_best st.memory n st.memory [] none rfl
    (by intro j hj; simp at hj)
  have hci : chooseIndexFrom .BEST_FIT st.memory n st.memory 0 none =
      chooseIndex st.currentStrategy st.memory n := by rw [hs]; rfl
  simp only [List.length_nil] at hinv
  rw [hci] at hinv
  cases hk : chooseIndex st.currentStrategy st.memory n with
  | none =>
    obtain ⟨x, hx, hf⟩ := hex
    exact absurd hf ((chooseIndex_eq_none _ _ _).1 hk x hx)
  | some k =>
    rw [hk] at hinv
    obtain ⟨_, _, h3, h4⟩ := hinv
    obtain ⟨pre, b, post, hm, hlen, hget, hfit, hres⟩ := allocateMemory_at st n k hn hk
    have hall : ∀ x ∈ st.memory, x.free = true → n ≤ x.size → b.size ≤ x.size := by
      intro x hx h1 h2
      obtain ⟨j, hj, hjx⟩ := mem_getD hx
      have := h3 j hj ⟨hj, by rw [hjx]; exact ⟨h1, h2⟩⟩
      unfold sizeAt at this
      rwa [hget, hjx] at this
    have hpre : ∀ x ∈ pre, x.free = true → n ≤ x.size → b.size < x.size := by
      intro x hx h1 h2
      obtain ⟨j, hj, hjx⟩ := mem_pre_getD pre b post hx
      rw [← hm] at hjx
      have hjl : j < st.memory.length := by rw [hm]; simp; omega
      have := h4 j (by omega) ⟨hjl, by rw [hjx]; exact ⟨h1, h2⟩⟩
      unfold sizeAt at this
      rwa [hget, hjx] at this
    refine ⟨pre, b, post, hm, hfit.1, hfit.2, hall, hpre, ?_, hres⟩
    intro hsorted x hx h1 h2 h3
    rw [hm] at hx hsorted
    rcases List.mem_append.1 hx with hx1 | hx1
    · have := hpre x hx1 h1 h2
      omega
    · rcases List.mem_cons.1 hx1 with hx2 | hx2
      · rw [hx2]
      · have hp := (List.pairwise_cons.1 (List.pairwise_append.1 hsorted).2.1).1 x hx2
        omega

/-- Best fit at a concrete state: with free blocks of 300, 120 and 454 bytes a request of 100
bytes is carved from the 120-byte block at address 400. -/
theorem best_fit_carves_smallest_fitting_witness :
    (∃ pre b post,
      (heapRun (initMemory HeapState.initial 1024)
        [.alloc 300, .alloc 100, .alloc 120, .alloc 50, .free 1, .free 3,
         .strategy .BEST_FIT]).memory = pre ++ b :: post ∧ b.free = true ∧
      (100 : Int) ≤ b.size ∧
      ∀ x ∈ (heapRun (initMemory HeapState.initial 1024)
        [.alloc 300, .alloc 100, .alloc 120, .alloc 50, .free 1, .free 3,
         .strategy .BEST_FIT]).memory, x.free = true → (100 : Int) ≤ x.size →
        b.size ≤ x.size) ∧
    (allocateMemory (heapRun (initMemory HeapState.initial 1024)
        [.alloc 300, .alloc 100, .alloc 120, .alloc 50, .free 1, .free 3,
         .strategy .BEST_FIT]) 100).2.memory =
      [⟨0, 300, true, -1⟩, ⟨300, 100, false, 2⟩, ⟨400, 100, false, 5⟩, ⟨500, 20, true, -1⟩,
       ⟨520, 50, false, 4⟩, ⟨570, 454, true, -1⟩] :=
  ⟨match best_fit_carves_smallest_fitting
      (heapRun (initMemory HeapState.initial 1024)
        [.alloc 300, .alloc 100, .alloc 120, .alloc 50, .free 1, .free 3, .strategy .BEST_FIT])
      100 (by decide) (by decide) ⟨⟨400, 120, true, -1⟩, by decide, by decide⟩ with
    | ⟨pre, b, post, h1, h2, h3, h4, _⟩ => ⟨pre, b, post, h1, h2, h3, h4⟩,
   by decide⟩

/-- C4. Under worst fit, when some free block has size `>= n` for a request `n > 0`,
`allocateMemory` succeeds and carves from a free block `b` of size `>= n` whose size is the
largest among all free blocks of size `>= n`; every fitting block before `b` in the list is
strictly smaller (so `b` is the first of that largest size in list order), and when the list is
sorted by start offset `b` has the lowest start among the fitting blocks of its size. -/
theorem worst_fit_carves_largest_fitting (st : HeapState) (n : Int)
    (hs : st.currentStrategy = .WORST_FIT) (hn : 0 < n)
    (hex : ∃ x ∈ st.memory, x.free = true ∧ n ≤ x.size) :
    ∃ pre b post, st.memory = pre ++ b :: post ∧ b.free = true ∧ n ≤ b.size ∧
      (∀ x ∈ st.memory, x.free = true → n ≤ x.size → x.size ≤ b.size) ∧
      (∀ x ∈ pre, x.free = true → n ≤ x.size → x.size < b.size) ∧
      (st.memory.Pairwise (fun x y => x.start < y.start) →
        ∀ x ∈ st.memory, x.free = true → n ≤ x.size → x.size = b.size → b.start ≤ x.start) ∧
      allocateMemory st n =
        (true, { st with
          totalAllocRequests := st.totalAllocRequests + 1,
          successfulAllocs := st.successfulAllocs + 1,
          nextAllocId := st.nextAllocId + 1,
          memory := pre ++
            ({ start := b.start, size := n, free := false, id := st.nextAllocId } : MemoryBlock) ::
            (if b.size - n = 0 then post
             else { b with start := b.start + n, size := b.size - n } :: post) }) := by
  have hinv := chooseIndexFrom_worst st.memory n st.memory [] none rfl
    (by intro j hj; simp at hj)
  have hci : chooseIndexFrom .WORST_FIT st.memory n st.memory 0 none =
      chooseIndex st.currentStrategy st.memory n := by rw [hs]; rfl
  simp only [List.length_nil] at hinv
  rw [hci] at hinv
  cases hk : chooseIndex st.currentStrategy st.memory n with
  | none =>
    obtain ⟨x, hx, hf⟩ := hex
    exact absurd hf ((chooseIndex_eq_none _ _ _).1 hk x hx)
  | some k =>
    rw [hk] at hinv
    obtain ⟨_, _, h3, h4⟩ := hinv
    obtain ⟨pre, b, post, hm, hlen, hget, hfit, hres⟩ := allocateMemory_at st n k hn hk
    have hall : ∀ x ∈ st.memory, x.free = true → n ≤ x.size → x.size ≤ b.size := by
      intro x hx h1 h2
      obtain ⟨j, hj, hjx⟩ := mem_getD hx
      have := h3 j hj ⟨hj, by rw [hjx]; exact ⟨h1, h2⟩⟩
      unfold sizeAt at this
      rwa [hget, hjx] at this
    have hpre : ∀ x ∈ pre, x.free = true → n ≤ x.size → x.size < b.size := by
      intro x hx h1 h2
      obtain ⟨j, hj, hjx⟩ := mem_pre_getD pre b post hx
      rw [← hm] at hjx
      have hjl : j < st.memory.length := by rw [hm]; simp; omega
      have := h4 j (by omega) ⟨hjl, by rw [hjx]; exact ⟨h1, h2⟩⟩
      unfold sizeAt at this
      rwa [hget, hjx] at this
    refine ⟨pre, b, post, hm, hfit.1, hfit.2, hall, hpre, ?_, hres⟩
    intro hsorted x hx h1 h2 h3
    rw [hm] at hx hsorted
    rcases List.mem_append.1 hx with hx1 | hx1
    · have := hpre x hx1 h1 h2
      omega
    · rcases List.mem_cons.1 hx1 with hx2 | hx2
      · rw [hx2]
      · have hp := (List.pairwise_cons.1 (List.pairwise_append.1 hsorted).2.1).1 x hx2
        omega

/-- Worst fit at a concrete state: with free blocks of 300, 120 and 454 bytes a request of 100
bytes is carved from the 454-byte block at address 570. -/
theorem worst_fit_carves_largest_fitting_witness :
    (∃ pre b post,
      (heapRun (initMemory HeapState.initial 1024)
        [.alloc 300, .alloc 100, .alloc 120, .alloc 50, .free 1, .free 3,
         .strategy .WORST_FIT]).memory = pre ++ b :: post ∧ b.free = true ∧
      (100 : Int) ≤ b.size ∧
      ∀ x ∈ (heapRun (initMemory HeapState.initial 1024)
        [.alloc 300, .alloc 100, .alloc 120, .alloc 50, .free 1, .free 3,
         .strategy .WORST_FIT]).memory, x.free = true → (100 : Int) ≤ x.size →
        x.size ≤ b.size) ∧
    (allocateMemory (heapRun (initMemory HeapState.initial 1024)
        [.alloc 300, .alloc 100, .alloc 120, .alloc 50, .free 1, .free 3,
         .strategy .WORST_FIT]) 100).2.memory =
      [⟨0, 300, true, -1⟩, ⟨300, 100, false, 2⟩, ⟨400, 120, true, -1⟩, ⟨520, 50, false, 4⟩,
       ⟨570, 100, false, 5⟩, ⟨670, 354, true, -1⟩] :=
  ⟨match worst_fit_carves_largest_fitting
      (heapRun (initMemory HeapState.initial 1024)
        [.alloc 300, .alloc 100, .alloc 120, .alloc 50, .free 1, .free 3, .strategy .WORST_FIT])
      100 (by decide) (by decide) ⟨⟨400, 120, true, -1⟩, by decide, by decide⟩ with
    | ⟨pre, b, post, h1, h2, h3, h4, _⟩ => ⟨pre, b, post, h1, h2, h3, h4⟩,
   by decide⟩

/-- A successful `allocateMemory` had a positive request and a selected index. -/
theorem allocateMemory_success (st : HeapState) (n : Int)
    (hok : (allocateMemory st n).1 = true) :
    0 < n ∧ ∃ k, chooseIndex st.currentStrategy st.memory n = some k := by
  unfold allocateMemory at hok
  by_cases hn : n ≤ 0
  · simp [hn] at hok
  · refine ⟨by omega, ?_⟩
    rw [if_neg hn] at hok
    by_cases he : st.memory.isEmpty = true
    · simp [he] at hok
    · rw [if_neg he] at hok
      cases hk : chooseIndex st.currentStrategy st.memory n with
      | none => simp [hk] at hok
      | some k => exact ⟨k, rfl⟩

/-- C5. Under first fit, a successful `allocateMemory st n` splits the list at the first block
`b` that is free with size `>= n` (the lowest-address one when the list is sorted by start),
puts there a used block of exactly `n` bytes with start `b.start` and id `nextAllocId`,
increments `nextAllocId`, keeps the rest of `b` (when non-empty) as a free block starting `n`
bytes later, and leaves the blocks before and after unchanged.  End to end: after
`init memory 1024`, `alloc 100`, `alloc 200` the ids are 1 and 2, and after `free 1`,
`alloc 50` the list is `[0,50)` used id 3, `[50,100)` free, `[100,300)` used id 2,
`[300,1024)` free. -/
theorem first_fit_carves_first_fitting :
    (∀ (st : HeapState) (n : Int), st.currentStrategy = .FIRST_FIT →
      (allocateMemory st n).1 = true →
      ∃ pre b post, st.memory = pre ++ b :: post ∧ b.free = true ∧ n ≤ b.size ∧
        (∀ x ∈ pre, ¬ (x.free = true ∧ n ≤ x.size)) ∧
        (st.memory.Pairwise (fun x y => x.start < y.start) →
          ∀ x ∈ st.memory, x.free = true → n ≤ x.size → b.start ≤ x.start) ∧
        allocateMemory st n =
          (true, { st with
            totalAllocRequests := st.totalAllocRequests + 1,
            successfulAllocs := st.successfulAllocs + 1,
            nextAllocId := st.nextAllocId + 1,
            memory := pre ++
              ({ start := b.start, size := n, free := false,
                 id := st.nextAllocId } : MemoryBlock) ::
              (if b.size - n = 0 then post
               else { b with start := b.start + n, size := b.size - n } :: post) })) ∧
    (heapRun (initMemory HeapState.initial 1024) [.alloc 100, .alloc 200]).memory =
      [⟨0, 100, false, 1⟩, ⟨100, 200, false, 2⟩, ⟨300, 724, true, -1⟩] ∧
    (heapRun (initMemory HeapState.initial 1024)
        [.alloc 100, .alloc 200, .free 1, .alloc 50]).memory =
      [⟨0, 50, false, 3⟩, ⟨50, 50, true, -1⟩, ⟨100, 200, false, 2⟩, ⟨300, 724, true, -1⟩] := by
  refine ⟨?_, by decide, by decide⟩
  intro st n hs hok
  obtain ⟨hn, k, hk⟩ := allocateMemory_success st n hok
  have hfirst := chooseIndexFrom_first st.memory n st.memory [] rfl
    (by intro j hj; simp at hj) k (by rw [← hs]; exact hk)
  obtain ⟨pre, b, post, hm, hlen, hget, hfit, hres⟩ := allocateMemory_at st n k hn hk
  have hpre : ∀ x ∈ pre, ¬ (x.free = true ∧ n ≤ x.size) := by
    intro x hx hf
    obtain ⟨j, hj, hjx⟩ := mem_pre_getD pre b post hx
    rw [← hm] at hjx
    have hjl : j < st.memory.length := by rw [hm]; simp; omega
    exact hfirst.2 j (by omega) ⟨hjl, by rw [hjx]; exact hf⟩
  refine ⟨pre, b, post, hm, hfit.1, hfit.2, hpre, ?_, hres⟩
  intro hsorted x hx h1 h2
  rw [hm] at hx hsorted
  rcases List.mem_append.1 hx with hx1 | hx1
  · exact absurd ⟨h1, h2⟩ (hpre x hx1)
  · rcases List.mem_cons.1 hx1 with hx2 | hx2
    · rw [hx2]
    · have hp := (List.pairwise_cons.1 (List.pairwise_append.1 hsorted).2.1).1 x hx2
      omega

/-- The first-fit carve applied to the end-to-end scenario: `alloc 50` after
`init memory 1024`, `alloc 100`, `alloc 200`, `free 1` succeeds and splits the list at a
fitting free block. -/
theorem first_fit_carves_first_fitting_witness :
    ∃ pre b post,
      (heapRun (initMemory HeapState.initial 1024) [.alloc 100, .alloc 200, .free 1]).memory =
        pre ++ b :: post ∧ b.free = true ∧ (50 : Int) ≤ b.size :=
  let st := heapRun (initMemory HeapState.initial 1024) [.alloc 100, .alloc 200, .free 1]
  match first_fit_carves_first_fitting.1 st 50 (by decide) (by decide) with
  | ⟨pre, b, post, h1, h2, h3, _⟩ => ⟨pre, b, post, h1, h2, h3⟩

/-- When `allocateMemory` returns false, and what it then leaves unchanged. -/
theorem allocateMemory_eq_false (st : HeapState) (n : Int) :
    ((allocateMemory st n).1 = false ↔
      (n ≤ 0 ∨ st.memory = [] ∨ ∀ b ∈ st.memory, ¬ (b.free = true ∧ n ≤ b.size))) ∧
    ((allocateMemory st n).1 = false →
      (allocateMemory st n).2.memory = st.memory ∧
      (allocateMemory st n).2.nextAllocId = st.nextAllocId) := by
  unfold allocateMemory
  by_cases hn : n ≤ 0
  · simp [hn]
  · rw [if_neg hn]
    by_cases he : st.memory = []
    · simp [he]
    · have he2 : st.memory.isEmpty = false := by
        cases hm : st.memory with
        | nil => exact absurd hm he
        | cons x xs => rfl
      rw [he2]
      simp only [Bool.false_eq_true, if_false]
      cases hk : chooseIndex st.currentStrategy st.memory n with
      | none =>
        have := (chooseIndex_eq_none _ _ _).1 hk
        simp only [true_iff, true_and, and_self, implies_true, and_true]
        exact Or.inr (Or.inr this)
      | some k =>
        have hne : ¬ ∀ b ∈ st.memory, ¬ Fits n b := by
          intro h
          have := (chooseIndex_eq_none st.currentStrategy st.memory n).2 h
          rw [hk] at this
          cases this
        simp only [Bool.true_eq_false, false_iff, false_implies, and_true, not_or]
        exact ⟨hn, he, hne⟩

/-- C6. `allocateMemory st n` returns false exactly when `n <= 0`, or the block list is empty,
or no free block has size `>= n`; and whenever it returns false the block list and
`nextAllocId` are unchanged. -/
theorem allocate_fails_iff (st : HeapState) (n : Int) :
    ((allocateMemory st n).1 = false ↔
      (n ≤ 0 ∨ st.memory = [] ∨ ∀ b ∈ st.memory, ¬ (b.free = true ∧ n ≤ b.size))) ∧
    ((allocateMemory st n).1 = false →
      (allocateMemory st n).2.memory = st.memory ∧
      (allocateMemory st n).2.nextAllocId = st.nextAllocId) :=
  allocateMemory_eq_false st n

/-! ## Heap allocator: well-formedness is preserved -/

theorem contig_append (l1 l2 : List MemoryBlock) :
    ∀ s e, Contig s (l1 ++ l2) e ↔ ∃ mid, Contig s l1 mid ∧ Contig mid l2 e := by
  induction l1 with
  | nil => intro s e; simp [Contig]
  | cons b l1 ih =>
    intro s e
    constructor
    · intro h
      have h' : b.start = s ∧ 0 < b.size ∧ Contig (s + b.size) (l1 ++ l2) e := h
      obtain ⟨h1, h2, h3⟩ := h'
      obtain ⟨mid, h4, h5⟩ := (ih _ _).1 h3
      exact ⟨mid, ⟨h1, h2, h4⟩, h5⟩
    · rintro ⟨mid, ⟨h1, h2, h3⟩, h4⟩
      show b.start = s ∧ 0 < b.size ∧ Contig (s + b.size) (l1 ++ l2) e
      exact ⟨h1, h2, (ih _ _).2 ⟨mid, h3, h4⟩⟩

theorem contig_shift {s s' e : Int} {l : List MemoryBlock} (h : Contig s l e) (hs : s = s') :
    Contig s' l e := hs ▸ h

theorem noAdj_append_of_last_used {A X : List MemoryBlock} (hA : NoAdjFree A)
    (hX : NoAdjFree X) (hl : ∀ x ∈ A.getLast?, x.free = false) : NoAdjFree (A ++ X) := by
  unfold NoAdjFree at *
  rw [List.chain'_append]
  refine ⟨hA, hX, ?_⟩
  intro x hx y _ hxy
  rw [hl x hx] at hxy
  exact Bool.noConfusion hxy.1

theorem noAdj_parts (pre : List MemoryBlock) (b : MemoryBlock) (post : List MemoryBlock)
    (h : NoAdjFree (pre ++ b :: post)) :
    NoAdjFree pre ∧ NoAdjFree post ∧ NoAdjFree (b :: post) ∧ NoAdjFree (pre ++ [b]) := by
  unfold NoAdjFree at *
  have h1 := List.chain'_split.1 h
  have h2 := List.chain'_append.1 h
  refine ⟨h2.1, ?_, h1.2, h1.1⟩
  have := h1.2.tail
  simpa using this

theorem noAdj_used_cons {a : MemoryBlock} {X : List MemoryBlock} (ha : a.free = false)
    (hX : NoAdjFree X) : NoAdjFree (a :: X) := by
  unfold NoAdjFree at *
  cases X with
  | nil => exact List.chain'_singleton a
  | cons y ys =>
    refine List.Chain'.cons ?_ hX
    rintro ⟨h1, _⟩
    rw [ha] at h1
    exact Bool.noConfusion h1

theorem noAdj_cons_congr {b c : MemoryBlock} {post : List MemoryBlock}
    (hf : c.free = b.free) (h : NoAdjFree (b :: post)) : NoAdjFree (c :: post) := by
  unfold NoAdjFree at *
  cases post with
  | nil => exact List.chain'_singleton c
  | cons y ys =>
    rw [List.chain'_cons] at h ⊢
    rw [hf]
    exact h

theorem last_used_of_free_next {pre : List MemoryBlock} {p : MemoryBlock}
    (h : NoAdjFree (pre ++ [p])) (hp : p.free = true) :
    ∀ x ∈ pre.getLast?, x.free = false := by
  unfold NoAdjFree at h
  have h2 := (List.chain'_append.1 h).2.2
  intro x hx
  have := h2 x hx p (by simp)
  cases hx2 : x.free
  · rfl
  · exact absurd ⟨hx2, hp⟩ this

/-- Carving a used block out of a fitting free block keeps the list well formed. -/
theorem memInv_carve {size : Int} {pre : List MemoryBlock} {b : MemoryBlock}
    {post : List MemoryBlock} (h : MemInv size (pre ++ b :: post)) (hb : b.free = true)
    (n allocId : Int) (hn : 0 < n) (hle : n ≤ b.size) :
    MemInv size (pre ++
      ({ start := b.start, size := n, free := false, id := allocId } : MemoryBlock) ::
      (if b.size - n = 0 then post
       else { b with start := b.start + n, size := b.size - n } :: post)) := by
  obtain ⟨hc, hna, hcl⟩ := h
  obtain ⟨mid, hc1, hc2⟩ := (contig_append pre (b :: post) 0 size).1 hc
  obtain ⟨hs, hpos, hc3⟩ := hc2
  obtain ⟨hn1, hn2, hn3, _⟩ := noAdj_parts pre b post hna
  refine ⟨?_, ?_, ?_⟩
  · refine (contig_append pre _ 0 size).2 ⟨mid, hc1, hs, hn, ?_⟩
    dsimp only
    by_cases hz : b.size - n = 0
    · rw [if_pos hz]
      exact contig_shift hc3 (by omega)
    · rw [if_neg hz]
      refine ⟨?_, ?_, ?_⟩
      · dsimp only; omega
      · dsimp only; omega
      · dsimp only
        exact contig_shift hc3 (by omega)
  · have hpost : NoAdjFree (if b.size - n = 0 then post
        else { b with start := b.start + n, size := b.size - n } :: post) := by
      by_cases hz : b.size - n = 0
      · rw [if_pos hz]; exact hn2
      · rw [if_neg hz]; exact noAdj_cons_congr (b := b) rfl hn3
    have hcons := noAdj_used_cons (a := ⟨b.start, n, false, allocId⟩) rfl hpost
    unfold NoAdjFree at *
    rw [List.chain'_append]
    refine ⟨hn1, hcons, ?_⟩
    intro x _ y hy hxy
    simp only [List.head?_cons, Option.mem_def, Option.some.injEq] at hy
    rw [← hy] at hxy
    exact Bool.noConfusion hxy.2
  · intro x hx hfree
    rcases List.mem_append.1 hx with h1 | h1
    · exact hcl x (List.mem_append_left _ h1) hfree
    · rcases List.mem_cons.1 h1 with h2 | h2
      · rw [h2] at hfree
        exact Bool.noConfusion hfree
      · by_cases hz : b.size - n = 0
        · rw [if_pos hz] at h2
          exact hcl x (List.mem_append_right _ (List.mem_cons_of_mem _ h2)) hfree
        · rw [if_neg hz] at h2
          rcases List.mem_cons.1 h2 with h3 | h3
          · rw [h3]
            exact hcl b (List.mem_append_right _ (List.mem_cons_self _ _)) hb
          · exact hcl x (List.mem_append_right _ (List.mem_cons_of_mem _ h3)) hfree

/-- The two shapes of `releaseAt` at a split point: behind a used block (or at the head) the
released block stays in place; behind a free block it is merged into that block. -/
theorem release_shape (pre : List MemoryBlock) (b : MemoryBlock) (post : List MemoryBlock) :
    (releaseAt (pre ++ b :: post) pre.length = pre ++ mergeNext (released b) post ∧
      ∀ x ∈ pre.getLast?, x.free = false) ∨
    (∃ pre' p, pre = pre' ++ [p] ∧ p.free = true ∧
      releaseAt (pre ++ b :: post) pre.length =
        pre' ++ mergeNext { p with size := p.size + b.size } post) := by
  rcases List.eq_nil_or_concat pre with h | ⟨pre', p, h⟩
  · subst h
    left
    exact ⟨releaseAt_head b post, by simp⟩
  · rw [List.concat_eq_append] at h
    subst h
    have hlen : (pre' ++ [p]).length = pre'.length + 1 := by simp
    have hl : (pre' ++ [p]) ++ b :: post = pre' ++ p :: b :: post := by simp
    cases hp : p.free
    · left
      refine ⟨?_, by simp [hp]⟩
      rw [hlen, hl, releaseAt_after_used pre' p b post hp]
      simp
    · right
      refine ⟨pre', p, rfl, hp, ?_⟩
      rw [hlen, hl, releaseAt_after_free pre' p b post hp]

theorem mergeNext_free (cur q : MemoryBlock) (post : List MemoryBlock) (hq : q.free = true) :
    mergeNext cur (q :: post) = { cur with size := cur.size + q.size } :: post := by
  simp [mergeNext, hq]

theorem mergeNext_used (cur q : MemoryBlock) (post : List MemoryBlock) (hq : ¬ q.free = true) :
    mergeNext cur (q :: post) = cur :: q :: post := by
  simp [mergeNext, hq]

theorem contig_mergeNext {s e : Int} {cur : MemoryBlock} {post : List MemoryBlock}
    (h : Contig s (cur :: post) e) : Contig s (mergeNext cur post) e := by
  cases post with
  | nil => exact h
  | cons q post =>
    by_cases hq : q.free = true
    · rw [mergeNext_free cur q post hq]
      obtain ⟨h1, h2, h3, h4, h5⟩ := h
      refine ⟨h1, ?_, ?_⟩
      · dsimp only; omega
      · dsimp only
        exact contig_shift h5 (by omega)
    · rw [mergeNext_used cur q post hq]
      exact h

theorem noAdj_mergeNext {cur : MemoryBlock} {post : List MemoryBlock} (h : NoAdjFree post) :
    NoAdjFree (mergeNext cur post) := by
  cases post with
  | nil => exact List.chain'_singleton cur
  | cons q post =>
    by_cases hq : q.free = true
    · rw [mergeNext_free cur q post hq]
      unfold NoAdjFree at *
      cases post with
      | nil => exact List.chain'_singleton _
      | cons r post =>
        rw [List.chain'_cons] at h
        refine List.Chain'.cons ?_ h.2
        rintro ⟨_, hr⟩
        exact h.1 ⟨hq, hr⟩
    · rw [mergeNext_used cur q post hq]
      unfold NoAdjFree at *
      refine List.Chain'.cons ?_ h
      rintro ⟨_, hr⟩
      exact hq hr

theorem cleared_mergeNext (cur : MemoryBlock) {post : List MemoryBlock} (hid : cur.id = -1)
    (h : FreeIdsCleared post) : FreeIdsCleared (mergeNext cur post) := by
  cases post with
  | nil =>
    intro x hx _
    simp only [mergeNext, List.mem_singleton] at hx
    rw [hx]; exact hid
  | cons q post =>
    by_cases hq : q.free = true
    · rw [mergeNext_free cur q post hq]
      intro x hx hf
      rcases List.mem_cons.1 hx with h1 | h1
      · rw [h1]; exact hid
      · exact h x (List.mem_cons_of_mem _ h1) hf
    · rw [mergeNext_used cur q post hq]
      intro x hx hf
      rcases List.mem_cons.1 hx with h1 | h1
      · rw [h1]; exact hid
      · exact h x h1 hf

theorem usedBlocks_append (l1 l2 : List MemoryBlock) :
    usedBlocks (l1 ++ l2) = usedBlocks l1 ++ usedBlocks l2 := by
  simp [usedBlocks]

theorem usedBlocks_cons_free {b : MemoryBlock} (l : List MemoryBlock) (hb : b.free = true) :
    usedBlocks (b :: l) = usedBlocks l := by
  simp [usedBlocks, hb]

theorem usedBlocks_cons_used {b : MemoryBlock} (l : List MemoryBlock) (hb : b.free = false) :
    usedBlocks (b :: l) = b :: usedBlocks l := by
  simp [usedBlocks, hb]

theorem usedBlocks_mergeNext {cur : MemoryBlock} (post : List MemoryBlock)
    (hc : cur.free = true) : usedBlocks (mergeNext cur post) = usedBlocks post := by
  cases post with
  | nil => simp [mergeNext, usedBlocks, hc]
  | cons q post =>
    by_cases hq : q.free = true
    · rw [mergeNext_free cur q post hq, usedBlocks_cons_free _ (by exact hc), usedBlocks_cons_free _ hq]
    · rw [mergeNext_used cur q post hq, usedBlocks_cons_free _ hc]

/-- Releasing the block at a split point removes exactly that block from the used blocks. -/
theorem usedBlocks_releaseAt (pre : List MemoryBlock) (b : MemoryBlock)
    (post : List MemoryBlock) :
    usedBlocks (releaseAt (pre ++ b :: post) pre.length) = usedBlocks pre ++ usedBlocks post := by
  rcases release_shape pre b post with ⟨h, _⟩ | ⟨pre', p, hpre, hp, h⟩
  · rw [h, usedBlocks_append, usedBlocks_mergeNext post rfl]
  · rw [h, usedBlocks_append, usedBlocks_mergeNext post (by exact hp), hpre, usedBlocks_append,
      usedBlocks_cons_free _ hp]
    simp [usedBlocks]

/-- Releasing a block keeps the list well formed. -/
theorem memInv_release {size : Int} {pre : List MemoryBlock} {b : MemoryBlock}
    {post : List MemoryBlock} (h : MemInv size (pre ++ b :: post)) :
    MemInv size (releaseAt (pre ++ b :: post) pre.length) := by
  obtain ⟨hc, hna, hcl⟩ := h
  obtain ⟨mid, hc1, hc2⟩ := (contig_append pre (b :: post) 0 size).1 hc
  obtain ⟨hn1, hn2, _, hn4⟩ := noAdj_parts pre b post hna
  have hclpost : FreeIdsCleared post := fun x hx =>
    hcl x (List.mem_append_right _ (List.mem_cons_of_mem _ hx))
  rcases release_shape pre b post with ⟨hr, hlast⟩ | ⟨pre', p, hpre, hp, hr⟩
  · rw [hr]
    refine ⟨?_, ?_, ?_⟩
    · exact (contig_append pre _ 0 size).2 ⟨mid, hc1, contig_mergeNext hc2⟩
    · exact noAdj_append_of_last_used hn1 (noAdj_mergeNext hn2) hlast
    · intro x hx hf
      rcases List.mem_append.1 hx with h1 | h1
      · exact hcl x (List.mem_append_left _ h1) hf
      · exact cleared_mergeNext (released b) rfl hclpost x h1 hf
  · rw [hr]
    subst hpre
    obtain ⟨mid', hc3, hc4⟩ := (contig_append pre' [p] 0 mid).1 hc1
    obtain ⟨hp1, hp2, hp3⟩ := hc4
    obtain ⟨hb1, hb2, hb3⟩ := hc2
    have hp3' : mid' + p.size = mid := hp3
    have hpid : p.id = -1 := hcl p (by simp) hp
    refine ⟨?_, ?_, ?_⟩
    · refine (contig_append pre' _ 0 size).2 ⟨mid', hc3, contig_mergeNext ?_⟩
      refine ⟨hp1, ?_, ?_⟩
      · dsimp only; omega
      · dsimp only
        exact contig_shift hb3 (by omega)
    · have hn5 := (noAdj_parts pre' p [] hn1).1
      exact noAdj_append_of_last_used hn5 (noAdj_mergeNext hn2)
        (last_used_of_free_next hn1 hp)
    · intro x hx hf
      rcases List.mem_append.1 hx with h1 | h1
      · exact hcl x (by simp [h1]) hf
      · exact cleared_mergeNext { p with size := p.size + b.size } hpid hclpost x h1 hf

/-! ## Heap allocator: the searches of `freeMemory` and `freeByAddress` -/

theorem findUsedById_eq_none (id : Int) (rest : List MemoryBlock) (i : Nat) :
    findUsedById id rest i = none ↔ ∀ x ∈ rest, ¬ (x.free = false ∧ x.id = id) := by
  induction rest generalizing i with
  | nil => simp [findUsedById]
  | cons b rest ih =>
    unfold findUsedById
    by_cases hb : b.free = false ∧ b.id = id
    · simp [hb]
    · simp only [hb, if_false, ih, List.mem_cons, forall_eq_or_imp, not_false_iff, true_and]

theorem findUsedById_eq_some (id : Int) (rest : List MemoryBlock) :
    ∀ (i k : Nat), findUsedById id rest i = some k →
      ∃ pre b post, rest = pre ++ b :: post ∧ k = i + pre.length ∧ b.free = false ∧
        b.id = id ∧ ∀ x ∈ pre, ¬ (x.free = false ∧ x.id = id) := by
  induction rest with
  | nil => intro i k h; simp [findUsedById] at h
  | cons b rest ih =>
    intro i k h
    unfold findUsedById at h
    by_cases hb : b.free = false ∧ b.id = id
    · rw [if_pos hb] at h
      refine ⟨[], b, rest, rfl, ?_, hb.1, hb.2, by simp⟩
      simp only [Option.some.injEq] at h
      simp [h]
    · rw [if_neg hb] at h
      obtain ⟨pre, c, post, h1, h2, h3, h4, h5⟩ := ih (i + 1) k h
      refine ⟨b :: pre, c, post, by simp [h1], by simp; omega, h3, h4, ?_⟩
      intro x hx
      rcases List.mem_cons.1 hx with h6 | h6
      · rw [h6]; exact hb
      · exact h5 x h6

/-- The two outcomes of `freeMemory`: no used block has the id and nothing changes, or the
first used block with the id is released at its split point. -/
theorem freeMemory_cases (m : List MemoryBlock) (id : Int) :
    (freeMemory m id = (false, m) ∧ ∀ x ∈ m, ¬ (x.free = false ∧ x.id = id)) ∨
    (∃ pre b post, m = pre ++ b :: post ∧ b.free = false ∧ b.id = id ∧
      (∀ x ∈ pre, ¬ (x.free = false ∧ x.id = id)) ∧
      freeMemory m id = (true, releaseAt (pre ++ b :: post) pre.length)) := by
  unfold freeMemory
  cases h : findUsedById id m 0 with
  | none => exact Or.inl ⟨rfl, (findUsedById_eq_none id m 0).1 h⟩
  | some k =>
    obtain ⟨pre, b, post, h1, h2, h3, h4, h5⟩ := findUsedById_eq_some id m 0 k h
    refine Or.inr ⟨pre, b, post, h1, h3, h4, h5, ?_⟩
    simp only [Nat.zero_add] at h2
    rw [h2, h1]

theorem findUsedByStart_eq_none (a : Int) (m : List MemoryBlock) :
    findUsedByStart a m = none ↔ ∀ x ∈ m, ¬ (x.free = false ∧ x.start = a) := by
  induction m with
  | nil => simp [findUsedByStart]
  | cons b rest ih =>
    unfold findUsedByStart
    by_cases hb : b.free = false ∧ b.start = a
    · simp [hb]
    · simp only [hb, if_false, ih, List.mem_cons, forall_eq_or_imp, not_false_iff, true_and]

theorem findUsedByStart_eq_some (a : Int) (m : List MemoryBlock) (b : MemoryBlock)
    (h : findUsedByStart a m = some b) : b ∈ m ∧ b.free = false ∧ b.start = a := by
  induction m with
  | nil => simp [findUsedByStart] at h
  | cons c rest ih =>
    unfold findUsedByStart at h
    by_cases hc : c.free = false ∧ c.start = a
    · rw [if_pos hc] at h
      simp only [Option.some.injEq] at h
      subst h
      exact ⟨List.mem_cons_self _ _, hc.1, hc.2⟩
    · rw [if_neg hc] at h
      obtain ⟨h1, h2, h3⟩ := ih h
      exact ⟨List.mem_cons_of_mem _ h1, h2, h3⟩

/-- The result of `freeByAddress` is the input list or the result of a `freeMemory`. -/
theorem freeByAddress_cases (m : List MemoryBlock) (a : Int) :
    freeByAddress m a = (false, m) ∨ ∃ id, freeByAddress m a = freeMemory m id := by
  unfold freeByAddress
  cases findUsedByStart a m with
  | none => exact Or.inl rfl
  | some b => exact Or.inr ⟨b.id, rfl⟩

/-! ## Heap allocator: invariants along a run -/

theorem memInv_freeMemory {size : Int} {m : List MemoryBlock} (h : MemInv size m) (id : Int) :
    MemInv size (freeMemory m id).2 := by
  rcases freeMemory_cases m id with ⟨h1, _⟩ | ⟨pre, b, post, hm, _, _, _, h1⟩
  · rw [h1]; exact h
  · rw [h1]
    subst hm
    exact memInv_release h

theorem memInv_freeByAddress {size : Int} {m : List MemoryBlock} (h : MemInv size m)
    (a : Int) : MemInv size (freeByAddress m a).2 := by
  rcases freeByAddress_cases m a with h1 | ⟨id, h1⟩
  · rw [h1]; exact h
  · rw [h1]; exact memInv_freeMemory h id

theorem memInv_allocateMemory {size : Int} {st : HeapState} (h : MemInv size st.memory)
    (n : Int) : MemInv size (allocateMemory st n).2.memory := by
  cases hok : (allocateMemory st n).1
  · rw [((allocateMemory_eq_false st n).2 hok).1]; exact h
  · obtain ⟨hn, k, hk⟩ := allocateMemory_success st n hok
    obtain ⟨pre, b, post, hm, _, _, hfit, hres⟩ := allocateMemory_at st n k hn hk
    rw [hres]
    rw [hm] at h
    exact memInv_carve h hfit.1 n st.nextAllocId hn hfit.2

theorem memInv_heapStep {size : Int} {st : HeapState} (h : MemInv size st.memory)
    (c : HeapCmd) : MemInv size (heapStep st c).memory := by
  cases c with
  | alloc n => exact memInv_allocateMemory h n
  | free id => exact memInv_freeMemory h id
  | freeAddr a => exact memInv_freeByAddress h a
  | strategy s => exact h

theorem memInv_heapRun {size : Int} (cmds : List HeapCmd) :
    ∀ st : HeapState, MemInv size st.memory → MemInv size (heapRun st cmds).memory := by
  induction cmds with
  | nil => intro st h; exact h
  | cons c cs ih => intro st h; exact ih (heapStep st c) (memInv_heapStep h c)

theorem memInv_initMemory (st : HeapState) (size : Int) (hsize : 0 < size) :
    MemInv size (initMemory st size).memory := by
  refine ⟨⟨rfl, hsize, by simp [Contig]⟩, List.chain'_singleton _, ?_⟩
  intro b hb _
  simp only [initMemory, List.mem_singleton] at hb
  rw [hb]

/-! ## Heap allocator: what well-formedness says about the list -/

theorem contig_bounds {m : List MemoryBlock} :
    ∀ {s e : Int}, Contig s m e →
      s ≤ e ∧ ∀ x ∈ m, s ≤ x.start ∧ x.start + x.size ≤ e ∧ 0 < x.size := by
  induction m with
  | nil =>
    intro s e h
    have h' : s = e := h
    exact ⟨by omega, by simp⟩
  | cons b rest ih =>
    intro s e h
    obtain ⟨h1, h2, h3⟩ := h
    obtain ⟨h4, h5⟩ := ih h3
    refine ⟨by omega, ?_⟩
    intro x hx
    rcases List.mem_cons.1 hx with h6 | h6
    · rw [h6]; omega
    · have := h5 x h6
      omega

theorem contig_sorted {m : List MemoryBlock} :
    ∀ {s e : Int}, Contig s m e → m.Pairwise (fun a b => a.start < b.start) := by
  induction m with
  | nil => intro s e _; exact List.Pairwise.nil
  | cons b rest ih =>
    intro s e h
    obtain ⟨h1, h2, h3⟩ := h
    refine List.Pairwise.cons ?_ (ih h3)
    intro x hx
    have := (contig_bounds h3).2 x hx
    omega

theorem contig_chain {m : List MemoryBlock} :
    ∀ {s e : Int}, Contig s m e → m.Chain' (fun a b => b.start = a.start + a.size) := by
  induction m with
  | nil => intro s e _; exact List.chain'_nil
  | cons b rest ih =>
    intro s e h
    obtain ⟨h1, h2, h3⟩ := h
    cases rest with
    | nil => exact List.chain'_singleton b
    | cons c rest =>
      refine List.Chain'.cons ?_ (ih h3)
      have h4 : c.start = s + b.size := h3.1
      omega

theorem contig_sum {m : List MemoryBlock} :
    ∀ {s e : Int}, Contig s m e → (m.map (fun b => b.size)).sum = e - s := by
  induction m with
  | nil =>
    intro s e h
    have h' : s = e := h
    simp [h']
  | cons b rest ih =>
    intro s e h
    obtain ⟨h1, h2, h3⟩ := h
    have := ih h3
    simp only [List.map_cons, List.sum_cons, this]
    omega

/-- C1. After `initMemory` with `size > 0` and any sequence of `alloc`, `free`, `free addr` and
`strategy` commands, the block list is sorted by start offset, its first block starts at 0,
every block has positive size, every block starts exactly where its predecessor ends, the sizes
sum to `size`, and no two adjacent blocks are both free. -/
theorem heap_well_formed (s0 : HeapState) (size : Int) (cmds : List HeapCmd)
    (hsize : 0 < size) :
    (heapRun (initMemory s0 size) cmds).memory.Pairwise (fun a b => a.start < b.start) ∧
    (∃ b rest, (heapRun (initMemory s0 size) cmds).memory = b :: rest ∧ b.start = 0) ∧
    (∀ b ∈ (heapRun (initMemory s0 size) cmds).memory, 0 < b.size) ∧
    (heapRun (initMemory s0 size) cmds).memory.Chain'
      (fun a b => b.start = a.start + a.size) ∧
    ((heapRun (initMemory s0 size) cmds).memory.map (fun b => b.size)).sum = size ∧
    (heapRun (initMemory s0 size) cmds).memory.Chain'
      (fun a b => ¬ (a.free = true ∧ b.free = true)) := by
  obtain ⟨hc, hna, _⟩ := memInv_heapRun cmds _ (memInv_initMemory s0 size hsize)
  refine ⟨contig_sorted hc, ?_, fun b hb => ((contig_bounds hc).2 b hb).2.2, contig_chain hc,
    by simpa using contig_sum hc, hna⟩
  cases hm : (heapRun (initMemory s0 size) cmds).memory with
  | nil =>
    rw [hm] at hc
    have h' : (0 : Int) = size := hc
    omega
  | cons b rest =>
    rw [hm] at hc
    exact ⟨b, rest, rfl, hc.1⟩

/-- Well-formedness at a concrete run: `init memory 1024`, two allocations under first fit, a
switch to best fit, a release by address, one more allocation and a failing release. -/
theorem heap_well_formed_witness :
    (0 : Int) < 1024 ∧
    ((heapRun (initMemory HeapState.initial 1024)
        [.alloc 100, .alloc 200, .strategy .BEST_FIT, .freeAddr 0, .alloc 30,
         .free 9]).memory.map (fun b => b.size)).sum = 1024 :=
  ⟨by decide, (heap_well_formed HeapState.initial 1024
    [.alloc 100, .alloc 200, .strategy .BEST_FIT, .freeAddr 0, .alloc 30, .free 9]
    (by decide)).2.2.2.2.1⟩

/-- A well-formed list without used blocks is the single free block covering the heap. -/
theorem memInv_all_free {size : Int} {m : List MemoryBlock} (h : MemInv size m)
    (hsize : 0 < size) (hfree : ∀ b ∈ m, b.free = true) :
    m = [{ start := 0, size := size, free := true, id := -1 }] := by
  obtain ⟨hc, hna, hcl⟩ := h
  cases m with
  | nil =>
    have h' : (0 : Int) = size := hc
    omega
  | cons a rest =>
    cases rest with
    | nil =>
      obtain ⟨h1, _, h3⟩ := hc
      have h3' : 0 + a.size = size := h3
      have h4 := hfree a (by simp)
      have h5 := hcl a (by simp) h4
      cases a
      simp only at h1 h3' h4 h5
      simp only [List.cons.injEq, MemoryBlock.mk.injEq, and_true]
      exact ⟨h1, by omega, h4, h5⟩
    | cons b rest =>
      unfold NoAdjFree at hna
      rw [List.chain'_cons] at hna
      exact absurd ⟨hfree a (by simp), hfree b (by simp)⟩ hna.1

/-- C2. For every `size > 0` and every sequence of `alloc`, `free`, `free addr` and `strategy`
commands after `initMemory size` that leaves no used block, the block list is exactly the
single free block `{start 0, size size, id -1}`, the list right after `initMemory`. -/
theorem all_released_restores_initial (s0 : HeapState) (size : Int) (cmds : List HeapCmd)
    (hsize : 0 < size)
    (hnone : ∀ b ∈ (heapRun (initMemory s0 size) cmds).memory, b.free = true) :
    (heapRun (initMemory s0 size) cmds).memory =
      [{ start := 0, size := size, free := true, id := -1 }] ∧
    (heapRun (initMemory s0 size) cmds).memory = (initMemory s0 size).memory :=
  have h := memInv_all_free (memInv_heapRun cmds _ (memInv_initMemory s0 size hsize)) hsize hnone
  ⟨h, h⟩

/-- Restoring the initial list at a concrete run: three allocations that fill a heap of 1024
bytes, released in the order 2, 1, 3 (the last one by address) under a changed strategy. -/
theorem all_released_restores_initial_witness :
    (heapRun (initMemory HeapState.initial 1024)
      [.alloc 100, .alloc 200, .alloc 724, .strategy .WORST_FIT, .free 2, .free 1,
       .freeAddr 300]).memory = [{ start := 0, size := 1024, free := true, id := -1 }] :=
  (all_released_restores_initial HeapState.initial 1024
    [.alloc 100, .alloc 200, .alloc 724, .strategy .WORST_FIT, .free 2, .free 1, .freeAddr 300]
    (by decide) (by decide)).1

/-! ## Heap allocator: allocation ids -/

theorem usedIds_append (l1 l2 : List MemoryBlock) :
    usedIds (l1 ++ l2) = usedIds l1 ++ usedIds l2 := by
  simp [usedIds, usedBlocks_append]

theorem usedIds_cons_free {b : MemoryBlock} (l : List MemoryBlock) (hb : b.free = true) :
    usedIds (b :: l) = usedIds l := by
  simp [usedIds, usedBlocks_cons_free l hb]

theorem usedIds_cons_used {b : MemoryBlock} (l : List MemoryBlock) (hb : b.free = false) :
    usedIds (b :: l) = b.id :: usedIds l := by
  simp [usedIds, usedBlocks_cons_used l hb]

theorem mem_usedIds {m : List MemoryBlock} {x : Int} :
    x ∈ usedIds m ↔ ∃ b ∈ m, b.free = false ∧ b.id = x := by
  simp [usedIds, usedBlocks, and_assoc]

/-- The used ids after a carve: the new id is inserted between those before and after. -/
theorem usedIds_carve (pre : List MemoryBlock) (b : MemoryBlock) (post : List MemoryBlock)
    (hb : b.free = true) (n allocId : Int) :
    usedIds (pre ++
      ({ start := b.start, size := n, free := false, id := allocId } : MemoryBlock) ::
      (if b.size - n = 0 then post
       else { b with start := b.start + n, size := b.size - n } :: post)) =
      usedIds pre ++ allocId :: usedIds post := by
  rw [usedIds_append, usedIds_cons_used _ rfl]
  by_cases hz : b.size - n = 0
  · rw [if_pos hz]
  · rw [if_neg hz, usedIds_cons_free _ (by exact hb)]

theorem idInv_carve {pre : List MemoryBlock} {b : MemoryBlock} {post : List MemoryBlock}
    {next : Int} (h : IdInv (pre ++ b :: post) next) (hb : b.free = true) (n : Int) :
    IdInv (pre ++
      ({ start := b.start, size := n, free := false, id := next } : MemoryBlock) ::
      (if b.size - n = 0 then post
       else { b with start := b.start + n, size := b.size - n } :: post)) (next + 1) := by
  obtain ⟨h0, h1, h2⟩ := h
  rw [usedIds_append, usedIds_cons_free _ hb] at h1 h2
  unfold IdInv
  rw [usedIds_carve pre b post hb]
  refine ⟨by omega, ?_, ?_⟩
  · rw [List.nodup_middle, List.nodup_cons]
    refine ⟨?_, h1⟩
    intro hmem
    have := (h2 next hmem).2
    omega
  · intro x hx
    rcases List.mem_append.1 hx with h3 | h3
    · have := h2 x (List.mem_append_left _ h3)
      omega
    · rcases List.mem_cons.1 h3 with h4 | h4
      · omega
      · have := h2 x (List.mem_append_right _ h4)
        omega

/-- Releasing a block removes its id from the used ids and keeps the others. -/
theorem usedIds_releaseAt (pre : List MemoryBlock) (b : MemoryBlock) (post : List MemoryBlock) :
    usedIds (releaseAt (pre ++ b :: post) pre.length) = usedIds pre ++ usedIds post := by
  simp [usedIds, usedBlocks_releaseAt]

theorem idInv_release {pre : List MemoryBlock} {b : MemoryBlock} {post : List MemoryBlock}
    {next : Int} (h : IdInv (pre ++ b :: post) next) (hb : b.free = false) :
    IdInv (releaseAt (pre ++ b :: post) pre.length) next := by
  obtain ⟨h0, h1, h2⟩ := h
  rw [usedIds_append, usedIds_cons_used _ hb] at h1 h2
  unfold IdInv
  rw [usedIds_releaseAt]
  refine ⟨h0, ?_, ?_⟩
  · rw [List.nodup_middle, List.nodup_cons] at h1
    exact h1.2
  · intro x hx
    rcases List.mem_append.1 hx with h3 | h3
    · exact h2 x (List.mem_append_left _ h3)
    · exact h2 x (List.mem_append_right _ (List.mem_cons_of_mem _ h3))

theorem idInv_freeMemory {m : List MemoryBlock} {next : Int} (h : IdInv m next) (id : Int) :
    IdInv (freeMemory m id).2 next := by
  rcases freeMemory_cases m id with ⟨h1, _⟩ | ⟨pre, b, post, hm, hb, _, _, h1⟩
  · rw [h1]; exact h
  · rw [h1]
    subst hm
    exact idInv_release h hb

theorem idInv_freeByAddress {m : List MemoryBlock} {next : Int} (h : IdInv m next) (a : Int) :
    IdInv (freeByAddress m a).2 next := by
  rcases freeByAddress_cases m a with h1 | ⟨id, h1⟩
  · rw [h1]; exact h
  · rw [h1]; exact idInv_freeMemory h id

/-- The id counter after `allocateMemory`: one more after a success, unchanged after a failure. -/
theorem allocateMemory_next (st : HeapState) (n : Int) :
    (allocateMemory st n).2.nextAllocId =
      if (allocateMemory st n).1 = true then st.nextAllocId + 1 else st.nextAllocId := by
  cases hok : (allocateMemory st n).1
  · simp [((allocateMemory_eq_false st n).2 hok).2]
  · obtain ⟨hn, k, hk⟩ := allocateMemory_success st n hok
    obtain ⟨pre, b, post, _, _, _, _, hres⟩ := allocateMemory_at st n k hn hk
    rw [hres]
    simp

theorem idInv_allocateMemory {st : HeapState} (h : IdInv st.memory st.nextAllocId) (n : Int) :
    IdInv (allocateMemory st n).2.memory (allocateMemory st n).2.nextAllocId := by
  cases hok : (allocateMemory st n).1
  · rw [((allocateMemory_eq_false st n).2 hok).1, ((allocateMemory_eq_false st n).2 hok).2]; exact h
  · obtain ⟨hn, k, hk⟩ := allocateMemory_success st n hok
    obtain ⟨pre, b, post, hm, _, _, hfit, hres⟩ := allocateMemory_at st n k hn hk
    rw [hres]
    rw [hm] at h
    exact idInv_carve h hfit.1 n

theorem idInv_heapStep {st : HeapState} (h : IdInv st.memory st.nextAllocId) (c : HeapCmd) :
    IdInv (heapStep st c).memory (heapStep st c).nextAllocId := by
  cases c with
  | alloc n => exact idInv_allocateMemory h n
  | free id => exact idInv_freeMemory h id
  | freeAddr a => exact idInv_freeByAddress h a
  | strategy s => exact h

theorem idInv_heapRun (cmds : List HeapCmd) :
    ∀ st : HeapState, IdInv st.memory st.nextAllocId →
      IdInv (heapRun st cmds).memory (heapRun st cmds).nextAllocId := by
  induction cmds with
  | nil => intro st h; exact h
  | cons c cs ih => intro st h; exact ih (heapStep st c) (idInv_heapStep h c)

theorem idInv_initMemory (st : HeapState) (size : Int) :
    IdInv (initMemory st size).memory (initMemory st size).nextAllocId := by
  refine ⟨by simp [initMemory], ?_, ?_⟩ <;> simp [initMemory, usedIds, usedBlocks]

theorem next_le_heapStep (st : HeapState) (c : HeapCmd) :
    st.nextAllocId ≤ (heapStep st c).nextAllocId := by
  cases c with
  | alloc n =>
    show st.nextAllocId ≤ (allocateMemory st n).2.nextAllocId
    rw [allocateMemory_next]
    split <;> omega
  | free id => exact le_refl _
  | freeAddr a => exact le_refl _
  | strategy s => exact le_refl _

theorem next_le_heapRun (cmds : List HeapCmd) :
    ∀ st : HeapState, st.nextAllocId ≤ (heapRun st cmds).nextAllocId := by
  induction cmds with
  | nil => intro st; exact le_refl _
  | cons c cs ih =>
    intro st
    exact le_trans (next_le_heapStep st c) (ih (heapStep st c))

/-- The ids handed out along a run are strictly increasing, start at the counter value of the
run's first state and stay below the counter value of its last state. -/
theorem assignedIds_increasing (cmds : List HeapCmd) :
    ∀ st : HeapState, (assignedIds st cmds).Pairwise (fun a b => a < b) ∧
      ∀ x ∈ assignedIds st cmds, st.nextAllocId ≤ x ∧ x < (heapRun st cmds).nextAllocId := by
  induction cmds with
  | nil => intro st; simp [assignedIds]
  | cons c cs ih =>
    intro st
    have hstep := next_le_heapStep st c
    obtain ⟨ih1, ih2⟩ := ih (heapStep st c)
    have hrun : heapRun st (c :: cs) = heapRun (heapStep st c) cs := rfl
    have hrest : (assignedIds (heapStep st c) cs).Pairwise (fun a b => a < b) ∧
        ∀ x ∈ assignedIds (heapStep st c) cs,
          st.nextAllocId ≤ x ∧ x < (heapRun st (c :: cs)).nextAllocId := by
      refine ⟨ih1, fun x hx => ?_⟩
      have := ih2 x hx
      rw [hrun]
      omega
    cases c with
    | alloc n =>
      unfold assignedIds
      by_cases hok : (allocateMemory st n).1 = true
      · rw [if_pos hok]
        have hnext : (heapStep st (.alloc n)).nextAllocId = st.nextAllocId + 1 := by
          show (allocateMemory st n).2.nextAllocId = _
          rw [allocateMemory_next, if_pos hok]
        have hmono := next_le_heapRun cs (heapStep st (.alloc n))
        refine ⟨List.Pairwise.cons ?_ ih1, ?_⟩
        · intro x hx
          have := ih2 x hx
          omega
        · intro x hx
          rcases List.mem_cons.1 hx with h1 | h1
          · rw [h1, hrun]
            omega
          · exact hrest.2 x h1
      · rw [if_neg hok]
        exact hrest
    | free id => exact hrest
    | freeAddr a => exact hrest
    | strategy s => exact hrest

theorem mem_usedBlocks {m : List MemoryBlock} {c : MemoryBlock} :
    c ∈ usedBlocks m ↔ c ∈ m ∧ c.free = false := by
  simp [usedBlocks]

/-- C8. In every state reached from `initMemory` by `alloc`, `free`, `free addr` and `strategy`
commands the used blocks carry pairwise distinct ids, each at least 1 and below `nextAllocId`;
the ids handed out since `initMemory` are strictly increasing; and a successful
`allocateMemory` in that state inserts a used block whose id is the current `nextAllocId`, which
is strictly greater than every id handed out since `initMemory` and than the id of every used
block. -/
theorem allocation_ids_unique_and_monotonic (s0 : HeapState) (size : Int)
    (cmds : List HeapCmd) :
    (((heapRun (initMemory s0 size) cmds).memory.filter (fun b => !b.free)).map
      (fun b => b.id)).Nodup ∧
    (∀ b ∈ (heapRun (initMemory s0 size) cmds).memory, b.free = false →
      1 ≤ b.id ∧ b.id < (heapRun (initMemory s0 size) cmds).nextAllocId) ∧
    (assignedIds (initMemory s0 size) cmds).Pairwise (fun a b => a < b) ∧
    (∀ n, (allocateMemory (heapRun (initMemory s0 size) cmds) n).1 = true →
      (∃ b ∈ (allocateMemory (heapRun (initMemory s0 size) cmds) n).2.memory,
        b.free = false ∧ b.size = n ∧
        b.id = (heapRun (initMemory s0 size) cmds).nextAllocId) ∧
      (∀ x ∈ assignedIds (initMemory s0 size) cmds,
        x < (heapRun (initMemory s0 size) cmds).nextAllocId) ∧
      (∀ b ∈ (heapRun (initMemory s0 size) cmds).memory, b.free = false →
        b.id < (heapRun (initMemory s0 size) cmds).nextAllocId)) := by
  obtain ⟨_, h1, h2⟩ := idInv_heapRun cmds _ (idInv_initMemory s0 size)
  obtain ⟨h3, h4⟩ := assignedIds_increasing cmds (initMemory s0 size)
  have hused : ∀ b ∈ (heapRun (initMemory s0 size) cmds).memory, b.free = false →
      1 ≤ b.id ∧ b.id < (heapRun (initMemory s0 size) cmds).nextAllocId :=
    fun b hb hf => h2 b.id (mem_usedIds.2 ⟨b, hb, hf, rfl⟩)
  refine ⟨h1, hused, h3, ?_⟩
  intro n hok
  obtain ⟨hn, k, hk⟩ := allocateMemory_success _ n hok
  obtain ⟨pre, b, post, _, _, _, _, hres⟩ := allocateMemory_at _ n k hn hk
  refine ⟨?_, fun x hx => (h4 x hx).2, fun b hb hf => (hused b hb hf).2⟩
  rw [hres]
  exact ⟨_, List.mem_append_right _ (List.mem_cons_self _ _), rfl, rfl, rfl⟩

/-- C7. In every state reached from `initMemory` with `size > 0`, releasing a used block `b` by
its id succeeds; an immediately following `freeMemory` with the same id returns false and an
immediately following `freeByAddress` with the start address of `b` returns false, and both
leave the block list unchanged. -/
theorem double_release_rejected (s0 : HeapState) (size : Int) (cmds : List HeapCmd)
    (b : MemoryBlock) (hsize : 0 < size)
    (hb : b ∈ (heapRun (initMemory s0 size) cmds).memory) (hused : b.free = false) :
    (freeMemory (heapRun (initMemory s0 size) cmds).memory b.id).1 = true ∧
    freeMemory (freeMemory (heapRun (initMemory s0 size) cmds).memory b.id).2 b.id =
      (false, (freeMemory (heapRun (initMemory s0 size) cmds).memory b.id).2) ∧
    freeByAddress (freeMemory (heapRun (initMemory s0 size) cmds).memory b.id).2 b.start =
      (false, (freeMemory (heapRun (initMemory s0 size) cmds).memory b.id).2) := by
  have hmi := memInv_heapRun cmds _ (memInv_initMemory s0 size hsize)
  obtain ⟨_, hnd, _⟩ := idInv_heapRun cmds _ (idInv_initMemory s0 size)
  generalize (heapRun (initMemory s0 size) cmds).memory = m at hb hmi hnd ⊢
  rcases freeMemory_cases m b.id with ⟨_, h1⟩ | ⟨pre, c, post, hm, hc1, hc2, _, h1⟩
  · exact absurd ⟨hused, rfl⟩ (h1 b hb)
  · subst hm
    rw [usedIds_append, usedIds_cons_used _ hc1, List.nodup_middle, List.nodup_cons] at hnd
    have hnot : c.id ∉ usedIds pre ++ usedIds post := hnd.1
    have hbc : b = c := by
      rcases List.mem_append.1 hb with h2 | h2
      · exact absurd (List.mem_append_left _ (mem_usedIds.2 ⟨b, h2, hused, hc2.symm⟩)) hnot
      · rcases List.mem_cons.1 h2 with h3 | h3
        · exact h3
        · exact absurd (List.mem_append_right _ (mem_usedIds.2 ⟨b, h3, hused, hc2.symm⟩)) hnot
    subst hbc
    have hsorted := contig_sorted hmi.1
    rw [h1]
    refine ⟨rfl, ?_, ?_⟩
    · rcases freeMemory_cases (releaseAt (pre ++ b :: post) pre.length) b.id with
        ⟨h2, _⟩ | ⟨pre2, c2, post2, hm2, hc3, hc4, _, _⟩
      · exact h2
      · have hmem : b.id ∈ usedIds (releaseAt (pre ++ b :: post) pre.length) :=
          mem_usedIds.2 ⟨c2, by rw [hm2]; simp, hc3, hc4⟩
        rw [usedIds_releaseAt] at hmem
        exact absurd hmem hnot
    · unfold freeByAddress
      cases hf : findUsedByStart b.start (releaseAt (pre ++ b :: post) pre.length) with
      | none => rfl
      | some c2 =>
        obtain ⟨h2, h3, h4⟩ := findUsedByStart_eq_some _ _ _ hf
        have h5 : c2 ∈ usedBlocks (releaseAt (pre ++ b :: post) pre.length) :=
          mem_usedBlocks.2 ⟨h2, h3⟩
        rw [usedBlocks_releaseAt] at h5
        rw [List.pairwise_append] at hsorted
        rcases List.mem_append.1 h5 with h6 | h6
        · have := hsorted.2.2 c2 (mem_usedBlocks.1 h6).1 b (List.mem_cons_self _ _)
          omega
        · have := (List.pairwise_cons.1 hsorted.2.1).1 c2 (mem_usedBlocks.1 h6).1
          omega

/-- Double release at a concrete state: after `init memory 1024`, `alloc 100`, `alloc 200`,
the block with id 2 at address 100 is released once; the second release by id and the release
by address 100 are both rejected. -/
theorem double_release_rejected_witness :
    (freeMemory (heapRun (initMemory HeapState.initial 1024)
      [.alloc 100, .alloc 200]).memory 2).1 = true ∧
    freeMemory (freeMemory (heapRun (initMemory HeapState.initial 1024)
      [.alloc 100, .alloc 200]).memory 2).2 2 =
      (false, (freeMemory (heapRun (initMemory HeapState.initial 1024)
        [.alloc 100, .alloc 200]).memory 2).2) ∧
    freeByAddress (freeMemory (heapRun (initMemory HeapState.initial 1024)
      [.alloc 100, .alloc 200]).memory 2).2 100 =
      (false, (freeMemory (heapRun (initMemory HeapState.initial 1024)
        [.alloc 100, .alloc 200]).memory 2).2) :=
  double_release_rejected HeapState.initial 1024 [.alloc 100, .alloc 200]
    ⟨100, 200, false, 2⟩ (by decide) (by decide) rfl

/-! ## Heap allocator: `initMemory` -/

/-- C9 (as stated, refuted). `initMemory` with a size that is not positive does not leave the
block list alone: from the state at process start, size `-5` installs the block
`{start 0, size -5, free, id -1}` and size `0` the block `{start 0, size 0, free, id -1}`. -/
theorem initMemory_nonpositive_installs_block :
    (initMemory HeapState.initial (-5)).memory =
      [{ start := 0, size := -5, free := true, id := -1 }] ∧
    (initMemory HeapState.initial (-5)).memory ≠ HeapState.initial.memory ∧
    (initMemory HeapState.initial 0).memory =
      [{ start := 0, size := 0, free := true, id := -1 }] := by
  decide

/-- C9 (amended). `initMemory` has no failure outcome: for every size and every prior heap
state it leaves exactly one block, free, with start 0, the given size and id `-1`, and resets
`nextAllocId` to 1; it leaves the strategy and the counters as they were. -/
theorem initMemory_installs_single_block (st : HeapState) (size : Int) :
    (initMemory st size).memory = [{ start := 0, size := size, free := true, id := -1 }] ∧
    (initMemory st size).nextAllocId = 1 ∧
    (initMemory st size).currentStrategy = st.currentStrategy ∧
    (initMemory st size).totalAllocRequests = st.totalAllocRequests ∧
    (initMemory st size).successfulAllocs = st.successfulAllocs ∧
    (initMemory st size).failedAllocs = st.failedAllocs :=
  ⟨rfl, rfl, rfl, rfl, rfl, rfl⟩

/-! ## Virtual memory manager: vector accesses -/

theorem vecGet_natCast {α : Type} (v : List α) (n : Nat) : vecGet v (n : Int) = v[n]? := by
  unfold vecGet
  rw [if_neg (by omega)]
  simp

theorem vecGet_eq_some {α : Type} {v : List α} {i : Int} {x : α} (h : vecGet v i = some x) :
    0 ≤ i ∧ i.toNat < v.length ∧ v[i.toNat]? = some x := by
  unfold vecGet at h
  by_cases hi : i < 0
  · rw [if_pos hi] at h; cases h
  · rw [if_neg hi] at h
    refine ⟨by omega, ?_, h⟩
    by_contra hlen
    rw [List.getElem?_eq_none (by omega)] at h
    cases h

theorem vecGet_isSome {α : Type} {v : List α} {i : Int} (h0 : 0 ≤ i)
    (h1 : i < (v.length : Int)) : ∃ x, vecGet v i = some x := by
  unfold vecGet
  rw [if_neg (by omega)]
  have : i.toNat < v.length := by omega
  exact ⟨v[i.toNat], List.getElem?_eq_getElem this⟩

theorem vecSet_eq_some {α : Type} {v v' : List α} {i : Int} {x : α}
    (h : vecSet v i x = some v') :
    0 ≤ i ∧ i.toNat < v.length ∧ v' = v.set i.toNat x := by
  unfold vecSet at h
  by_cases hi : 0 ≤ i ∧ i.toNat < v.length
  · rw [if_pos hi] at h
    simp only [Option.some.injEq] at h
    exact ⟨hi.1, hi.2, h.symm⟩
  · rw [if_neg hi] at h; cases h

theorem vecSet_isSome {α : Type} (v : List α) {i : Int} (x : α) (h0 : 0 ≤ i)
    (h1 : i < (v.length : Int)) : vecSet v i x = some (v.set i.toNat x) := by
  unfold vecSet
  rw [if_pos ⟨h0, by omega⟩]

theorem vecSet_length {α : Type} {v v' : List α} {i : Int} {x : α}
    (h : vecSet v i x = some v') : v'.length = v.length := by
  rw [(vecSet_eq_some h).2.2]
  simp

theorem vecGet_vecSet_same {α : Type} {v v' : List α} {i : Int} {x : α}
    (h : vecSet v i x = some v') : vecGet v' i = some x := by
  obtain ⟨h0, h1, h2⟩ := vecSet_eq_some h
  unfold vecGet
  rw [if_neg (by omega), h2]
  simp [List.getElem?_set, h1]

theorem vecGet_vecSet_other {α : Type} {v v' : List α} {i j : Int} {x : α}
    (h : vecSet v i x = some v') (hj : j ≠ i) : vecGet v' j = vecGet v j := by
  obtain ⟨h0, h1, h2⟩ := vecSet_eq_some h
  unfold vecGet
  by_cases hneg : j < 0
  · simp [hneg]
  · rw [if_neg hneg, if_neg hneg, h2]
    have : i.toNat ≠ j.toNat := by omega
    simp [List.getElem?_set, this]

/-! ## Virtual memory manager: the scans of `evictPage` and `mapPage` -/

/-- The fallback scan over in-range indices returns the first valid page at or after `i`, or
`victimPage` unchanged when there is none. -/
theorem fallbackScan_spec (pt : List PageTableEntry) (v : Int) :
    ∀ (r i : Nat), i + r ≤ pt.length →
      ∃ w, fallbackScan pt v i r = some w ∧
        ((w = v ∧ ∀ j : Nat, i ≤ j → j < i + r → ∀ e, pt[j]? = some e → e.valid = false) ∨
         (∃ j : Nat, w = (j : Int) ∧ i ≤ j ∧ j < i + r ∧
           (∃ e, pt[j]? = some e ∧ e.valid = true) ∧
           ∀ k : Nat, i ≤ k → k < j → ∀ e, pt[k]? = some e → e.valid = false)) := by
  intro r
  induction r with
  | zero =>
    intro i _
    exact ⟨v, rfl, Or.inl ⟨rfl, fun j h1 h2 => by omega⟩⟩
  | succ r ih =>
    intro i hi
    have hlt : i < pt.length := by omega
    unfold fallbackScan
    rw [vecGet_natCast, List.getElem?_eq_getElem hlt]
    dsimp only
    by_cases hv : pt[i].valid = true
    · rw [if_pos hv]
      refine ⟨i, rfl, Or.inr ⟨i, rfl, le_refl _, by omega, ⟨pt[i], ?_, hv⟩, ?_⟩⟩
      · exact List.getElem?_eq_getElem hlt
      · intro k h1 h2; omega
    · rw [if_neg hv]
      obtain ⟨w, hw, hcase⟩ := ih (i + 1) (by omega)
      refine ⟨w, hw, ?_⟩
      have hhere : ∀ e, pt[i]? = some e → e.valid = false := by
        intro e he
        rw [List.getElem?_eq_getElem hlt] at he
        simp only [Option.some.injEq] at he
        rw [← he]
        simpa using hv
      rcases hcase with ⟨h1, h2⟩ | ⟨j, h1, h2, h3, h4, h5⟩
      · left
        refine ⟨h1, ?_⟩
        intro j hj1 hj2 e he
        by_cases hji : j = i
        · subst hji; exact hhere e he
        · exact h2 j (by omega) (by omega) e he
      · right
        refine ⟨j, h1, by omega, by omega, h4, ?_⟩
        intro k hk1 hk2 e he
        by_cases hki : k = i
        · subst hki; exact hhere e he
        · exact h5 k (by omega) hk2 e he

/-- The FIFO scan over in-range page numbers is defined; it leaves a part of the queue and its
victim is the initial one or a member of the queue. -/
theorem fifoScan_spec (pt : List PageTableEntry) :
    ∀ (queue : List Int) (v0 : Int), (∀ q ∈ queue, 0 ≤ q ∧ q < (pt.length : Int)) →
      ∃ v q', fifoScan pt queue v0 = some (v, q') ∧ (∀ x ∈ q', x ∈ queue) ∧
        (v = v0 ∨ v ∈ queue) := by
  intro queue
  induction queue with
  | nil => intro v0 _; exact ⟨v0, [], rfl, by simp, Or.inl rfl⟩
  | cons front rest ih =>
    intro v0 h
    obtain ⟨h0, h1⟩ := h front (List.mem_cons_self _ _)
    obtain ⟨e, he⟩ := vecGet_isSome (v := pt) h0 h1
    unfold fifoScan
    rw [he]
    dsimp only
    by_cases hv : e.valid = true
    · rw [if_pos hv]
      exact ⟨front, rest, rfl, fun x hx => List.mem_cons_of_mem _ hx,
        Or.inr (List.mem_cons_self _ _)⟩
    · rw [if_neg hv]
      obtain ⟨v, q', h2, h3, h4⟩ := ih front (fun q hq => h q (List.mem_cons_of_mem _ hq))
      refine ⟨v, q', h2, fun x hx => List.mem_cons_of_mem _ (h3 x hx), ?_⟩
      rcases h4 with h5 | h5
      · exact Or.inr (by rw [h5]; exact List.mem_cons_self _ _)
      · exact Or.inr (List.mem_cons_of_mem _ h5)

/-- The LRU scan over in-range keys is defined; its victim is the initial one or a key. -/
theorem lruScan_spec (pt : List PageTableEntry) :
    ∀ (m : List (Int × Int)) (oldest v0 : Int),
      (∀ e ∈ m, 0 ≤ e.1 ∧ e.1 < (pt.length : Int)) →
      ∃ v, lruScan pt m oldest v0 = some v ∧ (v = v0 ∨ ∃ e ∈ m, e.1 = v) := by
  intro m
  induction m with
  | nil => intro oldest v0 _; exact ⟨v0, rfl, Or.inl rfl⟩
  | cons hd rest ih =>
    intro oldest v0 h
    obtain ⟨page, time⟩ := hd
    obtain ⟨h0, h1⟩ := h (page, time) (List.mem_cons_self _ _)
    obtain ⟨e, he⟩ := vecGet_isSome (v := pt) h0 h1
    have hrest : ∀ e ∈ rest, 0 ≤ e.1 ∧ e.1 < (pt.length : Int) :=
      fun x hx => h x (List.mem_cons_of_mem _ hx)
    unfold lruScan
    rw [he]
    dsimp only
    by_cases hc : e.valid = true ∧ time < oldest
    · rw [if_pos hc]
      obtain ⟨v, h2, h3⟩ := ih time page hrest
      refine ⟨v, h2, Or.inr ?_⟩
      rcases h3 with h4 | ⟨x, hx, h4⟩
      · exact ⟨(page, time), List.mem_cons_self _ _, h4.symm⟩
      · exact ⟨x, List.mem_cons_of_mem _ hx, h4⟩
    · rw [if_neg hc]
      obtain ⟨v, h2, h3⟩ := ih oldest v0 hrest
      refine ⟨v, h2, ?_⟩
      rcases h3 with h4 | ⟨x, hx, h4⟩
      · exact Or.inl h4
      · exact Or.inr ⟨x, List.mem_cons_of_mem _ hx, h4⟩

/-- With a valid page in a page table of `NUM_PAGES` entries the whole fallback scan returns a
valid page. -/
theorem fallbackScan_valid (pt : List PageTableEntry) (v : Int) (hlen : pt.length = NUM_PAGES)
    (hsv : SomeValid pt) :
    ∃ w e, fallbackScan pt v 0 NUM_PAGES = some w ∧ vecGet pt w = some e ∧ e.valid = true := by
  obtain ⟨w, hw, hcase⟩ := fallbackScan_spec pt v NUM_PAGES 0 (by omega)
  rcases hcase with ⟨_, h2⟩ | ⟨j, h1, _, _, ⟨e, he, hv⟩, _⟩
  · obtain ⟨p, e, hp, hv⟩ := hsv
    obtain ⟨h3, h4, h5⟩ := vecGet_eq_some hp
    have := h2 p.toNat (by omega) (by omega) e h5
    rw [hv] at this
    cases this
  · exact ⟨w, e, hw, by rw [h1, vecGet_natCast]; exact he, hv⟩

/-- The policy loop is defined on a well-shaped state; its victim is `-1` or a page number in
range, and the queue it leaves is part of the old one. -/
theorem policyScan_spec (st : VMState) (hinv : VMShape st) :
    ∃ v q, policyScan st = some (v, q) ∧ (∀ x ∈ q, x ∈ st.fifoQueue) ∧
      (v = -1 ∨ (0 ≤ v ∧ v < NUM_PAGES)) := by
  unfold policyScan
  cases st.currentPolicy with
  | FIFO =>
    obtain ⟨v, q, h1, h2, h3⟩ := fifoScan_spec st.pageTable st.fifoQueue (-1)
      (by rw [hinv.ptLen]; exact hinv.queueRange)
    refine ⟨v, q, h1, h2, ?_⟩
    rcases h3 with h4 | h4
    · exact Or.inl h4
    · exact Or.inr (hinv.queueRange v h4)
  | LRU =>
    obtain ⟨v, h1, h3⟩ := lruScan_spec st.pageTable st.lastUsed INT_MAX (-1)
      (by rw [hinv.ptLen]; exact hinv.keysRange)
    refine ⟨v, st.fifoQueue, by simp only [h1], fun x hx => hx, ?_⟩
    rcases h3 with h4 | ⟨e, he, h4⟩
    · exact Or.inl h4
    · exact Or.inr (h4 ▸ hinv.keysRange e he)

/-- After the fallback the victim names a valid entry, provided some entry is valid. -/
theorem fallbackIfNeeded_spec (pt : List PageTableEntry) (v : Int)
    (hlen : pt.length = NUM_PAGES) (hsv : SomeValid pt)
    (hv : v = -1 ∨ (0 ≤ v ∧ v < NUM_PAGES)) :
    ∃ w e, fallbackIfNeeded pt v = some w ∧ vecGet pt w = some e ∧ e.valid = true := by
  unfold fallbackIfNeeded
  by_cases h1 : v = -1
  · rw [if_pos h1]
    exact fallbackScan_valid pt v hlen hsv
  · rw [if_neg h1]
    have hr : 0 ≤ v ∧ v < NUM_PAGES := by
      rcases hv with h | h
      · exact absurd h h1
      · exact h
    obtain ⟨e, he⟩ := vecGet_isSome (v := pt) hr.1 (by rw [hlen]; exact hr.2)
    rw [he]
    dsimp only
    by_cases h2 : e.valid = false
    · rw [if_pos h2]
      exact fallbackScan_valid pt v hlen hsv
    · rw [if_neg h2]
      exact ⟨v, e, rfl, he, by simpa using h2⟩

/-- Victim selection is defined on a well-shaped state with a valid page and returns a valid
page. -/
theorem selectVictim_spec (st : VMState) (hinv : VMShape st) (hsv : SomeValid st.pageTable) :
    ∃ v q e, selectVictim st = some (v, q) ∧ vecGet st.pageTable v = some e ∧
      e.valid = true ∧ ∀ x ∈ q, x ∈ st.fifoQueue := by
  obtain ⟨v0, q, h1, h2, h3⟩ := policyScan_spec st hinv
  obtain ⟨w, e, h4, h5, h6⟩ := fallbackIfNeeded_spec st.pageTable v0 hinv.ptLen hsv h3
  refine ⟨w, q, e, ?_, h5, h6, h2⟩
  unfold selectVictim
  rw [h1]
  dsimp only
  rw [h4]

/-- What `evictPage` does on a well-shaped state with a valid page: it is defined, its victim
`v` is a valid page, it returns the frame of `v`, invalidates the entry of `v`, frees that
frame, and leaves the translation cache alone. -/
theorem evictPage_spec (st : VMState) (hinv : VMShape st) (hsv : SomeValid st.pageTable) :
    ∃ frame st1 v, evictPage st = some (frame, st1) ∧
      vecGet st.pageTable v = some { valid := true, frameNumber := frame } ∧
      0 ≤ frame ∧ frame < NUM_FRAMES ∧
      vecSet st.pageTable v { valid := false, frameNumber := -1 } = some st1.pageTable ∧
      vecSet st.frameUsed frame false = some st1.frameUsed ∧
      st1.tlb = st.tlb ∧ st1.tlbNext = st.tlbNext ∧
      (∀ x ∈ st1.fifoQueue, x ∈ st.fifoQueue) ∧
      st1.lastUsed = mapErase st.lastUsed v ∧
      st1.timeCounter = st.timeCounter ∧ st1.currentPolicy = st.currentPolicy ∧
      st1.tlbHits = st.tlbHits ∧ st1.tlbMisses = st.tlbMisses := by
  obtain ⟨v, q, e, h1, h2, h3, h4⟩ := selectVictim_spec st hinv hsv
  obtain ⟨hf0, hf1⟩ := hinv.validFrame v e h2 h3
  obtain ⟨hv0, hv1, _⟩ := vecGet_eq_some h2
  have hpt := vecSet_isSome st.pageTable (i := v) { valid := false, frameNumber := -1 } hv0
    (by omega)
  have hfu := vecSet_isSome st.frameUsed (i := e.frameNumber) false hf0
    (by rw [hinv.fuLen]; exact hf1)
  refine ⟨e.frameNumber,
    { st with pageTable := st.pageTable.set v.toNat { valid := false, frameNumber := -1 },
              frameUsed := st.frameUsed.set e.frameNumber.toNat false,
              fifoQueue := q,
              lastUsed := mapErase st.lastUsed v },
    v, ?_, ?_, hf0, hf1, hpt, hfu, rfl, rfl, h4, rfl, rfl, rfl, rfl, rfl⟩
  · unfold evictPage
    rw [h1]
    dsimp only
    rw [h2]
    dsimp only
    rw [hpt]
    dsimp only
    rw [hfu]
  · rw [h2]
    cases e
    simp only at h3
    simp [h3]

/-- The free-frame loop over in-range frames is defined and returns the lowest frame that is
not in use, or nothing when all scanned frames are in use. -/
theorem findFreeFrame_spec (fu : List Bool) :
    ∀ (r f : Nat), f + r ≤ fu.length →
      (findFreeFrame fu f r = some none ∧
        ∀ g : Nat, f ≤ g → g < f + r → fu[g]? = some true) ∨
      (∃ g : Nat, findFreeFrame fu f r = some (some g) ∧ f ≤ g ∧ g < f + r ∧
        fu[g]? = some false ∧ ∀ k : Nat, f ≤ k → k < g → fu[k]? = some true) := by
  intro r
  induction r with
  | zero =>
    intro f _
    exact Or.inl ⟨rfl, fun g h1 h2 => by omega⟩
  | succ r ih =>
    intro f hf
    have hlt : f < fu.length := by omega
    have hget : fu[f]? = some fu[f] := List.getElem?_eq_getElem hlt
    unfold findFreeFrame
    rw [vecGet_natCast, hget]
    dsimp only
    by_cases hu : fu[f] = false
    · rw [if_pos hu]
      exact Or.inr ⟨f, rfl, le_refl _, by omega, by rw [hget, hu], fun k h1 h2 => by omega⟩
    · rw [if_neg hu]
      have hhere : fu[f]? = some true := by
        rw [hget]
        simpa using hu
      rcases ih (f + 1) (by omega) with ⟨h1, h2⟩ | ⟨g, h1, h2, h3, h4, h5⟩
      · left
        refine ⟨h1, ?_⟩
        intro g hg1 hg2
        by_cases hgf : g = f
        · subst hgf; exact hhere
        · exact h2 g (by omega) (by omega)
      · right
        refine ⟨g, h1, by omega, by omega, h4, ?_⟩
        intro k hk1 hk2
        by_cases hkf : k = f
        · subst hkf; exact hhere
        · exact h5 k (by omega) hk2

theorem mem_mapAssign {m : List (Int × Int)} {page time : Int} {e : Int × Int}
    (h : e ∈ mapAssign m page time) : e.1 = page ∨ e ∈ m := by
  unfold mapAssign at h
  split at h
  · obtain ⟨x, hx, hxe⟩ := List.mem_map.1 h
    by_cases hp : x.1 = page
    · rw [if_pos hp] at hxe
      left; rw [← hxe]
    · rw [if_neg hp] at hxe
      right; rw [← hxe]; exact hx
  · rcases List.mem_append.1 h with h1 | h1
    · exact Or.inr h1
    · left
      simp only [List.mem_singleton] at h1
      rw [h1]

theorem mem_mapErase {m : List (Int × Int)} {page : Int} {e : Int × Int}
    (h : e ∈ mapErase m page) : e ∈ m := by
  unfold mapErase at h
  exact (List.mem_filter.1 h).1

/-- What `installPage` does for an in-range page and frame on a well-shaped state. -/
theorem installPage_spec (st : VMState) (hs : VMShape st) (p frame : Int)
    (hp : 0 ≤ p ∧ p < NUM_PAGES) (hf : 0 ≤ frame ∧ frame < NUM_FRAMES) :
    ∃ st2, installPage st p frame = some st2 ∧ VMInv st2 ∧
      vecGet st2.pageTable p = some { valid := true, frameNumber := frame } ∧
      (∀ q, q ≠ p → vecGet st2.pageTable q = vecGet st.pageTable q) ∧
      st2.tlb = st.tlb ∧ st2.tlbNext = st.tlbNext ∧
      st2.currentPolicy = st.currentPolicy := by
  have hfu := vecSet_isSome st.frameUsed (i := frame) true hf.1 (by rw [hs.fuLen]; exact hf.2)
  have hpt := vecSet_isSome st.pageTable (i := p) { valid := true, frameNumber := frame }
    hp.1 (by rw [hs.ptLen]; exact hp.2)
  refine ⟨{ st with frameUsed := st.frameUsed.set frame.toNat true,
                    pageTable := st.pageTable.set p.toNat { valid := true, frameNumber := frame },
                    fifoQueue := st.fifoQueue ++ [p],
                    lastUsed := mapAssign st.lastUsed p st.timeCounter,
                    timeCounter := st.timeCounter + 1 }, ?_, ?_, ?_, ?_, rfl, rfl, rfl⟩
  · unfold installPage
    rw [hfu]
    dsimp only
    rw [hpt]
  · refine ⟨⟨?_, ?_, hs.tlbLen, hs.tlbCursor, ?_, ?_, ?_⟩, ?_⟩
    · simp [hs.ptLen]
    · simp [hs.fuLen]
    · intro q e hq hv
      dsimp only at hq
      by_cases hqp : q = p
      · rw [hqp, vecGet_vecSet_same hpt] at hq
        simp only [Option.some.injEq] at hq
        rw [← hq]
        exact hf
      · rw [vecGet_vecSet_other hpt hqp] at hq
        exact hs.validFrame q e hq hv
    · intro q hq
      dsimp only at hq
      rcases List.mem_append.1 hq with h1 | h1
      · exact hs.queueRange q h1
      · simp only [List.mem_singleton] at h1
        rw [h1]; exact hp
    · intro e he
      dsimp only at he
      rcases mem_mapAssign he with h1 | h1
      · rw [h1]; exact hp
      · exact hs.keysRange e h1
    · intro _
      exact ⟨p, _, vecGet_vecSet_same hpt, rfl⟩
  · exact vecGet_vecSet_same hpt
  · intro q hq
    exact vecGet_vecSet_other hpt hq

/-- The state `evictPage` leaves is well shaped. -/
theorem evictPage_shape (st : VMState) (hs : VMShape st) (frame : Int) (st1 : VMState)
    (v : Int)
    (hpt : vecSet st.pageTable v { valid := false, frameNumber := -1 } = some st1.pageTable)
    (hfu : vecSet st.frameUsed frame false = some st1.frameUsed)
    (htlb : st1.tlb = st.tlb) (hnext : st1.tlbNext = st.tlbNext)
    (hq : ∀ x ∈ st1.fifoQueue, x ∈ st.fifoQueue)
    (hlu : st1.lastUsed = mapErase st.lastUsed v) : VMShape st1 := by
  refine ⟨?_, ?_, ?_, ?_, ?_, ?_, ?_⟩
  · rw [vecSet_length hpt]; exact hs.ptLen
  · rw [vecSet_length hfu]; exact hs.fuLen
  · rw [htlb]; exact hs.tlbLen
  · rw [hnext]; exact hs.tlbCursor
  · intro q e hqe hv
    by_cases hqv : q = v
    · rw [hqv, vecGet_vecSet_same hpt] at hqe
      simp only [Option.some.injEq] at hqe
      rw [← hqe] at hv
      cases hv
    · rw [vecGet_vecSet_other hpt hqv] at hqe
      exact hs.validFrame q e hqe hv
  · intro x hx
    exact hs.queueRange x (hq x hx)
  · intro e he
    rw [hlu] at he
    exact hs.keysRange e (mem_mapErase he)

/-! ## Virtual memory manager: `mapPage` and `translateAddress` on well-shaped states -/

/-- What `mapPage` does for an in-range page on a state that satisfies the invariant: it is
defined, keeps the invariant, maps the page to a frame `f` in range, leaves the translation
cache and the policy alone, and creates no valid entry for another page.  The frame `f` is the
lowest-numbered frame not in use, or, when all frames are in use, the frame `evictPage`
returns. -/
theorem mapPage_spec (st : VMState) (hinv : VMInv st) (p : Int)
    (hp : 0 ≤ p ∧ p < NUM_PAGES) :
    ∃ st2 f, mapPage st p = some st2 ∧ VMInv st2 ∧
      vecGet st2.pageTable p = some { valid := true, frameNumber := f } ∧
      0 ≤ f ∧ f < NUM_FRAMES ∧
      st2.tlb = st.tlb ∧ st2.tlbNext = st.tlbNext ∧ st2.currentPolicy = st.currentPolicy ∧
      (∀ q, q ≠ p → ∀ e, vecGet st2.pageTable q = some e → e.valid = true →
        vecGet st.pageTable q = some e) ∧
      ((∃ g : Nat, f = (g : Int) ∧ g < NUM_FRAMES ∧ vecGet st.frameUsed (g : Int) = some false ∧
          ∀ k : Nat, k < g → vecGet st.frameUsed (k : Int) = some true) ∨
       ((∀ g : Nat, g < NUM_FRAMES → vecGet st.frameUsed (g : Int) = some true) ∧
          ∃ st1 v, evictPage st = some (f, st1) ∧
            vecGet st.pageTable v = some { valid := true, frameNumber := f })) := by
  rcases findFreeFrame_spec st.frameUsed NUM_FRAMES 0 (by rw [hinv.shape.fuLen]; omega) with
    ⟨h1, h2⟩ | ⟨g, h1, _, h3, h4, h5⟩
  · have hall : ∀ g : Nat, g < NUM_FRAMES → vecGet st.frameUsed (g : Int) = some true := by
      intro g hg
      rw [vecGet_natCast]
      exact h2 g (by omega) (by omega)
    have hsv : SomeValid st.pageTable :=
      hinv.someValid ⟨((0 : Nat) : Int), hall 0 (by decide)⟩
    obtain ⟨frame, st1, v, he, hv, hf0, hf1, hpt, hfu, htlb, hnext, hq, hlu, _, hpol, _, _⟩ :=
      evictPage_spec st hinv.shape hsv
    have hs1 := evictPage_shape st hinv.shape frame st1 v hpt hfu htlb hnext hq hlu
    obtain ⟨st2, hi, hinv2, hget, hother, htlb2, hnext2, hpol2⟩ :=
      installPage_spec st1 hs1 p frame hp ⟨hf0, hf1⟩
    refine ⟨st2, frame, ?_, hinv2, hget, hf0, hf1, by rw [htlb2, htlb], by rw [hnext2, hnext],
      by rw [hpol2, hpol], ?_, Or.inr ⟨hall, st1, v, he, hv⟩⟩
    · unfold mapPage
      rw [h1]
      dsimp only
      rw [he]
      dsimp only
      exact hi
    · intro q hq e hqe hev
      rw [hother q hq] at hqe
      by_cases hqv : q = v
      · rw [hqv, vecGet_vecSet_same hpt] at hqe
        simp only [Option.some.injEq] at hqe
        rw [← hqe] at hev
        cases hev
      · rw [vecGet_vecSet_other hpt hqv] at hqe
        exact hqe
  · have hg : (g : Int) < NUM_FRAMES := by
      have : g < NUM_FRAMES := by omega
      exact_mod_cast this
    obtain ⟨st2, hi, hinv2, hget, hother, htlb2, hnext2, hpol2⟩ :=
      installPage_spec st hinv.shape p (g : Int) hp ⟨by omega, hg⟩
    refine ⟨st2, (g : Int), ?_, hinv2, hget, by omega, hg, htlb2, hnext2, hpol2, ?_,
      Or.inl ⟨g, rfl, by omega, by rw [vecGet_natCast]; exact h4, ?_⟩⟩
    · unfold mapPage
      rw [h1]
      dsimp only
      exact hi
    · intro q hq e hqe _
      rw [hother q hq] at hqe
      exact hqe
    · intro k hk
      rw [vecGet_natCast]
      exact h5 k (by omega) hk

theorem tlbLookup_eq_none (p : Int) (tlb : List TLBEntry) :
    tlbLookup p tlb = none ↔ ∀ e ∈ tlb, ¬ (e.valid = true ∧ e.pageNumber = p) := by
  induction tlb with
  | nil => simp [tlbLookup]
  | cons e rest ih =>
    unfold tlbLookup
    by_cases he : e.valid = true ∧ e.pageNumber = p
    · simp [he]
    · simp only [he, if_false, ih, List.mem_cons, forall_eq_or_imp, not_false_iff, true_and]

/-- The four outcomes of `translateAddress` on a well-shaped state. -/
theorem translateAddress_cases (st : VMState) (hs : VMShape st) (a : Int) :
    ((a.tdiv PAGE_SIZE < 0 ∨ a.tdiv PAGE_SIZE ≥ NUM_PAGES) ∧
      translateAddress st a = some (.addressOutOfRange, st)) ∨
    ((0 ≤ a.tdiv PAGE_SIZE ∧ a.tdiv PAGE_SIZE < NUM_PAGES) ∧
      ((∃ frame, tlbLookup (a.tdiv PAGE_SIZE) st.tlb = some frame ∧
          translateAddress st a =
            some (.ok (frame * PAGE_SIZE + a.tmod PAGE_SIZE),
              { st with tlbHits := st.tlbHits + 1 })) ∨
       (tlbLookup (a.tdiv PAGE_SIZE) st.tlb = none ∧
          ∃ e, vecGet st.pageTable (a.tdiv PAGE_SIZE) = some e ∧
            ((e.valid = false ∧
                translateAddress st a =
                  some (.pageFault, { st with tlbMisses := st.tlbMisses + 1 })) ∨
             (e.valid = true ∧
                translateAddress st a =
                  some (.ok (e.frameNumber * PAGE_SIZE + a.tmod PAGE_SIZE),
                    { st with
                      tlbMisses := st.tlbMisses + 1,
                      tlb := st.tlb.set st.tlbNext
                        { pageNumber := a.tdiv PAGE_SIZE, frameNumber := e.frameNumber,
                          valid := true },
                      tlbNext := (st.tlbNext + 1) % st.tlb.length,
                      lastUsed := mapAssign st.lastUsed (a.tdiv PAGE_SIZE) st.timeCounter,
                      timeCounter := st.timeCounter + 1 })))))) := by
  unfold translateAddress
  dsimp only
  by_cases hr : a.tdiv PAGE_SIZE < 0 ∨ a.tdiv PAGE_SIZE ≥ NUM_PAGES
  · left
    rw [if_pos hr]
    exact ⟨hr, rfl⟩
  · right
    rw [if_neg hr]
    have hr2 : 0 ≤ a.tdiv PAGE_SIZE ∧ a.tdiv PAGE_SIZE < NUM_PAGES := by
      constructor
      · by_contra h; exact hr (Or.inl (by omega))
      · by_contra h; exact hr (Or.inr (by omega))
    refine ⟨hr2, ?_⟩
    cases hl : tlbLookup (a.tdiv PAGE_SIZE) st.tlb with
    | some frame => exact Or.inl ⟨frame, rfl, rfl⟩
    | none =>
      right
      refine ⟨rfl, ?_⟩
      obtain ⟨e, he⟩ := vecGet_isSome (v := st.pageTable) hr2.1 (by rw [hs.ptLen]; exact hr2.2)
      refine ⟨e, he, ?_⟩
      dsimp only
      rw [he]
      dsimp only
      by_cases hv : e.valid = false
      · rw [if_pos hv]
        exact Or.inl ⟨hv, rfl⟩
      · rw [if_neg hv]
        right
        refine ⟨by simpa using hv, ?_⟩
        have hset := vecSet_isSome st.tlb (i := (st.tlbNext : Int))
          ({ pageNumber := a.tdiv PAGE_SIZE, frameNumber := e.frameNumber, valid := true })
          (by omega) (by rw [hs.tlbLen]; exact_mod_cast hs.tlbCursor)
        unfold updateTLB
        dsimp only
        rw [hset]
        simp

/-- `translateAddress` is defined on a state that satisfies the invariant, keeps the
invariant and does not touch the page table or the frame occupancy. -/
theorem translateAddress_inv (st : VMState) (hinv : VMInv st) (a : Int) :
    ∃ r st1, translateAddress st a = some (r, st1) ∧ VMInv st1 ∧
      st1.pageTable = st.pageTable ∧ st1.frameUsed = st.frameUsed := by
  have hs := hinv.shape
  rcases translateAddress_cases st hs a with ⟨_, h⟩ | ⟨hr, ⟨frame, _, h⟩ | ⟨_, e, he, h⟩⟩
  · exact ⟨_, _, h, hinv, rfl, rfl⟩
  · exact ⟨_, _, h, ⟨⟨hs.ptLen, hs.fuLen, hs.tlbLen, hs.tlbCursor, hs.validFrame, hs.queueRange,
      hs.keysRange⟩, hinv.someValid⟩, rfl, rfl⟩
  · rcases h with ⟨_, h⟩ | ⟨_, h⟩
    · exact ⟨_, _, h, ⟨⟨hs.ptLen, hs.fuLen, hs.tlbLen, hs.tlbCursor, hs.validFrame,
        hs.queueRange, hs.keysRange⟩, hinv.someValid⟩, rfl, rfl⟩
    · refine ⟨_, _, h, ⟨⟨hs.ptLen, hs.fuLen, ?_, ?_, hs.validFrame, hs.queueRange, ?_⟩,
        hinv.someValid⟩, rfl, rfl⟩
      · simp [hs.tlbLen]
      · dsimp only
        rw [hs.tlbLen]
        exact Nat.mod_lt _ (by decide)
      · intro x hx
        dsimp only at hx
        rcases mem_mapAssign hx with h1 | h1
        · rw [h1]; exact hr
        · exact hs.keysRange x h1

/-- `translateAddress` makes no page present other than the page it translates. -/
theorem translateAddress_notPresent (st : VMState) (hinv : VMInv st) (a p : Int)
    (hnp : NotPresent p st) (r : TranslateResult) (st1 : VMState)
    (h : translateAddress st a = some (r, st1)) : NotPresent p st1 := by
  have hs := hinv.shape
  rcases translateAddress_cases st hs a with ⟨_, h1⟩ | ⟨hr, ⟨frame, _, h1⟩ | ⟨hl, e, he, h2⟩⟩
  · rw [h1] at h
    simp only [Option.some.injEq, Prod.mk.injEq] at h
    rw [← h.2]; exact hnp
  · rw [h1] at h
    simp only [Option.some.injEq, Prod.mk.injEq] at h
    rw [← h.2]; exact hnp
  · rcases h2 with ⟨_, h1⟩ | ⟨hv, h1⟩
    · rw [h1] at h
      simp only [Option.some.injEq, Prod.mk.injEq] at h
      rw [← h.2]; exact hnp
    · rw [h1] at h
      simp only [Option.some.injEq, Prod.mk.injEq] at h
      rw [← h.2]
      have hne : a.tdiv PAGE_SIZE ≠ p := by
        intro heq
        have := hnp.1 e (heq ▸ he)
        rw [hv] at this
        cases this
      refine ⟨hnp.1, ?_⟩
      dsimp only
      rw [tlbLookup_eq_none]
      intro x hx hc
      rcases List.mem_or_eq_of_mem_set hx with h3 | h3
      · exact (tlbLookup_eq_none p st.tlb).1 hnp.2 x h3 hc
      · rw [h3] at hc
        exact hne hc.2

theorem vmStep_load (st : VMState) (page : Int) :
    vmStep st (.load page) =
      if page < 0 ∨ page ≥ NUM_PAGES then some st else mapPage st page := rfl

theorem vmStep_translate (st : VMState) (a : Int) :
    vmStep st (.translate a) =
      match translateAddress st a with
      | none => none
      | some (_, st1) => some st1 := rfl

theorem vmStep_policy (st : VMState) (pol : ReplacementPolicy) :
    vmStep st (.policy pol) = some { st with currentPolicy := pol } := rfl

/-- Every command is defined on a state that satisfies the invariant and keeps it. -/
theorem vmStep_inv (st : VMState) (hinv : VMInv st) (c : VMCmd) :
    ∃ st1, vmStep st c = some st1 ∧ VMInv st1 := by
  cases c with
  | load page =>
    rw [vmStep_load]
    by_cases hr : page < 0 ∨ page ≥ NUM_PAGES
    · rw [if_pos hr]; exact ⟨st, rfl, hinv⟩
    · rw [if_neg hr]
      have hr2 : 0 ≤ page ∧ page < NUM_PAGES := by
        constructor
        · by_contra h; exact hr (Or.inl (by omega))
        · by_contra h; exact hr (Or.inr (by omega))
      obtain ⟨st2, _, h1, h2, _⟩ := mapPage_spec st hinv page hr2
      exact ⟨st2, h1, h2⟩
  | translate a =>
    obtain ⟨r, st1, h1, h2, _⟩ := translateAddress_inv st hinv a
    refine ⟨st1, ?_, h2⟩
    rw [vmStep_translate]
    rw [h1]
  | policy pol =>
    have hs := hinv.shape
    exact ⟨_, rfl, ⟨⟨hs.ptLen, hs.fuLen, hs.tlbLen, hs.tlbCursor, hs.validFrame, hs.queueRange,
      hs.keysRange⟩, hinv.someValid⟩⟩

/-- No command other than `load p` makes page `p` present. -/
theorem vmStep_notPresent (st : VMState) (hinv : VMInv st) (p : Int) (hnp : NotPresent p st)
    (c : VMCmd) (hc : c ≠ .load p) (st1 : VMState) (h : vmStep st c = some st1) :
    NotPresent p st1 := by
  cases c with
  | load page =>
    rw [vmStep_load] at h
    by_cases hr : page < 0 ∨ page ≥ NUM_PAGES
    · rw [if_pos hr] at h
      simp only [Option.some.injEq] at h
      rw [← h]; exact hnp
    · rw [if_neg hr] at h
      have hr2 : 0 ≤ page ∧ page < NUM_PAGES := by
        constructor
        · by_contra h; exact hr (Or.inl (by omega))
        · by_contra h; exact hr (Or.inr (by omega))
      have hpp : p ≠ page := fun heq => hc (by rw [heq])
      obtain ⟨st2, _, h1, _, _, _, _, htlb, _, _, hother, _⟩ := mapPage_spec st hinv page hr2
      rw [h1] at h
      simp only [Option.some.injEq] at h
      rw [← h]
      refine ⟨?_, by rw [htlb]; exact hnp.2⟩
      intro e he
      cases hv : e.valid
      · rfl
      · have := hnp.1 e (hother p hpp e he hv)
        rw [hv] at this
        cases this
  | translate a =>
    rw [vmStep_translate] at h
    obtain ⟨r, st2, h1, _⟩ := translateAddress_inv st hinv a
    rw [h1] at h
    simp only [Option.some.injEq] at h
    rw [← h]
    exact translateAddress_notPresent st hinv a p hnp r st2 h1
  | policy pol =>
    rw [vmStep_policy] at h
    simp only [Option.some.injEq] at h
    rw [← h]
    exact hnp

/-- Every run from a state that satisfies the invariant is defined and ends in a state that
satisfies it; a page that is not present at the start and is never loaded is not present at the
end. -/
theorem vmRun_inv (cmds : List VMCmd) :
    ∀ st : VMState, VMInv st →
      ∃ st1, vmRun st cmds = some st1 ∧ VMInv st1 ∧
        ∀ p, NotPresent p st → VMCmd.load p ∉ cmds → NotPresent p st1 := by
  induction cmds with
  | nil => intro st hinv; exact ⟨st, rfl, hinv, fun p hnp _ => hnp⟩
  | cons c cs ih =>
    intro st hinv
    obtain ⟨st1, h1, h2⟩ := vmStep_inv st hinv c
    obtain ⟨st2, h3, h4, h5⟩ := ih st1 h2
    refine ⟨st2, ?_, h4, ?_⟩
    · unfold vmRun
      rw [h1]
      exact h3
    · intro p hnp hmem
      refine h5 p (vmStep_notPresent st hinv p hnp c ?_ st1 h1) ?_
      · intro hc
        exact hmem (by rw [hc]; exact List.mem_cons_self _ _)
      · intro hc
        exact hmem (List.mem_cons_of_mem _ hc)

theorem vecGet_replicate {α : Type} {n : Nat} {x e : α} {i : Int}
    (h : vecGet (List.replicate n x) i = some e) : e = x := by
  obtain ⟨_, _, h3⟩ := vecGet_eq_some h
  rw [List.getElem?_replicate] at h3
  split at h3
  · simp only [Option.some.injEq] at h3
    exact h3.symm
  · cases h3

/-- The state at process start satisfies the invariant and has no page present. -/
theorem vmInv_initial : VMInv VMState.initial ∧ ∀ p, NotPresent p VMState.initial := by
  refine ⟨⟨⟨by simp [VMState.initial], by simp [VMState.initial], by simp [VMState.initial],
    by decide, ?_, by simp [VMState.initial], by simp [VMState.initial]⟩, ?_⟩, ?_⟩
  · intro p e he hv
    have := vecGet_replicate he
    rw [this] at hv
    cases hv
  · rintro ⟨f, hf⟩
    have := vecGet_replicate hf
    cases this
  · intro p
    refine ⟨?_, ?_⟩
    · intro e he
      rw [vecGet_replicate he]
    · rw [tlbLookup_eq_none]
      intro e he hc
      have : e = { pageNumber := -1, frameNumber := -1, valid := false } := by
        simp only [VMState.initial] at he
        exact List.eq_of_mem_replicate he
      rw [this] at hc
      cases hc.1

/-! ## Virtual memory manager: page faults and translation after a load -/

/-- C10. In every state reached from the initial state by `load`, `translate` and `policy`
commands (each such run is defined), for every virtual address `a` in `[0, 2048)` whose page
`a / 64` was never loaded, `translateAddress` fails with a page fault; the command `load`
of that page is then defined and maps the page to a frame `f`, which is the lowest-numbered
frame not in use or, when all frames are in use, the frame of the victim that `evictPage`
returns; and the immediately following `translateAddress` succeeds with `f * 64 + a % 64`.
End to end: after `load 0`, `translate 0` yields 0 and `translate 70` faults; after `load 1`,
`translate 70` yields 70. -/
theorem translate_faults_until_loaded :
    (∀ (cmds : List VMCmd) (a : Int), 0 ≤ a → a < 2048 → VMCmd.load (a / 64) ∉ cmds →
      ∃ st, vmRun VMState.initial cmds = some st ∧
        (∃ st1, translateAddress st a = some (.pageFault, st1)) ∧
        ∃ st2 f, vmStep st (.load (a / 64)) = some st2 ∧
          vecGet st2.pageTable (a / 64) = some { valid := true, frameNumber := f } ∧
          ((∃ g : Nat, f = (g : Int) ∧ g < NUM_FRAMES ∧
              vecGet st.frameUsed (g : Int) = some false ∧
              ∀ k : Nat, k < g → vecGet st.frameUsed (k : Int) = some true) ∨
           ((∀ g : Nat, g < NUM_FRAMES → vecGet st.frameUsed (g : Int) = some true) ∧
              ∃ st1 v, evictPage st = some (f, st1) ∧
                vecGet st.pageTable v = some { valid := true, frameNumber := f })) ∧
          ∃ st3, translateAddress st2 a = some (.ok (f * 64 + a % 64), st3)) ∧
    (vmRun VMState.initial [.load 0]).bind
      (fun s => (translateAddress s 0).map (fun r => r.1)) = some (.ok 0) ∧
    (vmRun VMState.initial [.load 0, .translate 0]).bind
      (fun s => (translateAddress s 70).map (fun r => r.1)) = some .pageFault ∧
    (vmRun VMState.initial [.load 0, .translate 0, .translate 70, .load 1]).bind
      (fun s => (translateAddress s 70).map (fun r => r.1)) = some (.ok 70) := by
  refine ⟨?_, by decide, by decide, by decide⟩
  intro cmds a ha0 ha1 hnever
  have hdiv : a.tdiv PAGE_SIZE = a / 64 := Int.tdiv_eq_ediv ha0 (by decide)
  have hmod : a.tmod PAGE_SIZE = a % 64 := Int.tmod_eq_emod ha0 (by decide)
  have hp : 0 ≤ a / 64 ∧ a / 64 < NUM_PAGES := by
    have : ((NUM_PAGES : Nat) : Int) = 32 := rfl
    rw [this]
    omega
  obtain ⟨st, hrun, hinv, hnp⟩ := vmRun_inv cmds VMState.initial vmInv_initial.1
  have hnp1 := hnp (a / 64) (vmInv_initial.2 _) hnever
  refine ⟨st, hrun, ?_, ?_⟩
  · rcases translateAddress_cases st hinv.shape a with
      ⟨hr, _⟩ | ⟨_, ⟨frame, hl, _⟩ | ⟨_, e, he, ⟨_, h⟩ | ⟨hv, _⟩⟩⟩
    · rw [hdiv] at hr
      omega
    · rw [hdiv, hnp1.2] at hl
      cases hl
    · exact ⟨_, h⟩
    · rw [hdiv] at he
      have := hnp1.1 e he
      rw [hv] at this
      cases this
  · obtain ⟨st2, f, h1, hinv2, hget, _, _, htlb, _, _, _, hframe⟩ :=
      mapPage_spec st hinv (a / 64) hp
    refine ⟨st2, f, ?_, hget, hframe, ?_⟩
    · rw [vmStep_load, if_neg (by omega)]
      exact h1
    · rcases translateAddress_cases st2 hinv2.shape a with
        ⟨hr, _⟩ | ⟨_, ⟨frame, hl, _⟩ | ⟨_, e, he, ⟨hv, _⟩ | ⟨_, h⟩⟩⟩
      · rw [hdiv] at hr
        omega
      · rw [hdiv, htlb, hnp1.2] at hl
        cases hl
      · rw [hdiv, hget] at he
        simp only [Option.some.injEq] at he
        rw [← he] at hv
        cases hv
      · rw [hdiv, hget] at he
        simp only [Option.some.injEq] at he
        rw [← he, hmod] at h
        exact ⟨_, h⟩

/-- The page-fault property at a concrete run: after `load 0`, `translate 0`, the address 70
lies in page 1, which was never loaded; `translate 70` faults, and after `load 1` it yields
a physical address in the frame page 1 was given. -/
theorem translate_faults_until_loaded_witness :
    ∃ st, vmRun VMState.initial [.load 0, .translate 0] = some st ∧
      (∃ st1, translateAddress st 70 = some (.pageFault, st1)) ∧
      ∃ st2 f, vmStep st (.load (70 / 64)) = some st2 ∧
        ∃ st3, translateAddress st2 70 = some (.ok (f * 64 + 70 % 64), st3) :=
  match translate_faults_until_loaded.1 [.load 0, .translate 0] 70 (by decide) (by decide)
      (by decide) with
  | ⟨st, h1, h2, st2, f, h3, _, _, h4⟩ => ⟨st, h1, h2, st2, f, h3, h4⟩

/-! ## Virtual memory manager: what one operation returns -/

/-- A defined `installPage` wrote the two vectors at the given indices, pushed the page and
stamped it. -/
theorem installPage_eq_some (st st2 : VMState) (p frame : Int)
    (h : installPage st p frame = some st2) :
    vecSet st.frameUsed frame true = some st2.frameUsed ∧
    vecSet st.pageTable p { valid := true, frameNumber := frame } = some st2.pageTable ∧
    st2.fifoQueue = st.fifoQueue ++ [p] ∧
    st2.lastUsed = mapAssign st.lastUsed p st.timeCounter ∧
    st2.timeCounter = st.timeCounter + 1 ∧
    st2.tlb = st.tlb ∧ st2.tlbNext = st.tlbNext ∧ st2.currentPolicy = st.currentPolicy ∧
    st2.tlbHits = st.tlbHits ∧ st2.tlbMisses = st.tlbMisses := by
  unfold installPage at h
  cases hfu : vecSet st.frameUsed frame true with
  | none => rw [hfu] at h; cases h
  | some fu =>
    rw [hfu] at h
    dsimp only at h
    cases hpt : vecSet st.pageTable p { valid := true, frameNumber := frame } with
    | none => rw [hpt] at h; cases h
    | some pt =>
      rw [hpt] at h
      simp only [Option.some.injEq] at h
      rw [← h]
      exact ⟨rfl, rfl, rfl, rfl, rfl, rfl, rfl, rfl, rfl, rfl⟩

/-- A defined `evictPage` invalidated the entry of the selected victim, freed the frame that
entry named and erased the victim from the recency ledger. -/
theorem evictPage_eq_some (st st1 : VMState) (frame : Int)
    (h : evictPage st = some (frame, st1)) :
    ∃ v q e, selectVictim st = some (v, q) ∧ vecGet st.pageTable v = some e ∧
      frame = e.frameNumber ∧
      vecSet st.pageTable v { valid := false, frameNumber := -1 } = some st1.pageTable ∧
      vecSet st.frameUsed frame false = some st1.frameUsed ∧
      st1.fifoQueue = q ∧ st1.lastUsed = mapErase st.lastUsed v ∧
      st1.timeCounter = st.timeCounter ∧
      st1.tlb = st.tlb ∧ st1.tlbNext = st.tlbNext ∧ st1.currentPolicy = st.currentPolicy ∧
      st1.tlbHits = st.tlbHits ∧ st1.tlbMisses = st.tlbMisses := by
  unfold evictPage at h
  cases hsel : selectVictim st with
  | none => rw [hsel] at h; cases h
  | some vq =>
    obtain ⟨v, q⟩ := vq
    rw [hsel] at h
    dsimp only at h
    cases he : vecGet st.pageTable v with
    | none => rw [he] at h; cases h
    | some e =>
      rw [he] at h
      dsimp only at h
      cases hpt : vecSet st.pageTable v { valid := false, frameNumber := -1 } with
      | none => rw [hpt] at h; cases h
      | some pt =>
        rw [hpt] at h
        dsimp only at h
        cases hfu : vecSet st.frameUsed e.frameNumber false with
        | none => rw [hfu] at h; cases h
        | some fu =>
          rw [hfu] at h
          simp only [Option.some.injEq, Prod.mk.injEq] at h
          obtain ⟨h1, h2⟩ := h
          rw [← h2, ← h1]
          exact ⟨v, q, e, rfl, he, rfl, hpt, hfu, rfl, rfl, rfl, rfl, rfl, rfl, rfl, rfl⟩

/-- A defined `mapPage` installed the page in the lowest free frame, or, with no free frame
among the `NUM_FRAMES` scanned, in the frame a defined `evictPage` returned. -/
theorem mapPage_eq_some (st st2 : VMState) (p : Int) (h : mapPage st p = some st2) :
    (∃ g : Nat, findFreeFrame st.frameUsed 0 NUM_FRAMES = some (some g) ∧
      installPage st p (g : Int) = some st2) ∨
    (findFreeFrame st.frameUsed 0 NUM_FRAMES = some none ∧
      ∃ frame st1, evictPage st = some (frame, st1) ∧ installPage st1 p frame = some st2) := by
  unfold mapPage at h
  cases hff : findFreeFrame st.frameUsed 0 NUM_FRAMES with
  | none => rw [hff] at h; cases h
  | some r =>
    rw [hff] at h
    cases r with
    | some g => exact Or.inl ⟨g, rfl, h⟩
    | none =>
      right
      refine ⟨rfl, ?_⟩
      dsimp only at h
      cases hev : evictPage st with
      | none => rw [hev] at h; cases h
      | some r =>
        obtain ⟨frame, st1⟩ := r
        rw [hev] at h
        exact ⟨frame, st1, rfl, h⟩

/-! ## Virtual memory manager: the recency ledger -/

theorem mem_mapAssign_iff {m : List (Int × Int)} {page time : Int} {e : Int × Int} :
    e ∈ mapAssign m page time ↔ e = (page, time) ∨ (e ∈ m ∧ e.1 ≠ page) := by
  unfold mapAssign
  by_cases hany : m.any (fun e => decide (e.1 = page)) = true
  · rw [if_pos hany]
    obtain ⟨x, hx, hxp⟩ := List.any_eq_true.1 hany
    simp only [decide_eq_true_eq] at hxp
    constructor
    · intro h
      obtain ⟨y, hy, hye⟩ := List.mem_map.1 h
      by_cases hp : y.1 = page
      · rw [if_pos hp] at hye
        exact Or.inl hye.symm
      · rw [if_neg hp] at hye
        rw [← hye]
        exact Or.inr ⟨hy, hp⟩
    · rintro (h | ⟨h1, h2⟩)
      · refine List.mem_map.2 ⟨x, hx, ?_⟩
        rw [if_pos hxp, h]
      · refine List.mem_map.2 ⟨e, h1, ?_⟩
        rw [if_neg h2]
  · rw [if_neg hany]
    have hnone : ∀ x ∈ m, x.1 ≠ page := by
      intro x hx hxp
      exact hany (List.any_eq_true.2 ⟨x, hx, by simpa using hxp⟩)
    constructor
    · intro h
      rcases List.mem_append.1 h with h1 | h1
      · exact Or.inr ⟨h1, hnone e h1⟩
      · simp only [List.mem_singleton] at h1
        exact Or.inl h1
    · rintro (h | ⟨h1, _⟩)
      · rw [h]; simp
      · exact List.mem_append_left _ h1

/-- Stamping a page with a time above all recorded times keeps pages and times pairwise
distinct. -/
theorem mapAssign_distinct {m : List (Int × Int)} {page time : Int}
    (hd : m.Pairwise (fun a b => a.1 ≠ b.1 ∧ a.2 ≠ b.2)) (hb : ∀ e ∈ m, e.2 < time) :
    (mapAssign m page time).Pairwise (fun a b => a.1 ≠ b.1 ∧ a.2 ≠ b.2) := by
  unfold mapAssign
  by_cases hany : m.any (fun e => decide (e.1 = page)) = true
  · rw [if_pos hany, List.pairwise_map]
    refine List.Pairwise.imp_of_mem ?_ hd
    intro a b ha hb' hab
    have hat := hb a ha
    have hbt := hb b hb'
    by_cases hap : a.1 = page
    · rw [if_pos hap]
      have hbp : ¬ b.1 = page := fun h => hab.1 (by rw [hap, h])
      rw [if_neg hbp]
      exact ⟨fun h => hbp h.symm, by dsimp only; omega⟩
    · rw [if_neg hap]
      by_cases hbp : b.1 = page
      · rw [if_pos hbp]
        exact ⟨hap, by dsimp only; omega⟩
      · rw [if_neg hbp]
        exact hab
  · rw [if_neg hany]
    have hnone : ∀ x ∈ m, x.1 ≠ page := by
      intro x hx hxp
      exact hany (List.any_eq_true.2 ⟨x, hx, by simpa using hxp⟩)
    rw [List.pairwise_append]
    refine ⟨hd, List.pairwise_singleton _ _, ?_⟩
    intro a ha b hb'
    simp only [List.mem_singleton] at hb'
    rw [hb']
    have := hb a ha
    exact ⟨hnone a ha, by dsimp only; omega⟩

theorem mem_mapErase_iff {m : List (Int × Int)} {page : Int} {e : Int × Int} :
    e ∈ mapErase m page ↔ e ∈ m ∧ e.1 ≠ page := by
  unfold mapErase
  simp [List.mem_filter]

/-- Stamping page `p` with the clock keeps the ledger invariant, provided `p` is valid
afterwards and no other page table entry changed. -/
theorem lruInv_stamp (st st2 : VMState) (p : Int) (h : LRUInv st)
    (hlu : st2.lastUsed = mapAssign st.lastUsed p st.timeCounter)
    (htc : st2.timeCounter = st.timeCounter + 1)
    (hp : ∃ pe, vecGet st2.pageTable p = some pe ∧ pe.valid = true)
    (hother : ∀ q, q ≠ p → vecGet st2.pageTable q = vecGet st.pageTable q) : LRUInv st2 := by
  refine ⟨?_, ?_, ?_, ?_⟩
  · rw [hlu]
    exact mapAssign_distinct h.distinct h.below
  · intro e he
    rw [hlu] at he
    rcases mem_mapAssign_iff.1 he with h1 | ⟨h1, h2⟩
    · rw [h1]; exact hp
    · rw [hother e.1 h2]
      exact h.keysValid e h1
  · intro q pe hq hv
    rw [hlu]
    by_cases hqp : q = p
    · exact ⟨st.timeCounter, mem_mapAssign_iff.2 (Or.inl (by rw [hqp]))⟩
    · rw [hother q hqp] at hq
      obtain ⟨t, ht⟩ := h.validKeys q pe hq hv
      exact ⟨t, mem_mapAssign_iff.2 (Or.inr ⟨ht, hqp⟩)⟩
  · intro e he
    rw [hlu] at he
    rw [htc]
    rcases mem_mapAssign_iff.1 he with h1 | ⟨h1, _⟩
    · rw [h1]
      dsimp only
      omega
    · have := h.below e h1
      omega

/-- Erasing an evicted page keeps the ledger invariant, provided only its entry changed and is
invalid afterwards. -/
theorem lruInv_erase (st st1 : VMState) (v : Int) (h : LRUInv st)
    (hlu : st1.lastUsed = mapErase st.lastUsed v)
    (htc : st1.timeCounter = st.timeCounter)
    (hv : ∀ pe, vecGet st1.pageTable v = some pe → pe.valid = false)
    (hother : ∀ q, q ≠ v → vecGet st1.pageTable q = vecGet st.pageTable q) : LRUInv st1 := by
  refine ⟨?_, ?_, ?_, ?_⟩
  · rw [hlu]
    exact List.Pairwise.sublist (List.filter_sublist _) h.distinct
  · intro e he
    rw [hlu] at he
    obtain ⟨h1, h2⟩ := mem_mapErase_iff.1 he
    rw [hother e.1 h2]
    exact h.keysValid e h1
  · intro q pe hq hval
    have hqv : q ≠ v := by
      intro heq
      rw [heq] at hq
      have := hv pe hq
      rw [hval] at this
      cases this
    rw [hother q hqv] at hq
    obtain ⟨t, ht⟩ := h.validKeys q pe hq hval
    exact ⟨t, by rw [hlu]; exact mem_mapErase_iff.2 ⟨ht, hqv⟩⟩
  · intro e he
    rw [hlu] at he
    rw [htc]
    exact h.below e (mem_mapErase_iff.1 he).1

/-! ## Virtual memory manager: frame bookkeeping is preserved -/

/-- Invalidating a valid entry and freeing its frame keeps the frame bookkeeping, and leaves
no valid entry for that frame. -/
theorem vmFrames_evict (st st1 : VMState) (v f : Int) (h : VMFrames st)
    (hv : vecGet st.pageTable v = some { valid := true, frameNumber := f })
    (hv1 : ∀ pe, vecGet st1.pageTable v = some pe → pe.valid = false)
    (hother : ∀ q, q ≠ v → vecGet st1.pageTable q = vecGet st.pageTable q)
    (hfu : ∀ g, g ≠ f → vecGet st1.frameUsed g = vecGet st.frameUsed g) :
    VMFrames st1 ∧
      ∀ q e, vecGet st1.pageTable q = some e → e.valid = true → e.frameNumber ≠ f := by
  have hold : ∀ q e, vecGet st1.pageTable q = some e → e.valid = true →
      q ≠ v ∧ vecGet st.pageTable q = some e := by
    intro q e hq he
    have hqv : q ≠ v := by
      intro heq
      rw [heq] at hq
      have := hv1 e hq
      rw [he] at this
      cases this
    exact ⟨hqv, by rw [← hother q hqv]; exact hq⟩
  have hfree : ∀ q e, vecGet st1.pageTable q = some e → e.valid = true →
      e.frameNumber ≠ f := by
    intro q e hq he hf
    obtain ⟨hqv, hq0⟩ := hold q e hq he
    exact hqv (h.injective q v e _ hq0 hv he rfl hf)
  refine ⟨⟨?_, ?_⟩, hfree⟩
  · intro q e hq he
    rw [hfu _ (hfree q e hq he)]
    exact h.validUsed q e (hold q e hq he).2 he
  · intro p q e1 e2 hp hq h1 h2 heq
    exact h.injective p q e1 e2 (hold p e1 hp h1).2 (hold q e2 hq h2).2 h1 h2 heq

/-- Mapping a page to a frame that no valid entry names, and marking that frame in use, keeps
the frame bookkeeping. -/
theorem vmFrames_install (st st2 : VMState) (p f : Int) (h : VMFrames st)
    (hfree : ∀ q e, vecGet st.pageTable q = some e → e.valid = true → e.frameNumber ≠ f)
    (hp : vecGet st2.pageTable p = some { valid := true, frameNumber := f })
    (hother : ∀ q, q ≠ p → vecGet st2.pageTable q = vecGet st.pageTable q)
    (hf : vecGet st2.frameUsed f = some true)
    (hfu : ∀ g, g ≠ f → vecGet st2.frameUsed g = vecGet st.frameUsed g) : VMFrames st2 := by
  refine ⟨?_, ?_⟩
  · intro q e hq he
    by_cases hqp : q = p
    · rw [hqp, hp] at hq
      simp only [Option.some.injEq] at hq
      rw [← hq]
      exact hf
    · rw [hother q hqp] at hq
      rw [hfu _ (hfree q e hq he)]
      exact h.validUsed q e hq he
  · intro q1 q2 e1 e2 h1 h2 hv1 hv2 heq
    by_cases hq1 : q1 = p
    · by_cases hq2 : q2 = p
      · rw [hq1, hq2]
      · rw [hq1, hp] at h1
        simp only [Option.some.injEq] at h1
        rw [hother q2 hq2] at h2
        rw [← h1] at heq
        exact absurd heq.symm (hfree q2 e2 h2 hv2)
    · rw [hother q1 hq1] at h1
      by_cases hq2 : q2 = p
      · rw [hq2, hp] at h2
        simp only [Option.some.injEq] at h2
        rw [← h2] at heq
        exact absurd heq (hfree q1 e1 h1 hv1)
      · rw [hother q2 hq2] at h2
        exact h.injective q1 q2 e1 e2 h1 h2 hv1 hv2 heq

/-! ## Virtual memory manager: eviction and installation in detail -/

/-- With all `NUM_FRAMES` frames scanned in use, the free-frame loop finds nothing; otherwise
it finds the lowest frame not in use. -/
theorem findFreeFrame_cases (st : VMState) (hs : VMShape st) :
    (findFreeFrame st.frameUsed 0 NUM_FRAMES = some none ∧
      ∀ g : Nat, g < NUM_FRAMES → vecGet st.frameUsed (g : Int) = some true) ∨
    (∃ g : Nat, findFreeFrame st.frameUsed 0 NUM_FRAMES = some (some g) ∧ g < NUM_FRAMES ∧
      vecGet st.frameUsed (g : Int) = some false ∧
      ∀ k : Nat, k < g → vecGet st.frameUsed (k : Int) = some true) := by
  rcases findFreeFrame_spec st.frameUsed NUM_FRAMES 0 (by rw [hs.fuLen]; omega) with
    ⟨h1, h2⟩ | ⟨g, h1, _, h3, h4, h5⟩
  · left
    refine ⟨h1, ?_⟩
    intro g hg
    rw [vecGet_natCast]
    exact h2 g (by omega) (by omega)
  · right
    refine ⟨g, h1, by omega, by rw [vecGet_natCast]; exact h4, ?_⟩
    intro k hk
    rw [vecGet_natCast]
    exact h5 k (by omega) hk

/-- Eviction in detail on a state that satisfies the invariants and has a valid page: the
selected victim `v` is a valid page in range with a frame `f` in range that is in use;
`evictPage` returns `f`, invalidates exactly the entry of `v`, frees exactly the frame `f`,
erases `v` from the recency ledger, and keeps the invariants. -/
theorem evictPage_detail (st : VMState) (hs : VMShape st) (hf : VMFrames st)
    (hsv : SomeValid st.pageTable) :
    ∃ v q f st1, selectVictim st = some (v, q) ∧
      vecGet st.pageTable v = some { valid := true, frameNumber := f } ∧
      (0 ≤ v ∧ v < NUM_PAGES) ∧ (0 ≤ f ∧ f < NUM_FRAMES) ∧
      evictPage st = some (f, st1) ∧
      vecGet st1.pageTable v = some { valid := false, frameNumber := -1 } ∧
      (∀ q, q ≠ v → vecGet st1.pageTable q = vecGet st.pageTable q) ∧
      vecGet st.frameUsed f = some true ∧
      vecGet st1.frameUsed f = some false ∧
      (∀ g, g ≠ f → vecGet st1.frameUsed g = vecGet st.frameUsed g) ∧
      st1.lastUsed = mapErase st.lastUsed v ∧ st1.fifoQueue = q ∧
      st1.timeCounter = st.timeCounter ∧ st1.tlb = st.tlb ∧ st1.tlbNext = st.tlbNext ∧
      st1.currentPolicy = st.currentPolicy ∧
      VMShape st1 ∧ VMFrames st1 ∧
      (∀ q e, vecGet st1.pageTable q = some e → e.valid = true → e.frameNumber ≠ f) ∧
      (LRUInv st → LRUInv st1) := by
  obtain ⟨frame, st1, v, hev, hv, hf0, hf1, _⟩ := evictPage_spec st hs hsv
  obtain ⟨v', q, e, hsel, he, hfe, hpt, hfu, hq, hlu, htc, htlb, hnext, hpol, _, _⟩ :=
    evictPage_eq_some st st1 frame hev
  -- the victim of the inversion is the valid page of the specification
  obtain ⟨w, qw, ew, hselw, hew, hvw, hqw⟩ := selectVictim_spec st hs hsv
  rw [hsel] at hselw
  simp only [Option.some.injEq, Prod.mk.injEq] at hselw
  obtain ⟨hvw', hqw'⟩ := hselw
  subst hvw'
  subst hqw'
  rw [he] at hew
  simp only [Option.some.injEq] at hew
  subst hew
  have hentry : vecGet st.pageTable v' = some { valid := true, frameNumber := frame } := by
    rw [he, hfe]
    cases e
    simp only at hvw
    simp [hvw]
  obtain ⟨hv0, hv1, _⟩ := vecGet_eq_some he
  have hrange : 0 ≤ v' ∧ v' < NUM_PAGES := by
    refine ⟨hv0, ?_⟩
    have := hs.ptLen
    omega
  have h1 : vecGet st1.pageTable v' = some { valid := false, frameNumber := -1 } :=
    vecGet_vecSet_same hpt
  have h2 : ∀ q, q ≠ v' → vecGet st1.pageTable q = vecGet st.pageTable q :=
    fun q hq => vecGet_vecSet_other hpt hq
  have h3 : vecGet st1.frameUsed frame = some false := vecGet_vecSet_same hfu
  have h4 : ∀ g, g ≠ frame → vecGet st1.frameUsed g = vecGet st.frameUsed g :=
    fun g hg => vecGet_vecSet_other hfu hg
  have hinvalid : ∀ pe, vecGet st1.pageTable v' = some pe → pe.valid = false := by
    intro pe hpe
    rw [h1] at hpe
    simp only [Option.some.injEq] at hpe
    rw [← hpe]
  obtain ⟨hfr1, hfree⟩ := vmFrames_evict st st1 v' frame hf hentry hinvalid h2 h4
  have hused : vecGet st.frameUsed frame = some true := hf.validUsed v' _ hentry rfl
  have hshape := evictPage_shape st hs frame st1 v' hpt hfu htlb hnext
    (by rw [hq]; exact hqw) hlu
  exact ⟨v', q, frame, st1, hsel, hentry, hrange, ⟨hf0, hf1⟩, hev, h1, h2, hused, h3, h4, hlu,
    hq, htc, htlb, hnext, hpol, hshape, hfr1, hfree,
    fun hl => lruInv_erase st st1 v' hl hlu htc hinvalid h2⟩

/-- Installation in detail on a well-shaped state whose frame bookkeeping holds and in which no
valid entry names the frame `f`: `installPage` is defined, maps the page to `f`, changes no
other entry and no other frame flag, stamps the page with the clock, and yields a state that
satisfies the invariants. -/
theorem installPage_detail (st : VMState) (hs : VMShape st) (hf : VMFrames st) (p f : Int)
    (hp : 0 ≤ p ∧ p < NUM_PAGES) (hfr : 0 ≤ f ∧ f < NUM_FRAMES)
    (hfree : ∀ q e, vecGet st.pageTable q = some e → e.valid = true → e.frameNumber ≠ f) :
    ∃ st2, installPage st p f = some st2 ∧
      vecGet st2.pageTable p = some { valid := true, frameNumber := f } ∧
      (∀ q, q ≠ p → vecGet st2.pageTable q = vecGet st.pageTable q) ∧
      vecGet st2.frameUsed f = some true ∧
      (∀ g, g ≠ f → vecGet st2.frameUsed g = vecGet st.frameUsed g) ∧
      st2.lastUsed = mapAssign st.lastUsed p st.timeCounter ∧
      st2.fifoQueue = st.fifoQueue ++ [p] ∧
      st2.timeCounter = st.timeCounter + 1 ∧ st2.tlb = st.tlb ∧ st2.tlbNext = st.tlbNext ∧
      st2.currentPolicy = st.currentPolicy ∧
      VMInv st2 ∧ VMFrames st2 ∧ (LRUInv st → LRUInv st2) := by
  obtain ⟨st2, hi, hinv2, _⟩ := installPage_spec st hs p f hp hfr
  obtain ⟨hfu, hpt, hq, hlu, htc, htlb, hnext, hpol, _, _⟩ := installPage_eq_some st st2 p f hi
  have h1 : vecGet st2.pageTable p = some { valid := true, frameNumber := f } :=
    vecGet_vecSet_same hpt
  have h2 : ∀ q, q ≠ p → vecGet st2.pageTable q = vecGet st.pageTable q :=
    fun q hq => vecGet_vecSet_other hpt hq
  have h3 : vecGet st2.frameUsed f = some true := vecGet_vecSet_same hfu
  have h4 : ∀ g, g ≠ f → vecGet st2.frameUsed g = vecGet st.frameUsed g :=
    fun g hg => vecGet_vecSet_other hfu hg
  exact ⟨st2, hi, h1, h2, h3, h4, hlu, hq, htc, htlb, hnext, hpol, hinv2,
    vmFrames_install st st2 p f hf hfree h1 h2 h3 h4,
    fun hl => lruInv_stamp st st2 p hl hlu htc ⟨_, h1, rfl⟩ h2⟩

/-- `mapPage` keeps the invariants. -/
theorem mapPage_strong (st : VMState) (hinv : VMInv st) (hf : VMFrames st) (hl : LRUInv st)
    (p : Int) (hp : 0 ≤ p ∧ p < NUM_PAGES) :
    ∃ st2, mapPage st p = some st2 ∧ VMInv st2 ∧ VMFrames st2 ∧ LRUInv st2 := by
  rcases findFreeFrame_cases st hinv.shape with ⟨hff, hall⟩ | ⟨g, hff, hg, hfree, _⟩
  · have hsv : SomeValid st.pageTable :=
      hinv.someValid ⟨((0 : Nat) : Int), hall 0 (by decide)⟩
    obtain ⟨v, q, f, st1, _, _, _, hfr, hev, _, _, _, _, _, _, _, _, _, _, _, hs1, hf1, hfree1,
      hl1⟩ := evictPage_detail st hinv.shape hf hsv
    obtain ⟨st2, hi, _, _, _, _, _, _, _, _, _, _, hinv2, hf2, hl2⟩ :=
      installPage_detail st1 hs1 hf1 p f hp hfr hfree1
    refine ⟨st2, ?_, hinv2, hf2, hl2 (hl1 hl)⟩
    unfold mapPage
    rw [hff]
    dsimp only
    rw [hev]
    exact hi
  · have hgr : 0 ≤ (g : Int) ∧ (g : Int) < NUM_FRAMES := ⟨by omega, by exact_mod_cast hg⟩
    have hnone : ∀ q e, vecGet st.pageTable q = some e → e.valid = true →
        e.frameNumber ≠ (g : Int) := by
      intro q e hq he heq
      have := hf.validUsed q e hq he
      rw [heq, hfree] at this
      cases this
    obtain ⟨st2, hi, _, _, _, _, _, _, _, _, _, _, hinv2, hf2, hl2⟩ :=
      installPage_detail st hinv.shape hf p (g : Int) hp hgr hnone
    refine ⟨st2, ?_, hinv2, hf2, hl2 hl⟩
    unfold mapPage
    rw [hff]
    exact hi

/-- `translateAddress` keeps the invariants. -/
theorem translateAddress_strong (st : VMState) (hinv : VMInv st) (hf : VMFrames st)
    (hl : LRUInv st) (a : Int) :
    ∃ r st1, translateAddress st a = some (r, st1) ∧ VMInv st1 ∧ VMFrames st1 ∧
      LRUInv st1 := by
  obtain ⟨r, st1, h, hinv1, hpt, hfu⟩ := translateAddress_inv st hinv a
  have hf1 : VMFrames st1 := by
    refine ⟨?_, ?_⟩
    · rw [hpt, hfu]; exact hf.validUsed
    · rw [hpt]; exact hf.injective
  refine ⟨r, st1, h, hinv1, hf1, ?_⟩
  rcases translateAddress_cases st hinv.shape a with
    ⟨_, h1⟩ | ⟨_, ⟨frame, _, h1⟩ | ⟨_, e, he, ⟨_, h1⟩ | ⟨hv, h1⟩⟩⟩
  · rw [h1] at h
    simp only [Option.some.injEq, Prod.mk.injEq] at h
    rw [← h.2]; exact hl
  · rw [h1] at h
    simp only [Option.some.injEq, Prod.mk.injEq] at h
    rw [← h.2]
    exact ⟨hl.distinct, hl.keysValid, hl.validKeys, hl.below⟩
  · rw [h1] at h
    simp only [Option.some.injEq, Prod.mk.injEq] at h
    rw [← h.2]
    exact ⟨hl.distinct, hl.keysValid, hl.validKeys, hl.below⟩
  · rw [h1] at h
    simp only [Option.some.injEq, Prod.mk.injEq] at h
    rw [← h.2]
    exact lruInv_stamp st _ (a.tdiv PAGE_SIZE) hl rfl rfl ⟨e, he, hv⟩ (fun q _ => rfl)

/-- Every command keeps the invariants. -/
theorem vmStep_strong (st : VMState) (hinv : VMInv st) (hf : VMFrames st) (hl : LRUInv st)
    (c : VMCmd) :
    ∃ st1, vmStep st c = some st1 ∧ VMInv st1 ∧ VMFrames st1 ∧ LRUInv st1 := by
  cases c with
  | load page =>
    rw [vmStep_load]
    by_cases hr : page < 0 ∨ page ≥ NUM_PAGES
    · rw [if_pos hr]; exact ⟨st, rfl, hinv, hf, hl⟩
    · rw [if_neg hr]
      have hr2 : 0 ≤ page ∧ page < NUM_PAGES := by
        constructor
        · by_contra h; exact hr (Or.inl (by omega))
        · by_contra h; exact hr (Or.inr (by omega))
      exact mapPage_strong st hinv hf hl page hr2
  | translate a =>
    obtain ⟨r, st1, h, h1, h2, h3⟩ := translateAddress_strong st hinv hf hl a
    refine ⟨st1, ?_, h1, h2, h3⟩
    rw [vmStep_translate, h]
  | policy pol =>
    obtain ⟨st1, h, h1⟩ := vmStep_inv st hinv (.policy pol)
    refine ⟨st1, h, h1, ?_, ?_⟩
    · rw [vmStep_policy] at h
      simp only [Option.some.injEq] at h
      rw [← h]
      exact ⟨hf.validUsed, hf.injective⟩
    · rw [vmStep_policy] at h
      simp only [Option.some.injEq] at h
      rw [← h]
      exact ⟨hl.distinct, hl.keysValid, hl.validKeys, hl.below⟩

/-- Every run from a state that satisfies the invariants is defined and ends in such a
state. -/
theorem vmRun_strong (cmds : List VMCmd) :
    ∀ st : VMState, VMInv st → VMFrames st → LRUInv st →
      ∃ st1, vmRun st cmds = some st1 ∧ VMInv st1 ∧ VMFrames st1 ∧ LRUInv st1 := by
  induction cmds with
  | nil => intro st h1 h2 h3; exact ⟨st, rfl, h1, h2, h3⟩
  | cons c cs ih =>
    intro st h1 h2 h3
    obtain ⟨st1, e, h4, h5, h6⟩ := vmStep_strong st h1 h2 h3 c
    obtain ⟨st2, e2, h7⟩ := ih st1 h4 h5 h6
    refine ⟨st2, ?_, h7⟩
    unfold vmRun
    rw [e]
    exact e2

/-- The state at process start satisfies the frame and ledger invariants. -/
theorem vmStrong_initial : VMFrames VMState.initial ∧ LRUInv VMState.initial := by
  have hnone : ∀ (p : Int) (e : PageTableEntry),
      vecGet VMState.initial.pageTable p = some e → e.valid = true → False := by
    intro p e he hv
    rw [vecGet_replicate he] at hv
    cases hv
  refine ⟨⟨?_, ?_⟩, ⟨?_, ?_, ?_, ?_⟩⟩
  · intro p e he hv; exact (hnone p e he hv).elim
  · intro p q e1 e2 h1 _ hv _ _; exact (hnone p e1 h1 hv).elim
  · exact List.Pairwise.nil
  · intro e he; cases he
  · intro p e he hv; exact (hnone p e he hv).elim
  · intro e he; cases he

/-- Every run from the initial state is defined and ends in a state that satisfies the
invariants. -/
theorem vmRun_reachable (cmds : List VMCmd) :
    ∃ st, vmRun VMState.initial cmds = some st ∧ VMInv st ∧ VMFrames st ∧ LRUInv st :=
  vmRun_strong cmds VMState.initial vmInv_initial.1 vmStrong_initial.1 vmStrong_initial.2

/-! ## Virtual memory manager: injectivity of the page table and safety of `mapPage` -/

/-- C14. In every state reached from the initial state by `load`, `translate` and `policy`
commands (every such run is defined), every valid page table entry has a frame number in
`[0, 16)` and no two distinct valid entries have the same frame number. -/
theorem page_table_injective (cmds : List VMCmd) :
    ∃ st, vmRun VMState.initial cmds = some st ∧
      (∀ (p : Int) (e : PageTableEntry), vecGet st.pageTable p = some e → e.valid = true →
        0 ≤ e.frameNumber ∧ e.frameNumber < 16) ∧
      (∀ (p q : Int) (e1 e2 : PageTableEntry), vecGet st.pageTable p = some e1 →
        vecGet st.pageTable q = some e2 → e1.valid = true → e2.valid = true →
        e1.frameNumber = e2.frameNumber → p = q) := by
  obtain ⟨st, h, hinv, hf, _⟩ := vmRun_reachable cmds
  exact ⟨st, h, hinv.shape.validFrame, hf.injective⟩

/-- C18. In every state reached from the initial state (every run is defined, so no vector is
ever indexed out of range) and under either policy: `mapPage` of a page in `[0, 32)` is
defined and leaves the entry of that page valid; and when no frame is free, some page table
entry is valid and `evictPage` is defined, selects a victim in `[0, 32)` whose entry is valid
with a frame in `[0, 16)` that is in use, returns that frame, frees exactly that frame and
invalidates exactly that entry. -/
theorem load_total_and_safe (cmds : List VMCmd) (pol : ReplacementPolicy) :
    ∃ st, vmRun VMState.initial cmds = some st ∧
      (∀ p : Int, 0 ≤ p → p < 32 →
        ∃ st2 e, mapPage { st with currentPolicy := pol } p = some st2 ∧
          vecGet st2.pageTable p = some e ∧ e.valid = true) ∧
      ((∀ g : Nat, g < 16 → vecGet st.frameUsed (g : Int) = some true) →
        SomeValid st.pageTable ∧
        ∃ v f st1, evictPage { st with currentPolicy := pol } = some (f, st1) ∧
          (0 ≤ v ∧ v < 32) ∧
          vecGet st.pageTable v = some { valid := true, frameNumber := f } ∧
          (0 ≤ f ∧ f < 16) ∧
          vecGet st.frameUsed f = some true ∧
          vecGet st1.frameUsed f = some false ∧
          (∀ g, g ≠ f → vecGet st1.frameUsed g = vecGet st.frameUsed g) ∧
          vecGet st1.pageTable v = some { valid := false, frameNumber := -1 } ∧
          (∀ q, q ≠ v → vecGet st1.pageTable q = vecGet st.pageTable q)) := by
  obtain ⟨st, h, hinv, hf, hl⟩ := vmRun_reachable cmds
  obtain ⟨stp, hstep, hinvp, hfp, hlp⟩ := vmStep_strong st hinv hf hl (.policy pol)
  rw [vmStep_policy] at hstep
  simp only [Option.some.injEq] at hstep
  rw [← hstep] at hinvp hfp hlp
  refine ⟨st, h, ?_, ?_⟩
  · intro p hp0 hp1
    obtain ⟨st2, f, hm, _, hget, _⟩ := mapPage_spec _ hinvp p ⟨hp0, hp1⟩
    exact ⟨st2, _, hm, hget, rfl⟩
  · intro hall
    have hsv : SomeValid st.pageTable :=
      hinv.someValid ⟨((0 : Nat) : Int), hall 0 (by decide)⟩
    refine ⟨hsv, ?_⟩
    obtain ⟨v, q, f, st1, _, hv, hvr, hfr, hev, h1, h2, h3, h4, h5, _⟩ :=
      evictPage_detail _ hinvp.shape hfp hsv
    exact ⟨v, f, st1, hev, hvr, hv, hfr, h3, h4, h5, h1, h2⟩

/-! ## Virtual memory manager: the LRU policy -/

/-- The LRU loop over a ledger whose pages are all valid returns the page of a smallest
timestamp below `oldest`, or the initial victim when no timestamp is below `oldest`. -/
theorem lruScan_min (pt : List PageTableEntry) :
    ∀ (m : List (Int × Int)) (oldest v0 : Int),
      (∀ e ∈ m, ∃ pe, vecGet pt e.1 = some pe ∧ pe.valid = true) →
      ∃ w, lruScan pt m oldest v0 = some w ∧
        ((w = v0 ∧ ∀ e ∈ m, oldest ≤ e.2) ∨
         (∃ tw, (w, tw) ∈ m ∧ tw < oldest ∧ ∀ e ∈ m, tw ≤ e.2)) := by
  intro m
  induction m with
  | nil => intro oldest v0 _; exact ⟨v0, rfl, Or.inl ⟨rfl, by simp⟩⟩
  | cons hd rest ih =>
    intro oldest v0 h
    obtain ⟨page, time⟩ := hd
    obtain ⟨pe, hpe, hv⟩ := h (page, time) (List.mem_cons_self _ _)
    have hrest : ∀ e ∈ rest, ∃ pe, vecGet pt e.1 = some pe ∧ pe.valid = true :=
      fun e he => h e (List.mem_cons_of_mem _ he)
    unfold lruScan
    dsimp only at hpe
    rw [hpe]
    dsimp only
    by_cases hc : pe.valid = true ∧ time < oldest
    · rw [if_pos hc]
      obtain ⟨w, hw, hcase⟩ := ih time page hrest
      refine ⟨w, hw, Or.inr ?_⟩
      rcases hcase with ⟨h1, h2⟩ | ⟨tw, h1, h2, h3⟩
      · refine ⟨time, by rw [h1]; exact List.mem_cons_self _ _, hc.2, ?_⟩
        intro e he
        rcases List.mem_cons.1 he with h4 | h4
        · rw [h4]
        · exact h2 e h4
      · refine ⟨tw, List.mem_cons_of_mem _ h1, by omega, ?_⟩
        intro e he
        rcases List.mem_cons.1 he with h4 | h4
        · rw [h4]; dsimp only; omega
        · exact h3 e h4
    · rw [if_neg hc]
      have hge : oldest ≤ time := by
        by_contra hlt
        exact hc ⟨hv, by omega⟩
      obtain ⟨w, hw, hcase⟩ := ih oldest v0 hrest
      refine ⟨w, hw, ?_⟩
      rcases hcase with ⟨h1, h2⟩ | ⟨tw, h1, h2, h3⟩
      · left
        refine ⟨h1, ?_⟩
        intro e he
        rcases List.mem_cons.1 he with h4 | h4
        · rw [h4]; exact hge
        · exact h2 e h4
      · right
        refine ⟨tw, List.mem_cons_of_mem _ h1, h2, ?_⟩
        intro e he
        rcases List.mem_cons.1 he with h4 | h4
        · rw [h4]; dsimp only; omega
        · exact h3 e h4

/-- Under LRU, with a valid page and a clock in the `int` range, the selected victim is the
page whose timestamp is strictly below the timestamp of every other page of the ledger. -/
theorem selectVictim_lru (st : VMState) (hl : LRUInv st) (hsv : SomeValid st.pageTable)
    (hpol : st.currentPolicy = .LRU) (htc : st.timeCounter ≤ INT_MAX) :
    ∃ v tv, selectVictim st = some (v, st.fifoQueue) ∧ (v, tv) ∈ st.lastUsed ∧
      ∀ e ∈ st.lastUsed, e.1 ≠ v → tv < e.2 := by
  obtain ⟨w, hw, hcase⟩ := lruScan_min st.pageTable st.lastUsed INT_MAX (-1) hl.keysValid
  obtain ⟨p, pe, hp, hpv⟩ := hsv
  obtain ⟨t, ht⟩ := hl.validKeys p pe hp hpv
  have htlt := hl.below (p, t) ht
  rcases hcase with ⟨_, h2⟩ | ⟨tw, h1, _, h3⟩
  · have := h2 (p, t) ht
    dsimp only at this htlt
    omega
  · refine ⟨w, tw, ?_, h1, ?_⟩
    · obtain ⟨pw, hpw, hvw⟩ := hl.keysValid (w, tw) h1
      dsimp only at hpw
      have hw0 : 0 ≤ w := (vecGet_eq_some hpw).1
      unfold selectVictim policyScan
      rw [hpol]
      dsimp only
      rw [hw]
      dsimp only
      unfold fallbackIfNeeded
      rw [if_neg (by omega), hpw]
      dsimp only
      rw [if_neg (by rw [hvw]; decide)]
    · intro e he hne
      have hle := h3 e he
      have hdist : (w, tw).1 ≠ e.1 ∧ (w, tw).2 ≠ e.2 := by
        refine List.Pairwise.forall ?_ hl.distinct h1 he ?_
        · intro a b hab
          exact ⟨fun h => hab.1 h.symm, fun h => hab.2 h.symm⟩
        · intro heq
          rw [← heq] at hne
          exact hne rfl
      have := hdist.2
      dsimp only at this
      omega

/-- A defined `mapPage` stamps the loaded page with the clock, advances the clock by one and
adds no timestamp for another page. -/
theorem mapPage_stamp (st st2 : VMState) (p : Int) (h : mapPage st p = some st2) :
    (p, st.timeCounter) ∈ st2.lastUsed ∧ st2.timeCounter = st.timeCounter + 1 ∧
      ∀ e ∈ st2.lastUsed, e.1 ≠ p → e ∈ st.lastUsed := by
  rcases mapPage_eq_some st st2 p h with ⟨g, _, hi⟩ | ⟨_, frame, st1, hev, hi⟩
  · obtain ⟨_, _, _, hlu, htc, _⟩ := installPage_eq_some st st2 p _ hi
    refine ⟨by rw [hlu]; exact mem_mapAssign_iff.2 (Or.inl rfl), htc, ?_⟩
    intro e he hne
    rw [hlu] at he
    rcases mem_mapAssign_iff.1 he with h1 | ⟨h1, _⟩
    · rw [h1] at hne
      exact absurd rfl hne
    · exact h1
  · obtain ⟨_, _, _, hlu, htc, _⟩ := installPage_eq_some st1 st2 p _ hi
    obtain ⟨v, q, e, _, _, _, _, _, _, hlu1, htc1, _⟩ := evictPage_eq_some st st1 frame hev
    refine ⟨by rw [hlu, htc1]; exact mem_mapAssign_iff.2 (Or.inl rfl), by rw [htc, htc1], ?_⟩
    intro e he hne
    rw [hlu] at he
    rcases mem_mapAssign_iff.1 he with h1 | ⟨h1, _⟩
    · rw [h1] at hne
      exact absurd rfl hne
    · rw [hlu1] at h1
      exact (mem_mapErase_iff.1 h1).1

/-- `translateAddress` stamps the translated page with the clock exactly when it misses the
translation cache and finds the page valid; otherwise it leaves ledger and clock alone. -/
theorem translateAddress_stamp (st : VMState) (hs : VMShape st) (a : Int) :
    ∃ r st1, translateAddress st a = some (r, st1) ∧
      (((tlbLookup (a.tdiv PAGE_SIZE) st.tlb = none ∧ ∃ phys, r = .ok phys) ∧
          (a.tdiv PAGE_SIZE, st.timeCounter) ∈ st1.lastUsed ∧
          st1.timeCounter = st.timeCounter + 1 ∧
          ∀ e : Int × Int, e.1 ≠ a.tdiv PAGE_SIZE → (e ∈ st1.lastUsed ↔ e ∈ st.lastUsed)) ∨
       ((r = .addressOutOfRange ∨ r = .pageFault ∨
            ∃ frame, tlbLookup (a.tdiv PAGE_SIZE) st.tlb = some frame) ∧
          st1.lastUsed = st.lastUsed ∧ st1.timeCounter = st.timeCounter)) := by
  rcases translateAddress_cases st hs a with
    ⟨_, h1⟩ | ⟨_, ⟨frame, hl, h1⟩ | ⟨hl, e, he, ⟨_, h1⟩ | ⟨hv, h1⟩⟩⟩
  · exact ⟨_, _, h1, Or.inr ⟨Or.inl rfl, rfl, rfl⟩⟩
  · exact ⟨_, _, h1, Or.inr ⟨Or.inr (Or.inr ⟨frame, hl⟩), rfl, rfl⟩⟩
  · exact ⟨_, _, h1, Or.inr ⟨Or.inr (Or.inl rfl), rfl, rfl⟩⟩
  · refine ⟨_, _, h1, Or.inl ⟨⟨hl, _, rfl⟩, mem_mapAssign_iff.2 (Or.inl rfl), rfl, ?_⟩⟩
    intro x hx
    dsimp only
    rw [mem_mapAssign_iff]
    constructor
    · rintro (h | ⟨h, _⟩)
      · rw [h] at hx
        exact absurd rfl hx
      · exact h
    · intro h
      exact Or.inr ⟨h, hx⟩

/-- Loading with no free frame under LRU and a clock in the `int` range: the victim is the
ledger page with the strictly smallest timestamp; its entry is invalidated and the loaded page
takes its frame. -/
theorem mapPage_lru (st : VMState) (hinv : VMInv st) (hf : VMFrames st) (hl : LRUInv st)
    (hpol : st.currentPolicy = .LRU) (htc : st.timeCounter ≤ INT_MAX)
    (hall : ∀ g : Nat, g < 16 → vecGet st.frameUsed (g : Int) = some true)
    (p : Int) (hp : 0 ≤ p ∧ p < 32) :
    ∃ v tv f st1 st2, (v, tv) ∈ st.lastUsed ∧
      (∀ e ∈ st.lastUsed, e.1 ≠ v → tv < e.2) ∧
      vecGet st.pageTable v = some { valid := true, frameNumber := f } ∧
      evictPage st = some (f, st1) ∧
      vecGet st1.pageTable v = some { valid := false, frameNumber := -1 } ∧
      (∀ q, q ≠ v → vecGet st1.pageTable q = vecGet st.pageTable q) ∧
      mapPage st p = some st2 ∧
      vecGet st2.pageTable p = some { valid := true, frameNumber := f } ∧
      (∀ q, q ≠ p → vecGet st2.pageTable q = vecGet st1.pageTable q) := by
  have hsv : SomeValid st.pageTable :=
    hinv.someValid ⟨((0 : Nat) : Int), hall 0 (by decide)⟩
  obtain ⟨v, tv, hsel, hmem, hmin⟩ := selectVictim_lru st hl hsv hpol htc
  obtain ⟨v', q, f, st1, hsel', hv, _, hfr, hev, h1, h2, _, _, _, _, _, _, _, _, _, hs1, hf1,
    hfree1, _⟩ := evictPage_detail st hinv.shape hf hsv
  rw [hsel] at hsel'
  simp only [Option.some.injEq, Prod.mk.injEq] at hsel'
  obtain ⟨hvv, _⟩ := hsel'
  subst hvv
  obtain ⟨st2, hi, h3, h4, _⟩ := installPage_detail st1 hs1 hf1 p f hp hfr hfree1
  have hff : findFreeFrame st.frameUsed 0 NUM_FRAMES = some none := by
    rcases findFreeFrame_cases st hinv.shape with ⟨h, _⟩ | ⟨g, _, hg, hfalse, _⟩
    · exact h
    · rw [hall g hg] at hfalse
      cases hfalse
  refine ⟨v, tv, f, st1, st2, hmem, hmin, hv, hev, h1, h2, ?_, h3, h4⟩
  unfold mapPage
  rw [hff]
  dsimp only
  rw [hev]
  exact hi

/-- A command advances the clock by at most one. -/
theorem vmStep_clock (st st1 : VMState) (hinv : VMInv st) (c : VMCmd)
    (h : vmStep st c = some st1) :
    st.timeCounter ≤ st1.timeCounter ∧ st1.timeCounter ≤ st.timeCounter + 1 := by
  cases c with
  | load page =>
    rw [vmStep_load] at h
    by_cases hr : page < 0 ∨ page ≥ NUM_PAGES
    · rw [if_pos hr] at h
      simp only [Option.some.injEq] at h
      rw [← h]
      omega
    · rw [if_neg hr] at h
      have := (mapPage_stamp st st1 page h).2.1
      omega
  | translate a =>
    rw [vmStep_translate] at h
    obtain ⟨r, st2, h1, hcase⟩ := translateAddress_stamp st hinv.shape a
    rw [h1] at h
    simp only [Option.some.injEq] at h
    rw [← h]
    rcases hcase with ⟨_, _, h2, _⟩ | ⟨_, _, h2⟩
    · omega
    · omega
  | policy pol =>
    rw [vmStep_policy] at h
    simp only [Option.some.injEq] at h
    rw [← h]
    dsimp only
    omega

/-- Along a run the clock never decreases and advances by at most one per command. -/
theorem vmRun_clock (cmds : List VMCmd) :
    ∀ st st1 : VMState, VMInv st → VMFrames st → LRUInv st → vmRun st cmds = some st1 →
      st.timeCounter ≤ st1.timeCounter ∧
      st1.timeCounter ≤ st.timeCounter + (cmds.length : Int) := by
  induction cmds with
  | nil =>
    intro st st1 _ _ _ h
    unfold vmRun at h
    simp only [Option.some.injEq] at h
    rw [← h]
    simp
  | cons c cs ih =>
    intro st st1 h1 h2 h3 h
    obtain ⟨st2, e, h4, h5, h6⟩ := vmStep_strong st h1 h2 h3 c
    unfold vmRun at h
    rw [e] at h
    have hc := vmStep_clock st st2 h1 c e
    have := ih st2 st1 h4 h5 h6 h
    simp only [List.length_cons, Nat.cast_add, Nat.cast_one]
    omega

/-- C12. In every state reached from the initial state (every run is defined) the recency
ledger holds a timestamp for exactly the resident pages, with pairwise distinct pages and
pairwise distinct timestamps, all below the clock, which is at most the number of commands
run; a load stamps the loaded page with the
clock value and a translation stamps its page with the clock value exactly when it misses the
translation cache and finds the page valid (the clock then advances by one, and no other
page is stamped).  When the policy is LRU, no frame is free and the clock is in the `int`
range, loading a page in `[0, 32)` evicts exactly the resident page whose timestamp is
strictly smaller than that of every other resident page, and gives its frame to the loaded
page.  End to end: under LRU, after `load 0`, ..., `load 15` and `translate 0`, `load 16`
evicts page 1. -/
theorem lru_evicts_least_recently_stamped :
    (∀ cmds : List VMCmd, ∃ st, vmRun VMState.initial cmds = some st ∧
      (∀ (p : Int) (pe : PageTableEntry), vecGet st.pageTable p = some pe →
        pe.valid = true → ∃ t, (p, t) ∈ st.lastUsed) ∧
      (∀ e ∈ st.lastUsed, ∃ pe, vecGet st.pageTable e.1 = some pe ∧ pe.valid = true) ∧
      st.lastUsed.Pairwise (fun a b => a.1 ≠ b.1 ∧ a.2 ≠ b.2) ∧
      (∀ e ∈ st.lastUsed, e.2 < st.timeCounter) ∧
      (0 ≤ st.timeCounter ∧ st.timeCounter ≤ (cmds.length : Int)) ∧
      (∀ p : Int, 0 ≤ p → p < 32 → ∃ st2, mapPage st p = some st2 ∧
        (p, st.timeCounter) ∈ st2.lastUsed ∧ st2.timeCounter = st.timeCounter + 1 ∧
        ∀ e ∈ st2.lastUsed, e.1 ≠ p → e ∈ st.lastUsed) ∧
      (∀ a : Int, ∃ r st1, translateAddress st a = some (r, st1) ∧
        (((tlbLookup (a.tdiv PAGE_SIZE) st.tlb = none ∧ ∃ phys, r = .ok phys) ∧
            (a.tdiv PAGE_SIZE, st.timeCounter) ∈ st1.lastUsed ∧
            st1.timeCounter = st.timeCounter + 1 ∧
            ∀ e : Int × Int, e.1 ≠ a.tdiv PAGE_SIZE →
              (e ∈ st1.lastUsed ↔ e ∈ st.lastUsed)) ∨
         ((r = .addressOutOfRange ∨ r = .pageFault ∨
              ∃ frame, tlbLookup (a.tdiv PAGE_SIZE) st.tlb = some frame) ∧
            st1.lastUsed = st.lastUsed ∧ st1.timeCounter = st.timeCounter))) ∧
      (st.currentPolicy = .LRU → st.timeCounter ≤ INT_MAX →
        (∀ g : Nat, g < 16 → vecGet st.frameUsed (g : Int) = some true) →
        ∀ p : Int, 0 ≤ p → p < 32 →
          ∃ v tv f st1 st2, (v, tv) ∈ st.lastUsed ∧
            (∀ e ∈ st.lastUsed, e.1 ≠ v → tv < e.2) ∧
            vecGet st.pageTable v = some { valid := true, frameNumber := f } ∧
            evictPage st = some (f, st1) ∧
            vecGet st1.pageTable v = some { valid := false, frameNumber := -1 } ∧
            (∀ q, q ≠ v → vecGet st1.pageTable q = vecGet st.pageTable q) ∧
            mapPage st p = some st2 ∧
            vecGet st2.pageTable p = some { valid := true, frameNumber := f } ∧
            (∀ q, q ≠ p → vecGet st2.pageTable q = vecGet st1.pageTable q))) ∧
    (vmRun VMState.initial
        [.policy .LRU, .load 0, .load 1, .load 2, .load 3, .load 4, .load 5, .load 6, .load 7,
         .load 8, .load 9, .load 10, .load 11, .load 12, .load 13, .load 14, .load 15,
         .translate 0, .load 16]).map
      (fun s => (vecGet s.pageTable 0, vecGet s.pageTable 1, vecGet s.pageTable 16)) =
      some (some { valid := true, frameNumber := 0 },
            some { valid := false, frameNumber := -1 },
            some { valid := true, frameNumber := 1 }) := by
  refine ⟨?_, by decide⟩
  intro cmds
  obtain ⟨st, h, hinv, hf, hl⟩ := vmRun_reachable cmds
  have hclock := vmRun_clock cmds VMState.initial st vmInv_initial.1 vmStrong_initial.1
    vmStrong_initial.2 h
  have hzero : VMState.initial.timeCounter = 0 := rfl
  refine ⟨st, h, hl.validKeys, hl.keysValid, hl.distinct, hl.below, by omega, ?_, ?_, ?_⟩
  · intro p hp0 hp1
    obtain ⟨st2, hm, _⟩ := mapPage_strong st hinv hf hl p ⟨hp0, hp1⟩
    exact ⟨st2, hm, mapPage_stamp st st2 p hm⟩
  · intro a
    exact translateAddress_stamp st hinv.shape a
  · intro hpol htc hall p hp0 hp1
    exact mapPage_lru st hinv hf hl hpol htc hall p ⟨hp0, hp1⟩

/-! ## Virtual memory manager: what holds of the claims the code breaks -/

/-- The page number `translateAddress` computes is outside `[0, NUM_PAGES)` exactly for the
addresses up to `-64` and from `2048`: truncation maps the addresses `-63` to `-1` to
page 0. -/
theorem page_outside_iff (a : Int) :
    (a.tdiv PAGE_SIZE < 0 ∨ a.tdiv PAGE_SIZE ≥ NUM_PAGES) ↔ (a ≤ -64 ∨ 2048 ≤ a) := by
  have hn : ((NUM_PAGES : Nat) : Int) = 32 := rfl
  rw [hn]
  by_cases ha : 0 ≤ a
  · have : a.tdiv PAGE_SIZE = a / 64 := Int.tdiv_eq_ediv ha (by decide)
    rw [this]
    omega
  · have h1 : a = -(-a) := by omega
    have : a.tdiv PAGE_SIZE = -((-a) / 64) := by
      rw [h1, Int.neg_tdiv, Int.tdiv_eq_ediv (by omega) (by decide)]
      simp [PAGE_SIZE]
    rw [this]
    omega

/-- On a well-shaped state `translateAddress` is defined and reports an address out of range
exactly for the addresses up to `-64` and from `2048`. -/
theorem translateAddress_outOfRange_iff (st : VMState) (hs : VMShape st) (a : Int) :
    ∃ r st1, translateAddress st a = some (r, st1) ∧
      (r = .addressOutOfRange ↔ (a ≤ -64 ∨ 2048 ≤ a)) := by
  rcases translateAddress_cases st hs a with
    ⟨hr, h1⟩ | ⟨hr, ⟨frame, _, h1⟩ | ⟨_, e, _, ⟨_, h1⟩ | ⟨_, h1⟩⟩⟩
  · exact ⟨_, _, h1, by simp only [true_iff]; exact (page_outside_iff a).1 hr⟩
  · refine ⟨_, _, h1, ?_⟩
    constructor
    · intro h; cases h
    · intro h
      have := (page_outside_iff a).2 h
      omega
  · refine ⟨_, _, h1, ?_⟩
    constructor
    · intro h; cases h
    · intro h
      have := (page_outside_iff a).2 h
      omega
  · refine ⟨_, _, h1, ?_⟩
    constructor
    · intro h; cases h
    · intro h
      have := (page_outside_iff a).2 h
      omega

/-- In every state reached from the initial state the frame of every valid entry is marked in
use (the direction of the occupancy invariant that the code keeps). -/
theorem valid_entry_frame_in_use (cmds : List VMCmd) :
    ∃ st, vmRun VMState.initial cmds = some st ∧
      ∀ (p : Int) (e : PageTableEntry), vecGet st.pageTable p = some e → e.valid = true →
        vecGet st.frameUsed e.frameNumber = some true := by
  obtain ⟨st, h, _, hf, _⟩ := vmRun_reachable cmds
  exact ⟨st, h, hf.validUsed⟩

/-- The FIFO loop returns the first queue entry whose page is valid, with the queue behind it;
when no queue entry is valid it empties the queue and returns the last entry popped (or the
initial victim for an empty queue). -/
theorem fifoScan_first_valid (pt : List PageTableEntry) :
    ∀ (queue : List Int) (v0 v : Int) (rest : List Int),
      fifoScan pt queue v0 = some (v, rest) →
      (∃ pre e, queue = pre ++ v :: rest ∧ vecGet pt v = some e ∧ e.valid = true ∧
        ∀ x ∈ pre, ∃ ex, vecGet pt x = some ex ∧ ex.valid = false) ∨
      (rest = [] ∧ v = (v0 :: queue).getLast (List.cons_ne_nil _ _) ∧
        ∀ x ∈ queue, ∃ ex, vecGet pt x = some ex ∧ ex.valid = false) := by
  intro queue
  induction queue with
  | nil =>
    intro v0 v rest h
    unfold fifoScan at h
    simp only [Option.some.injEq, Prod.mk.injEq] at h
    exact Or.inr ⟨h.2.symm, by simp [h.1], by simp⟩
  | cons front tail ih =>
    intro v0 v rest h
    unfold fifoScan at h
    cases he : vecGet pt front with
    | none => rw [he] at h; cases h
    | some e =>
      rw [he] at h
      dsimp only at h
      by_cases hv : e.valid = true
      · rw [if_pos hv] at h
        simp only [Option.some.injEq, Prod.mk.injEq] at h
        left
        refine ⟨[], e, by simp [h.1, h.2], by rw [← h.1]; exact he, hv, by simp⟩
      · rw [if_neg hv] at h
        have hinv : e.valid = false := by simpa using hv
        rcases ih front v rest h with ⟨pre, e2, h1, h2, h3, h4⟩ | ⟨h1, h2, h3⟩
        · left
          refine ⟨front :: pre, e2, by simp [h1], h2, h3, ?_⟩
          intro x hx
          rcases List.mem_cons.1 hx with h5 | h5
          · rw [h5]; exact ⟨e, he, hinv⟩
          · exact h4 x h5
        · right
          refine ⟨h1, ?_, ?_⟩
          · rw [h2, List.getLast_cons (List.cons_ne_nil front tail)]
          · intro x hx
            rcases List.mem_cons.1 hx with h5 | h5
            · rw [h5]; exact ⟨e, he, hinv⟩
            · exact h3 x h5

/-! ## Virtual memory manager: evaluated runs -/

/-- A run that is defined and whose end state passes a decidable test ends in a state with the
tested property. -/
theorem run_state_of_decide {α : Type} (o : Option α) (P : α → Prop) [DecidablePred P]
    (h : o.map (fun s => decide (P s)) = some true) : ∃ s, o = some s ∧ P s := by
  cases o with
  | none => cases h
  | some s =>
    refine ⟨s, rfl, ?_⟩
    simp only [Option.map_some', Option.some.injEq, decide_eq_true_eq] at h
    exact h

/-- C19. A stale translation-cache hit exists: after `load 0`, `translate 0`, `load 1`, ...,
`load 16` under FIFO the entry of page 0 is invalid and frame 0 belongs to page 16, yet
`translateAddress` of address 0 (page 0) succeeds with physical address 0, which lies in
frame 0. -/
theorem stale_translation_cache_hit :
    ∃ (cmds : List VMCmd) (st : VMState),
      vmRun VMState.initial cmds = some st ∧
      cmds = [.load 0, .translate 0, .load 1, .load 2, .load 3, .load 4, .load 5, .load 6,
        .load 7, .load 8, .load 9, .load 10, .load 11, .load 12, .load 13, .load 14,
        .load 15, .load 16] ∧
      st.currentPolicy = .FIFO ∧
      vecGet st.pageTable 0 = some { valid := false, frameNumber := -1 } ∧
      vecGet st.pageTable 16 = some { valid := true, frameNumber := 0 } ∧
      (translateAddress st 0).map (fun r => r.1) = some (.ok 0) := by
  obtain ⟨st, h1, h2⟩ := run_state_of_decide
    (vmRun VMState.initial [.load 0, .translate 0, .load 1, .load 2, .load 3, .load 4,
      .load 5, .load 6, .load 7, .load 8, .load 9, .load 10, .load 11, .load 12, .load 13,
      .load 14, .load 15, .load 16])
    (fun st => st.currentPolicy = .FIFO ∧
      vecGet st.pageTable 0 = some { valid := false, frameNumber := -1 } ∧
      vecGet st.pageTable 16 = some { valid := true, frameNumber := 0 } ∧
      (translateAddress st 0).map (fun r => r.1) = some (.ok 0))
    (by decide)
  exact ⟨_, st, h1, rfl, h2⟩

/-- C17 (the code at the failing input). A negative virtual address above `-64` is not
rejected: C++ division truncates `-1 / 64` to page 0 and `-1 % 64` is `-1`.  From the initial
state `translateAddress (-1)` reports a page fault at page 0 instead of an address out of
range; after `load 0` it succeeds with the physical address `-1`; after `load 1`, `load 0`
(page 0 in frame 1) it succeeds with 63, an address of frame 0.  The address `-64` is
rejected. -/
theorem translate_negative_address_accepted :
    (translateAddress VMState.initial (-1)).map (fun r => r.1) = some .pageFault ∧
    (vmRun VMState.initial [.load 0]).bind
      (fun s => (translateAddress s (-1)).map (fun r => r.1)) = some (.ok (-1)) ∧
    (vmRun VMState.initial [.load 1, .load 0]).bind
      (fun s => (translateAddress s (-1)).map (fun r => r.1)) = some (.ok 63) ∧
    (vmRun VMState.initial [.load 0]).bind
      (fun s => (translateAddress s (-64)).map (fun r => r.1)) = some .addressOutOfRange := by
  decide

/-- C13 (the code at the failing input). Loading a page that is already resident leaks its
frame: after `load 0`, `load 0` page 0 is mapped to frame 1, `frameUsed[0]` is still true, and
no valid page table entry has frame number 0. -/
theorem reload_leaks_frame :
    ∃ st, vmRun VMState.initial [.load 0, .load 0] = some st ∧
      vecGet st.pageTable 0 = some { valid := true, frameNumber := 1 } ∧
      vecGet st.frameUsed 0 = some true ∧
      ∀ e ∈ st.pageTable, ¬ (e.valid = true ∧ e.frameNumber = 0) :=
  run_state_of_decide (vmRun VMState.initial [.load 0, .load 0])
    (fun st => vecGet st.pageTable 0 = some { valid := true, frameNumber := 1 } ∧
      vecGet st.frameUsed 0 = some true ∧
      ∀ e ∈ st.pageTable, ¬ (e.valid = true ∧ e.frameNumber = 0))
    (by decide)

/-- C11 (the code at the failing input). After `policy lru`, `load 0`, ..., `load 15`,
`load 16` (LRU evicts page 0), `load 0` (LRU evicts page 1) and `policy fifo`, all 16 frames
are occupied, page 17 is not resident, and the resident pages were loaded at the clock values
2, ..., 16 (pages 2 to 16) and 17 (page 0).  `load 17` under FIFO then evicts page 0, the page
loaded last, through the queue entry of its first load, and not page 2, the resident page
loaded earliest.  The same happens under FIFO alone after a page was loaded while resident:
after `load 0`, `load 1`, `load 0`, `load 2`, ..., `load 14`, `load 20`, `load 0` the command
`load 21` evicts page 0, loaded at clock value 17, and not page 2, loaded at clock value 3.
In the run of the claim, `load 0`, ..., `load 15`, `load 16`, page 0 is evicted and page 16
takes frame 0. -/
theorem fifo_evicts_reloaded_page :
    (∃ st st2,
      vmRun VMState.initial
        [.policy .LRU, .load 0, .load 1, .load 2, .load 3, .load 4, .load 5, .load 6, .load 7,
         .load 8, .load 9, .load 10, .load 11, .load 12, .load 13, .load 14, .load 15,
         .load 16, .load 0, .policy .FIFO] = some st ∧
      st.currentPolicy = .FIFO ∧
      (∀ used ∈ st.frameUsed, used = true) ∧
      vecGet st.pageTable 17 = some { valid := false, frameNumber := -1 } ∧
      st.lastUsed = [(2, 2), (3, 3), (4, 4), (5, 5), (6, 6), (7, 7), (8, 8), (9, 9), (10, 10),
        (11, 11), (12, 12), (13, 13), (14, 14), (15, 15), (16, 16), (0, 17)] ∧
      st.fifoQueue = [0, 1, 2, 3, 4, 5, 6, 7, 8, 9, 10, 11, 12, 13, 14, 15, 16, 0] ∧
      vecGet st.pageTable 0 = some { valid := true, frameNumber := 1 } ∧
      vmStep st (.load 17) = some st2 ∧
      vecGet st2.pageTable 0 = some { valid := false, frameNumber := -1 } ∧
      vecGet st2.pageTable 2 = some { valid := true, frameNumber := 2 } ∧
      vecGet st2.pageTable 17 = some { valid := true, frameNumber := 1 }) ∧
    (∃ st st2,
      vmRun VMState.initial
        [.load 0, .load 1, .load 0, .load 2, .load 3, .load 4, .load 5, .load 6, .load 7,
         .load 8, .load 9, .load 10, .load 11, .load 12, .load 13, .load 14, .load 20,
         .load 0] = some st ∧
      st.currentPolicy = .FIFO ∧
      (∀ used ∈ st.frameUsed, used = true) ∧
      vecGet st.pageTable 21 = some { valid := false, frameNumber := -1 } ∧
      st.lastUsed = [(2, 3), (3, 4), (4, 5), (5, 6), (6, 7), (7, 8), (8, 9), (9, 10),
        (10, 11), (11, 12), (12, 13), (13, 14), (14, 15), (20, 16), (0, 17)] ∧
      st.fifoQueue = [0, 2, 3, 4, 5, 6, 7, 8, 9, 10, 11, 12, 13, 14, 20, 0] ∧
      vmStep st (.load 21) = some st2 ∧
      vecGet st2.pageTable 0 = some { valid := false, frameNumber := -1 } ∧
      vecGet st2.pageTable 2 = some { valid := true, frameNumber := 3 } ∧
      vecGet st2.pageTable 21 = some { valid := true, frameNumber := 1 }) ∧
    (vmRun VMState.initial
        [.load 0, .load 1, .load 2, .load 3, .load 4, .load 5, .load 6, .load 7, .load 8,
         .load 9, .load 10, .load 11, .load 12, .load 13, .load 14, .load 15, .load 16]).map
      (fun s => (vecGet s.pageTable 0, vecGet s.pageTable 16)) =
      some (some { valid := false, frameNumber := -1 },
            some { valid := true, frameNumber := 0 }) := by
  refine ⟨?_, ?_, by decide⟩
  · obtain ⟨st, h1, h2, h3, h4, h5, h6, h7, h8⟩ := run_state_of_decide
      (vmRun VMState.initial
        [.policy .LRU, .load 0, .load 1, .load 2, .load 3, .load 4, .load 5, .load 6, .load 7,
         .load 8, .load 9, .load 10, .load 11, .load 12, .load 13, .load 14, .load 15,
         .load 16, .load 0, .policy .FIFO])
      (fun st => st.currentPolicy = .FIFO ∧
        (∀ used ∈ st.frameUsed, used = true) ∧
        vecGet st.pageTable 17 = some { valid := false, frameNumber := -1 } ∧
        st.lastUsed = [(2, 2), (3, 3), (4, 4), (5, 5), (6, 6), (7, 7), (8, 8), (9, 9),
          (10, 10), (11, 11), (12, 12), (13, 13), (14, 14), (15, 15), (16, 16), (0, 17)] ∧
        st.fifoQueue = [0, 1, 2, 3, 4, 5, 6, 7, 8, 9, 10, 11, 12, 13, 14, 15, 16, 0] ∧
        vecGet st.pageTable 0 = some { valid := true, frameNumber := 1 } ∧
        (vmStep st (.load 17)).map (fun s2 => decide (
          vecGet s2.pageTable 0 = some { valid := false, frameNumber := -1 } ∧
          vecGet s2.pageTable 2 = some { valid := true, frameNumber := 2 } ∧
          vecGet s2.pageTable 17 = some { valid := true, frameNumber := 1 })) = some true)
      (by decide)
    obtain ⟨st2, h9, h10⟩ := run_state_of_decide (vmStep st (.load 17)) _ h8
    exact ⟨st, st2, h1, h2, h3, h4, h5, h6, h7, h9, h10⟩
  · obtain ⟨st, h1, h2, h3, h4, h5, h6, h8⟩ := run_state_of_decide
      (vmRun VMState.initial
        [.load 0, .load 1, .load 0, .load 2, .load 3, .load 4, .load 5, .load 6, .load 7,
         .load 8, .load 9, .load 10, .load 11, .load 12, .load 13, .load 14, .load 20,
         .load 0])
      (fun st => st.currentPolicy = .FIFO ∧
        (∀ used ∈ st.frameUsed, used = true) ∧
        vecGet st.pageTable 21 = some { valid := false, frameNumber := -1 } ∧
        st.lastUsed = [(2, 3), (3, 4), (4, 5), (5, 6), (6, 7), (7, 8), (8, 9), (9, 10),
          (10, 11), (11, 12), (12, 13), (13, 14), (14, 15), (20, 16), (0, 17)] ∧
        st.fifoQueue = [0, 2, 3, 4, 5, 6, 7, 8, 9, 10, 11, 12, 13, 14, 20, 0] ∧
        (vmStep st (.load 21)).map (fun s2 => decide (
          vecGet s2.pageTable 0 = some { valid := false, frameNumber := -1 } ∧
          vecGet s2.pageTable 2 = some { valid := true, frameNumber := 3 } ∧
          vecGet s2.pageTable 21 = some { valid := true, frameNumber := 1 })) = some true)
      (by decide)
    obtain ⟨st2, h9, h10⟩ := run_state_of_decide (vmStep st (.load 21)) _ h8
    exact ⟨st, st2, h1, h2, h3, h4, h5, h6, h9, h10⟩

/-! ## Cache hierarchy: one access -/

/-- The line a miss installs for block `b` in a cache of `n` lines. -/
theorem holds_after_install (c : Cache) (n b : Int) (hn : 0 < n) (hs : CacheShape n c)
    (hits misses : Int) :
    Holds { numLines := c.numLines,
            lines := c.lines.set (b % n).toNat { tag := b / n, valid := true },
            hits := hits, misses := misses } b := by
  obtain ⟨h1, h2⟩ := hs
  have h3 : 0 ≤ b % n := Int.emod_nonneg b (by omega)
  have h4 : b % n < n := Int.emod_lt_of_pos b hn
  have hset := vecSet_isSome c.lines (i := b % n) ({ tag := b / n, valid := true }) h3
    (by omega)
  unfold Holds
  dsimp only
  rw [h1]
  exact vecGet_vecSet_same hset

/-- The two outcomes of `accessCache` for a non-negative address on a cache of `n > 0` lines:
a hit when the cache holds the block (only the hit counter moves), otherwise a miss that
installs the block. -/
theorem accessCache_cases (c : Cache) (n : Int) (hn : 0 < n) (hs : CacheShape n c) (a : Int)
    (ha : 0 ≤ a) :
    (Holds c (a / 64) ∧
      accessCache c a = some (true, { c with hits := c.hits + 1 })) ∨
    (¬ Holds c (a / 64) ∧
      accessCache c a = some (false,
        { numLines := c.numLines,
          lines := c.lines.set ((a / 64) % n).toNat { tag := (a / 64) / n, valid := true },
          hits := c.hits, misses := c.misses + 1 })) := by
  obtain ⟨h1, h2⟩ := hs
  have hb : 0 ≤ a / 64 := Int.ediv_nonneg ha (by decide)
  have hdiv : a.tdiv CACHE_BLOCK_SIZE = a / 64 := Int.tdiv_eq_ediv ha (by decide)
  have hmod : (a / 64).tmod n = (a / 64) % n := Int.tmod_eq_emod hb (by omega)
  have htag : (a / 64).tdiv n = (a / 64) / n := Int.tdiv_eq_ediv hb (by omega)
  have h3 : 0 ≤ (a / 64) % n := Int.emod_nonneg _ (by omega)
  have h4 : (a / 64) % n < n := Int.emod_lt_of_pos _ hn
  obtain ⟨line, hline⟩ := vecGet_isSome (v := c.lines) h3 (by omega)
  have hset := vecSet_isSome c.lines (i := (a / 64) % n)
    ({ tag := (a / 64) / n, valid := true }) h3 (by omega)
  unfold accessCache
  rw [if_neg (by omega)]
  dsimp only
  rw [hdiv, h1, hmod, htag, hline]
  dsimp only
  by_cases hh : line.valid = true ∧ line.tag = (a / 64) / n
  · left
    rw [if_pos hh]
    refine ⟨?_, rfl⟩
    unfold Holds
    rw [h1, hline]
    cases line
    simp only at hh
    simp [hh.1, hh.2]
  · right
    rw [if_neg hh, hset]
    refine ⟨?_, rfl⟩
    intro hold
    unfold Holds at hold
    rw [h1, hline] at hold
    simp only [Option.some.injEq] at hold
    rw [hold] at hh
    exact hh ⟨rfl, rfl⟩

/-- A miss keeps the shape of the cache. -/
theorem cacheShape_install (c : Cache) (n : Int) (hs : CacheShape n c) (i : Nat)
    (line : CacheLine) (hits misses : Int) :
    CacheShape n { numLines := c.numLines, lines := c.lines.set i line, hits := hits,
                   misses := misses } := by
  obtain ⟨h1, h2⟩ := hs
  exact ⟨h1, by simpa using h2⟩

/-- The three outcomes of `accessMemoryHierarchy` for a non-negative address on caches of 8
and 16 lines. -/
theorem accessMemoryHierarchy_cases (L1 L2 : Cache) (h1 : CacheShape 8 L1)
    (h2 : CacheShape 16 L2) (a : Int) (ha : 0 ≤ a) :
    (Holds L1 (a / 64) ∧
      accessMemoryHierarchy a L1 L2 = some ({ L1 with hits := L1.hits + 1 }, L2)) ∨
    (¬ Holds L1 (a / 64) ∧ Holds L2 (a / 64) ∧
      accessMemoryHierarchy a L1 L2 = some
        ({ numLines := L1.numLines,
           lines := L1.lines.set ((a / 64) % 8).toNat { tag := (a / 64) / 8, valid := true },
           hits := L1.hits + 1, misses := L1.misses + 1 },
         { L2 with hits := L2.hits + 1 })) ∨
    (¬ Holds L1 (a / 64) ∧ ¬ Holds L2 (a / 64) ∧
      accessMemoryHierarchy a L1 L2 = some
        ({ numLines := L1.numLines,
           lines := L1.lines.set ((a / 64) % 8).toNat { tag := (a / 64) / 8, valid := true },
           hits := L1.hits + 1, misses := L1.misses + 1 },
         { numLines := L2.numLines,
           lines := L2.lines.set ((a / 64) % 16).toNat { tag := (a / 64) / 16, valid := true },
           hits := L2.hits + 1, misses := L2.misses + 1 })) := by
  unfold accessMemoryHierarchy
  rcases accessCache_cases L1 8 (by decide) h1 a ha with ⟨hh1, e1⟩ | ⟨hh1, e1⟩
  · left
    rw [e1]
    exact ⟨hh1, rfl⟩
  · right
    rw [e1]
    dsimp only
    -- the first level after its miss holds the block
    have hs1 := cacheShape_install L1 8 h1 ((a / 64) % 8).toNat
      { tag := (a / 64) / 8, valid := true } L1.hits (L1.misses + 1)
    have hold1 := holds_after_install L1 8 (a / 64) (by decide) h1 L1.hits (L1.misses + 1)
    have e3 : accessCache
        { numLines := L1.numLines,
          lines := L1.lines.set ((a / 64) % 8).toNat { tag := (a / 64) / 8, valid := true },
          hits := L1.hits, misses := L1.misses + 1 } a = some (true,
        { numLines := L1.numLines,
          lines := L1.lines.set ((a / 64) % 8).toNat { tag := (a / 64) / 8, valid := true },
          hits := L1.hits + 1, misses := L1.misses + 1 }) := by
      rcases accessCache_cases _ 8 (by decide) hs1 a ha with ⟨_, e⟩ | ⟨hn, _⟩
      · exact e
      · exact absurd hold1 hn
    rcases accessCache_cases L2 16 (by decide) h2 a ha with ⟨hh2, e2⟩ | ⟨hh2, e2⟩
    · left
      rw [e2]
      dsimp only
      rw [e3]
      exact ⟨hh1, hh2, rfl⟩
    · right
      rw [e2]
      dsimp only
      have hs2 := cacheShape_install L2 16 h2 ((a / 64) % 16).toNat
        { tag := (a / 64) / 16, valid := true } L2.hits (L2.misses + 1)
      have hold2 := holds_after_install L2 16 (a / 64) (by decide) h2 L2.hits
        (L2.misses + 1)
      have e4 : accessCache
          { numLines := L2.numLines,
            lines := L2.lines.set ((a / 64) % 16).toNat
              { tag := (a / 64) / 16, valid := true },
            hits := L2.hits, misses := L2.misses + 1 } a = some (true,
          { numLines := L2.numLines,
            lines := L2.lines.set ((a / 64) % 16).toNat
              { tag := (a / 64) / 16, valid := true },
            hits := L2.hits + 1, misses := L2.misses + 1 }) := by
        rcases accessCache_cases _ 16 (by decide) hs2 a ha with ⟨_, e⟩ | ⟨hn, _⟩
        · exact e
        · exact absurd hold2 hn
      rw [e4]
      dsimp only
      rw [e3]
      exact ⟨hh1, hh2, rfl⟩

/-! ## Cache hierarchy: invariants along a run -/

theorem vecGet_set_cases {α : Type} (v : List α) (k : Int) (x : α) (hk0 : 0 ≤ k)
    (hk1 : k < (v.length : Int)) (i : Int) (y : α)
    (h : vecGet (v.set k.toNat x) i = some y) :
    (i = k ∧ y = x) ∨ (i ≠ k ∧ vecGet v i = some y) := by
  have hset := vecSet_isSome v (i := k) x hk0 hk1
  by_cases hik : i = k
  · left
    rw [hik, vecGet_vecSet_same hset] at h
    simp only [Option.some.injEq] at h
    exact ⟨hik, h.symm⟩
  · right
    rw [vecGet_vecSet_other hset hik] at h
    exact ⟨hik, h⟩

/-- One access keeps the invariant of the pair of caches. -/
theorem cachesInv_access (L1 L2 : Cache) (hinv : CachesInv L1 L2) (a : Int) (ha : 0 ≤ a) :
    ∃ L1a L2a, accessMemoryHierarchy a L1 L2 = some (L1a, L2a) ∧ CachesInv L1a L2a ∧
      Holds L1a (a / 64) := by
  obtain ⟨h1, h2, ht, hi⟩ := hinv
  have hb : 0 ≤ a / 64 := Int.ediv_nonneg ha (by decide)
  have hl1 : (L1.lines.length : Int) = 8 := h1.2
  have hl2 : (L2.lines.length : Int) = 16 := h2.2
  have hn2 : L2.numLines = 16 := h2.1
  have hm0 : 0 ≤ (a / 64) % 8 := by omega
  have hm1 : (a / 64) % 8 < 8 := by omega
  have hk0 : 0 ≤ (a / 64) % 16 := by omega
  have hk1 : (a / 64) % 16 < 16 := by omega
  have hold1 := holds_after_install L1 8 (a / 64) (by decide) h1 (L1.hits + 1) (L1.misses + 1)
  have hs1 := cacheShape_install L1 8 h1 ((a / 64) % 8).toNat
    { tag := (a / 64) / 8, valid := true } (L1.hits + 1) (L1.misses + 1)
  have htags : TagsNonneg
      { numLines := L1.numLines,
        lines := L1.lines.set ((a / 64) % 8).toNat { tag := (a / 64) / 8, valid := true },
        hits := L1.hits + 1, misses := L1.misses + 1 } := by
    intro i line hline hv
    dsimp only at hline
    rcases vecGet_set_cases L1.lines _ _ hm0 (by omega) i line hline with ⟨_, h⟩ | ⟨_, h⟩
    · rw [h]
      dsimp only
      omega
    · exact ht i line h hv
  rcases accessMemoryHierarchy_cases L1 L2 h1 h2 a ha with
    ⟨hh1, e⟩ | ⟨_, hh2, e⟩ | ⟨_, _, e⟩
  · refine ⟨_, _, e, ⟨h1, h2, ht, hi⟩, ?_⟩
    exact hh1
  · refine ⟨_, _, e, ⟨hs1, h2, htags, ?_⟩, hold1⟩
    intro i line hline hv
    dsimp only at hline ⊢
    rcases vecGet_set_cases L1.lines _ _ hm0 (by omega) i line hline with ⟨hik, h⟩ | ⟨_, h⟩
    · rw [h, hik]
      dsimp only
      have e1 : (a / 64) / 8 * 8 + (a / 64) % 8 = a / 64 := by omega
      rw [e1]
      unfold Holds at hh2
      rw [hn2] at hh2
      exact hh2
    · exact hi i line h hv
  · refine ⟨_, _, e, ⟨hs1, cacheShape_install L2 16 h2 _ _ _ _, htags, ?_⟩, hold1⟩
    intro i line hline hv
    dsimp only at hline ⊢
    have hset2 := vecSet_isSome L2.lines (i := (a / 64) % 16)
      ({ tag := (a / 64) / 16, valid := true }) hk0 (by omega)
    rcases vecGet_set_cases L1.lines _ _ hm0 (by omega) i line hline with ⟨hik, h⟩ | ⟨hik, h⟩
    · rw [h, hik]
      dsimp only
      have e1 : (a / 64) / 8 * 8 + (a / 64) % 8 = a / 64 := by omega
      rw [e1]
      exact vecGet_vecSet_same hset2
    · obtain ⟨hi0, hi1, _⟩ := vecGet_eq_some h
      have hne : (line.tag * 8 + i) % 16 ≠ (a / 64) % 16 := by omega
      rw [vecGet_vecSet_other hset2 hne]
      exact hi i line h hv

/-- The empty caches satisfy the invariant. -/
theorem cachesInv_empty : CachesInv emptyCaches.1 emptyCaches.2 := by
  refine ⟨⟨rfl, rfl⟩, ⟨rfl, rfl⟩, ?_, ?_⟩
  · intro i line hline hv
    have := vecGet_replicate hline
    rw [this] at hv
    cases hv
  · intro i line hline hv
    have := vecGet_replicate hline
    rw [this] at hv
    cases hv

/-- Every run of accesses with non-negative addresses is defined and keeps the invariant. -/
theorem cacheRun_inv (addrs : List Int) :
    ∀ (L1 L2 : Cache), CachesInv L1 L2 → (∀ x ∈ addrs, 0 ≤ x) →
      ∃ L1a L2a, cacheRun (L1, L2) addrs = some (L1a, L2a) ∧ CachesInv L1a L2a := by
  induction addrs with
  | nil => intro L1 L2 h _; exact ⟨L1, L2, rfl, h⟩
  | cons a rest ih =>
    intro L1 L2 h hpos
    obtain ⟨L1a, L2a, e, hinv, _⟩ := cachesInv_access L1 L2 h a (hpos a (List.mem_cons_self _ _))
    obtain ⟨L1b, L2b, e2, hinv2⟩ := ih L1a L2a hinv
      (fun x hx => hpos x (List.mem_cons_of_mem _ hx))
    refine ⟨L1b, L2b, ?_, hinv2⟩
    unfold cacheRun
    dsimp only
    rw [e]
    exact e2

/-- In every state of the two caches reached from the empty caches, an access with a
non-negative address whose block L1 does not hold records one L1 miss and also one L1 hit, one
L2 hit, and one L2 miss besides when L2 does not hold the block either. -/
theorem miss_also_counts_hit (addrs : List Int) (a : Int) (haddrs : ∀ x ∈ addrs, 0 ≤ x)
    (ha : 0 ≤ a) :
    ∃ L1 L2 L1a L2a, cacheRun emptyCaches addrs = some (L1, L2) ∧
      accessMemoryHierarchy a L1 L2 = some (L1a, L2a) ∧
      (¬ Holds L1 (a / 64) →
        L1a.misses = L1.misses + 1 ∧ L1a.hits = L1.hits + 1 ∧ L2a.hits = L2.hits + 1 ∧
        (Holds L2 (a / 64) → L2a.misses = L2.misses) ∧
        (¬ Holds L2 (a / 64) → L2a.misses = L2.misses + 1)) := by
  obtain ⟨L1, L2, e, hinv⟩ := cacheRun_inv addrs _ _ cachesInv_empty haddrs
  rcases accessMemoryHierarchy_cases L1 L2 hinv.shape1 hinv.shape2 a ha with
    ⟨hh1, e2⟩ | ⟨_, hh2, e2⟩ | ⟨_, hh2, e2⟩
  · exact ⟨L1, L2, _, _, e, e2, fun hn => absurd hh1 hn⟩
  · exact ⟨L1, L2, _, _, e, e2, fun _ => ⟨rfl, rfl, rfl, fun _ => rfl, fun hn => absurd hh2 hn⟩⟩
  · exact ⟨L1, L2, _, _, e, e2, fun _ => ⟨rfl, rfl, rfl, fun h => absurd h hh2, fun _ => rfl⟩⟩

/-- C15. In every state of the two caches reached from the empty caches by accesses with
non-negative addresses, and for every address `a >= 0`, the access of `a` is defined and an
immediately following access of `a` is a first-level hit: it adds 1 to the hit counter of L1
and changes nothing else in L1 and nothing at all in L2. -/
theorem second_access_hits_first_level (addrs : List Int) (a : Int)
    (haddrs : ∀ x ∈ addrs, 0 ≤ x) (ha : 0 ≤ a) :
    ∃ L1 L2 L1a L2a, cacheRun emptyCaches addrs = some (L1, L2) ∧
      accessMemoryHierarchy a L1 L2 = some (L1a, L2a) ∧
      accessMemoryHierarchy a L1a L2a = some ({ L1a with hits := L1a.hits + 1 }, L2a) := by
  obtain ⟨L1, L2, e, hinv⟩ := cacheRun_inv addrs _ _ cachesInv_empty haddrs
  obtain ⟨L1a, L2a, e2, hinv2, hold⟩ := cachesInv_access L1 L2 hinv a ha
  refine ⟨L1, L2, L1a, L2a, e, e2, ?_⟩
  rcases accessMemoryHierarchy_cases L1a L2a hinv2.shape1 hinv2.shape2 a ha with
    ⟨_, e3⟩ | ⟨hn, _, _⟩ | ⟨hn, _, _⟩
  · exact e3
  · exact absurd hold hn
  · exact absurd hold hn

/-- The second access at a concrete run: after the accesses 0 and 512, two accesses of
address 0 in a row; the second only adds a first-level hit. -/
theorem second_access_hits_first_level_witness :
    ∃ L1 L2 L1a L2a, cacheRun emptyCaches [0, 512] = some (L1, L2) ∧
      accessMemoryHierarchy 0 L1 L2 = some (L1a, L2a) ∧
      accessMemoryHierarchy 0 L1a L2a = some ({ L1a with hits := L1a.hits + 1 }, L2a) :=
  second_access_hits_first_level [0, 512] 0 (by decide) (by decide)

/-- C20. Starting from the empty caches (8 and 16 lines), after any sequence of accesses with
non-negative addresses (every such run is defined) the hierarchy is inclusive: every valid
line of L1 at index `i` with tag `t` has `t >= 0`, and the block `b = t * 8 + i` it holds has
its L2 line at index `b mod 16` valid with tag `b div 16`. -/
theorem hierarchy_inclusive (addrs : List Int) (haddrs : ∀ x ∈ addrs, 0 ≤ x) :
    ∃ L1 L2, cacheRun emptyCaches addrs = some (L1, L2) ∧
      ∀ (i : Int) (line : CacheLine), vecGet L1.lines i = some line → line.valid = true →
        0 ≤ line.tag ∧
        vecGet L2.lines ((line.tag * 8 + i) % 16) =
          some { tag := (line.tag * 8 + i) / 16, valid := true } := by
  obtain ⟨L1, L2, e, hinv⟩ := cacheRun_inv addrs _ _ cachesInv_empty haddrs
  exact ⟨L1, L2, e, fun i line hl hv => ⟨hinv.tags i line hl hv, hinv.inclusive i line hl hv⟩⟩

/-- Inclusion at a concrete run: the accesses 0, 512, 1024 and 0 conflict in line 0 of L1; the
line then holds the block of address 0, which L2 holds in its line 0. -/
theorem hierarchy_inclusive_witness :
    ∃ L1 L2, cacheRun emptyCaches [0, 512, 1024, 0] = some (L1, L2) ∧
      vecGet L1.lines 0 = some { tag := 0, valid := true } ∧
      vecGet L2.lines ((0 * 8 + 0) % 16) = some { tag := (0 * 8 + 0) / 16, valid := true } :=
  match hierarchy_inclusive [0, 512, 1024, 0] (by decide) with
  | ⟨L1, L2, h1, h2⟩ =>
    have h3 : vecGet L1.lines 0 = some { tag := 0, valid := true } := by
      have h4 : (cacheRun emptyCaches [0, 512, 1024, 0]).map (fun c => vecGet c.1.lines 0) =
          some (some { tag := 0, valid := true }) := by decide
      rw [h1] at h4
      simpa using h4
    ⟨L1, L2, h1, h3, (h2 0 _ h3 rfl).2⟩

/-! ## Cache hierarchy: counted lookups -/

/-- C16 (the code at the failing input). On empty caches `access(0)` misses in both levels and
yet records, besides one miss per level, one hit per level: the calls that fill L2 and L1 are
counted lookups that hit the line the miss has just installed.  After `access(0)`,
`access(512)` the block of address 0 is in L2 but not in L1, and a third `access(0)` records
one L1 miss, one L2 hit and also one L1 hit. -/
theorem fill_counts_as_hit :
    (cacheRun emptyCaches [0]).map
      (fun c => (c.1.hits, c.1.misses, c.2.hits, c.2.misses)) = some (1, 1, 1, 1) ∧
    (cacheRun emptyCaches [0, 512]).map
      (fun c => (c.1.hits, c.1.misses, c.2.hits, c.2.misses)) = some (2, 2, 2, 2) ∧
    (cacheRun emptyCaches [0, 512, 0]).map
      (fun c => (c.1.hits, c.1.misses, c.2.hits, c.2.misses)) = some (3, 3, 3, 2) := by
  decide

end MemSim
